import Mathlib

/-!
Verification development for the gacha-pull-bookkeeper repository.

This file gives a shallow embedding, in Lean 4, of the parts of the
patchsync synchronization engine (tools/patchsync/main.go and
tools/patchsync/games.go) and of the presentation-layer reward
calculation (src/domain/calculation.js, src/domain/economy.js) that the
frozen claims C1..C10 are about, together with theorems settling each
claim.

Modelling conventions:
- Go and JS strings are modelled as Lean `String` / `List Char`; all the
  inputs relevant to the claims are ASCII, where Go byte indices and
  Lean character indices order identically.
- Go `float64` / JS numbers are modelled as `ℚ` (exact arithmetic); the
  numeric values appearing in the claims are exactly representable, and
  none of the claims depends on IEEE rounding artifacts.
- `strconv.ParseFloat` is modelled for finite decimal numerals
  (optional sign, digits, optional fraction, optional exponent); the
  special forms inf/nan/hex are outside the model.
- Go maps used as sets or association tables are modelled as lists with
  last-write-wins update; where the Go code iterates over a map the
  result is order-independent, or the code itself sorts afterwards.
-/

/-! ### Kernel-computable rational arithmetic

The Batteries implementations of Rat.add / Rat.mul / Rat.inv do not
reduce inside the kernel, so the embedding uses the following helpers,
each proved equal to the corresponding field operation on ℚ; concrete
evaluations then go through decide. -/

/-- Addition on ℚ (same value as the + of the field ℚ). -/
def qAdd (a b : ℚ) : ℚ := mkRat (a.num * b.den + b.num * a.den) (a.den * b.den)

/-- Multiplication on ℚ (same value as *). -/
def qMul (a b : ℚ) : ℚ := mkRat (a.num * b.num) (a.den * b.den)

/-- Negation on ℚ (same value as the additive inverse). -/
def qNeg (a : ℚ) : ℚ := mkRat (-a.num) a.den

/-- Subtraction on ℚ (same value as -). -/
def qSub (a b : ℚ) : ℚ := qAdd a (qNeg b)

/-- Multiplicative inverse on ℚ (same value as the field inverse,
sending 0 to 0). -/
def qInv (a : ℚ) : ℚ :=
  if a.num < 0 then mkRat (-(a.den : ℤ)) a.num.natAbs
  else mkRat (a.den : ℤ) a.num.natAbs

/-- Division on ℚ (same value as /). -/
def qDiv (a b : ℚ) : ℚ := qMul a (qInv b)

/-- Absolute value on ℚ. -/
def qAbs (a : ℚ) : ℚ := if a < 0 then qNeg a else a

/-! ### Go string primitives (strings.TrimSpace, strings.Split, ...) -/

/-- Whitespace recognised by Go strings.TrimSpace (the Unicode space
characters that occur in the inputs of interest). -/
def isWS (c : Char) : Bool :=
  c = ' ' || c = '\t' || c = '\n' || c = '\x0b' || c = '\x0c' || c = '\r' ||
  c = '\u0085' || c = ' '

/-- strings.TrimSpace, left part. -/
def trimLeftWS (l : List Char) : List Char := l.dropWhile isWS

/-- strings.TrimSpace, right part. -/
def trimRightWS (l : List Char) : List Char := (l.reverse.dropWhile isWS).reverse

/-- strings.TrimSpace over the character list of a Go string. -/
def goTrimSpace (l : List Char) : List Char := trimRightWS (trimLeftWS l)

/-- strings.TrimSpace on a `String`. -/
def goTrim (s : String) : String := (goTrimSpace s.data).asString

/-- Numeric value of a decimal digit character. -/
def digitVal (c : Char) : ℕ := c.toNat - 48

/-- Value of a string of decimal digits (most significant first). -/
def digitsVal (l : List Char) : ℕ := l.foldl (fun a c => 10 * a + digitVal c) 0

/-- strings.LastIndex for a single-character needle: index of the last
occurrence, -1 when absent (character index; for the ASCII tokens in
scope this matches the Go byte index). -/
def lastIdxOf (c : Char) : List Char → Int
  | [] => -1
  | a :: r =>
    let i := lastIdxOf c r
    if i ≥ 0 then i + 1 else if a = c then 0 else -1

/-- strings.Split with a single-character separator.  (The recursive
result is never empty, so the headD/tail form agrees with consing onto
its first chunk.) -/
def splitOnCh (c : Char) : List Char → List (List Char)
  | [] => [[]]
  | a :: r =>
    let rest := splitOnCh c r
    if a = c then [] :: rest
    else (a :: rest.headD []) :: rest.tail

/-- strings.TrimSuffix(s, percent sign): drops one trailing percent sign. -/
def trimPercentSuffix (l : List Char) : List Char :=
  match l.getLast? with
  | some '%' => l.dropLast
  | _ => l

/-- ASCII lowercasing (strings.ToLower / strings.EqualFold on the ASCII
inputs in scope). -/
def asciiLower (l : List Char) : List Char := l.map Char.toLower

/-! ### parseNumber (tools/patchsync/main.go, locale-tolerant numeric parsing) -/

/-- Strip one optional leading sign (the sign handling of
strconv.ParseFloat): the flag is true for a minus sign. -/
def stripSign (l : List Char) : Bool × List Char :=
  match l with
  | [] => (false, [])
  | c :: r => if c = '+' then (false, r) else if c = '-' then (true, r) else (false, c :: r)

/-- Model of strconv.ParseFloat on finite decimal numerals: optional
sign, integer digits, optional dot and fraction digits (at least one
digit overall), optional exponent part. Returns none exactly when the
token is not such a numeral. -/
def goParseFloat (l : List Char) : Option ℚ :=
  let sp := stripSign l
  let neg := sp.1
  let ip := sp.2.takeWhile Char.isDigit
  let r₁ := sp.2.dropWhile Char.isDigit
  let fp := if r₁.head? = some '.' then r₁.tail.takeWhile Char.isDigit else []
  let r₂ := if r₁.head? = some '.' then r₁.tail.dropWhile Char.isDigit else r₁
  if ip = [] ∧ fp = [] then none
  else
    let m : ℕ := digitsVal ip * 10 ^ fp.length + digitsVal fp
    let sm : ℤ := if neg then -(m : ℤ) else (m : ℤ)
    if r₂ = [] then some (mkRat sm (10 ^ fp.length))
    else if r₂.headD ' ' = 'e' ∨ r₂.headD ' ' = 'E' then
      let ep := stripSign r₂.tail
      let ed := ep.2.takeWhile Char.isDigit
      if ed = [] ∨ ep.2.dropWhile Char.isDigit ≠ [] then none
      else if ep.1 then some (mkRat sm (10 ^ fp.length * 10 ^ digitsVal ed))
      else some (mkRat (sm * 10 ^ digitsVal ed) (10 ^ fp.length))
    else none

/-- Replace a comma by a dot (strings.ReplaceAll(s, comma, dot), per character). -/
def commaToDot (c : Char) : Char := if c = ',' then '.' else c

/-- The thousands-regrouping pass of parseNumber: a token of
dot-separated, non-empty, all-digit groups in which every group after
the first has exactly three digits is rejoined without the dots. -/
def thousandsRegroup (l : List Char) : List Char :=
  if 0 < l.count '.' then
    let parts := splitOnCh '.' l
    let ok := decide (1 < parts.length) &&
      parts.all (fun p => !p.isEmpty && p.all Char.isDigit) &&
      (parts.drop 1).all (fun p => p.length = 3)
    if ok then parts.flatten else l
  else l

/-- The separator-disambiguation pass of parseNumber: when both a comma
and a dot occur, the one with the later last index is kept as the
decimal separator and the other is stripped; a lone comma is stripped
when repeated, merged when it groups exactly three trailing digits, and
read as a decimal point otherwise. -/
def sepNormalize (l : List Char) : List Char :=
  let lastComma := lastIdxOf ',' l
  let lastDot := lastIdxOf '.' l
  if lastComma ≥ 0 ∧ lastDot ≥ 0 then
    if lastComma > lastDot then (l.filter (fun c => c ≠ '.')).map commaToDot
    else l.filter (fun c => c ≠ ',')
  else if lastComma ≥ 0 then
    if 1 < l.count ',' then l.filter (fun c => c ≠ ',')
    else
      match splitOnCh ',' l with
      | [a, b] => if b.length = 3 then a ++ b else l.map commaToDot
      | _ => l.map commaToDot
  else l

/-- parseNumber (tools/patchsync/main.go): trims, strips non-breaking
spaces, spaces and a trailing percent sign, disambiguates separators,
regroups thousands, and parses; empty or unparsable tokens yield 0. -/
def parseNumberQ (s : String) : ℚ :=
  let t := goTrimSpace s.data
  if t = [] then 0
  else
    let c := trimPercentSuffix ((t.filter (fun ch => ch ≠ ' ')).filter (fun ch => ch ≠ ' '))
    (goParseFloat (thousandsRegroup (sepNormalize c))).getD 0

/-- Truncation toward zero (Go int(float64) conversion). -/
def ratTrunc (q : ℚ) : ℤ := if q < 0 then -(⌊-q⌋) else ⌊q⌋

/-- parseInt (tools/patchsync/main.go). -/
def parseIntQ (s : String) : ℤ := ratTrunc (parseNumberQ s)

/-! ### HTTP access control (isOriginAllowed / isLoopbackOrigin / isAuthorized) -/

/-- Model of net/url parsing for origin-shaped values
(scheme://host[:port][/...]): the remainder after the first scheme
separator, none when no separator occurs (in which case url.Parse
yields an empty host). -/
def dropSchemeSep : List Char → Option (List Char)
  | ':' :: '/' :: '/' :: r => some r
  | _ :: r => dropSchemeSep r
  | [] => none

/-- Model of url.Parse(origin).Hostname(): the authority up to the port
separator, with IPv6 brackets stripped; empty for non-URL inputs. -/
def originHostname (l : List Char) : List Char :=
  match dropSchemeSep l with
  | none => []
  | some rest =>
    let auth := rest.takeWhile (fun c => c ≠ '/' ∧ c ≠ '?' ∧ c ≠ '#')
    if auth.head? = some '[' then (auth.drop 1).takeWhile (fun c => c ≠ ']')
    else auth.takeWhile (fun c => c ≠ ':')

/-- isLoopbackOrigin (tools/patchsync/main.go). -/
def isLoopbackOrigin (origin : String) : Bool :=
  if asciiLower (goTrimSpace origin.data) = "null".data then true
  else
    let host := asciiLower (goTrimSpace (originHostname (goTrimSpace origin.data)))
    host = "localhost".data || host = "127.0.0.1".data || host = "::1".data

/-- isOriginAllowed (tools/patchsync/main.go); the allow-list set is a
list of configured origins. -/
def isOriginAllowed (origin : String) (allowed : List String) : Bool :=
  if origin = "" then true
  else if allowed.contains "*" then true
  else if allowed.contains origin then true
  else isLoopbackOrigin origin

/-- The CORS admission check of withCORS (tools/patchsync/main.go):
true exactly when the request is not rejected for its Origin header. -/
def withCORSAllows (originHeader : String) (allowed : List String) : Bool :=
  let origin := goTrim originHeader
  if origin ≠ "" then isOriginAllowed origin allowed else true

/-- isAuthorized (tools/patchsync/main.go): an empty or all-whitespace
configured token admits every request; otherwise the trimmed request
header must equal the configured token byte for byte
(subtle.ConstantTimeCompare equality). -/
def isAuthorized (authToken : String) (headerToken : String) : Bool :=
  if goTrimSpace authToken.data = [] then true
  else goTrimSpace headerToken.data = authToken.data

/-! ### Go domain model (tools/patchsync/main.go types) -/

/-- Rewards (tools/patchsync/main.go): the canonical, game-agnostic
resource bundle. -/
structure Rewards where
  oroberyl : ℚ
  origeometry : ℚ
  chartered : ℚ
  basic : ℚ
  firewalker : ℚ
  messenger : ℚ
  hues : ℚ
  arsenal : ℚ
deriving DecidableEq

/-- zeroRewards (tools/patchsync/main.go). -/
def zeroRewards : Rewards :=
  ⟨0, 0, 0, 0, 0, 0, 0, 0⟩

/-- Rewards.add (tools/patchsync/main.go): componentwise addition. -/
def Rewards.addR (r other : Rewards) : Rewards where
  oroberyl := qAdd r.oroberyl other.oroberyl
  origeometry := qAdd r.origeometry other.origeometry
  chartered := qAdd r.chartered other.chartered
  basic := qAdd r.basic other.basic
  firewalker := qAdd r.firewalker other.firewalker
  messenger := qAdd r.messenger other.messenger
  hues := qAdd r.hues other.hues
  arsenal := qAdd r.arsenal other.arsenal

/-- Rewards.hasAny (tools/patchsync/main.go). -/
def Rewards.hasAny (r : Rewards) : Bool :=
  r.oroberyl ≠ 0 || r.origeometry ≠ 0 || r.chartered ≠ 0 || r.basic ≠ 0 ||
  r.firewalker ≠ 0 || r.messenger ≠ 0 || r.hues ≠ 0 || r.arsenal ≠ 0

/-- Scaler (tools/patchsync/main.go). -/
structure Scaler where
  type : String
  unit : String
  everyDays : ℤ
  rounding : String
  rewards : Rewards
deriving DecidableEq

/-- BPCrateModel (tools/patchsync/main.go). -/
structure BPCrateModel where
  type : String
  daysToLevel60T3 : ℤ
  tier2XpBonusRate : ℚ
  tier3XpBonusRate : ℚ
deriving DecidableEq

/-- Source (tools/patchsync/main.go); the Pulls pointer is an Option. -/
structure Source where
  id : String
  label : String
  gate : String
  optionKey : Option String
  countInPulls : Bool
  pulls : Option ℚ
  rewards : Rewards
  costs : Rewards
  scalers : List Scaler
  bpCrateModel : Option BPCrateModel
deriving DecidableEq

/-- The source() constructor helper (tools/patchsync/main.go). -/
def mkSource (id label gate : String) (optionKey : Option String)
    (countInPulls : Bool) (rewards : Rewards) : Source where
  id := id
  label := label
  gate := gate
  optionKey := optionKey
  countInPulls := countInPulls
  pulls := none
  rewards := rewards
  costs := zeroRewards
  scalers := []
  bpCrateModel := none

/-- Patch (tools/patchsync/main.go); nil and empty Tags slices are
identified (their JSON serializations coincide under omitempty). -/
structure Patch where
  id : String
  patch : String
  versionName : String
  startDate : String
  durationDays : ℤ
  tags : List String
  notes : String
  sources : List Source
deriving DecidableEq

/-! ### Name normalization and version sort keys -/

/-- Concatenation of chunks separated by a single character
(strings.Join with a one-character separator). -/
def joinSep (c : Char) : List (List Char) → List Char
  | [] => []
  | [p] => p
  | p :: ps => p ++ c :: joinSep c ps

/-- strings.Fields: whitespace-separated words. -/
def goFieldsAux (acc : List Char) : List Char → List (List Char)
  | [] => if acc = [] then [] else [acc.reverse]
  | c :: r =>
    if isWS c then
      if acc = [] then goFieldsAux [] r else acc.reverse :: goFieldsAux [] r
    else goFieldsAux (c :: acc) r

/-- strings.Fields on a character list. -/
def goFields (l : List Char) : List (List Char) := goFieldsAux [] l

/-- strings.TrimSuffix(s, colon): drops one trailing colon. -/
def trimColonSuffix (l : List Char) : List Char :=
  match l.getLast? with
  | some ':' => l.dropLast
  | _ => l

/-- Replacement of typographic apostrophe (U+2019) and backquote
(U+0060) by an ASCII apostrophe (U+0027), as in normalizeName. -/
def fixApos (c : Char) : Char :=
  if c = '’' ∨ c = Char.ofNat 96 then Char.ofNat 39 else c

/-- normalizeName (tools/patchsync/main.go): trim, drop one trailing
colon, normalize apostrophes, lowercase, collapse inner whitespace. -/
def normalizeName (s : String) : String :=
  (joinSep ' ' (goFields (asciiLower ((trimColonSuffix (goTrimSpace s.data)).map fixApos)))).asString

/-- normalizePatchName (tools/patchsync/games.go): trim and collapse
inner whitespace. -/
def normalizePatchName (s : String) : String :=
  (joinSep ' ' (goFields (goTrimSpace s.data))).asString

/-- RE2 whitespace class (backslash-s) as used by the Go regexps. -/
def isRegexSpace (c : Char) : Bool :=
  c = ' ' || c = '\t' || c = '\n' || c = '\x0c' || c = '\r'

/-- Largest value accepted by strconv.Atoi on a 64-bit platform. -/
def maxInt64 : ℕ := 9223372036854775807

/-- versionSortKey (tools/patchsync/main.go): the leading
major.minor prefix of a version string (regexp caret-backslash-s-star
(digits)dot(digits)), none when the prefix does not match or Atoi
overflows. -/
def versionSortKey (s : String) : Option (ℕ × ℕ) :=
  let l := s.data.dropWhile isRegexSpace
  let d1 := l.takeWhile Char.isDigit
  let r1 := l.dropWhile Char.isDigit
  if d1 = [] then none
  else
    match r1 with
    | '.' :: r2 =>
      let d2 := r2.takeWhile Char.isDigit
      if d2 = [] then none
      else if digitsVal d1 > maxInt64 ∨ digitsVal d2 > maxInt64 then none
      else some (digitsVal d1, digitsVal d2)
    | _ => none

/-- Go byte-wise string comparison (values are ASCII, where the
character order and the UTF-8 byte order agree). -/
def charListLex : List Char → List Char → Bool
  | [], [] => false
  | [], _ :: _ => true
  | _ :: _, [] => false
  | a :: as, b :: bs =>
    if a < b then true else if b < a then false else charListLex as bs

/-- Go byte-wise string comparison (values are ASCII, where the
character order and the UTF-8 byte order agree). -/
def strLexLess (a b : String) : Bool := charListLex a.data b.data

/-- The comparator of sortVersionStrings and sortPatches
(tools/patchsync/main.go): numeric (major, minor) order when both keys
parse, otherwise plain lexical string order. -/
def versionLess (a b : String) : Bool :=
  match versionSortKey a, versionSortKey b with
  | some ka, some kb =>
    if ka.1 ≠ kb.1 then decide (ka.1 < kb.1) else decide (ka.2 < kb.2)
  | _, _ => strLexLess a b

/-- Insertion of an element into a list according to a strict
comparator: the element goes before the first entry it compares less
than.  Together with insSort this models Go sort.Slice, whose output
agrees with any comparison sort whenever the comparator is a strict
weak order on the elements. -/
def insLess (less : α → α → Bool) (a : α) : List α → List α
  | [] => [a]
  | b :: r => if less a b then a :: b :: r else b :: insLess less a r

/-- Comparison sort by a strict comparator (model of sort.Slice). -/
def insSort (less : α → α → Bool) : List α → List α
  | [] => []
  | a :: r => insLess less a (insSort less r)

/-- sortVersionStrings (tools/patchsync/main.go). -/
def sortVersionStrings (l : List String) : List String := insSort versionLess l

/-- sortPatches (tools/patchsync/main.go): sorts by the version key of
the Patch field, lexical for pairs with a non-conforming key. -/
def sortPatches (l : List Patch) : List Patch :=
  insSort (fun p q => versionLess p.patch q.patch) l

/-! ### uniqueSheetNames / uniqueStrings / merge (tools/patchsync/main.go) -/

/-- uniqueSheetNames: drops blank names and later duplicates (compared
after trimming), keeping the original spelling of the first
occurrence. -/
def uniqueSheetNamesAux (seen : List String) : List String → List String
  | [] => []
  | x :: r =>
    let k := goTrim x
    if k = "" ∨ seen.contains k then uniqueSheetNamesAux seen r
    else x :: uniqueSheetNamesAux (k :: seen) r

/-- uniqueSheetNames (tools/patchsync/main.go). -/
def uniqueSheetNames (l : List String) : List String := uniqueSheetNamesAux [] l

/-- uniqueStrings (tools/patchsync/main.go): like uniqueSheetNames but
the kept entries are themselves trimmed. -/
def uniqueStringsAux (seen : List String) : List String → List String
  | [] => []
  | x :: r =>
    let k := goTrim x
    if k = "" ∨ seen.contains k then uniqueStringsAux seen r
    else k :: uniqueStringsAux (k :: seen) r

/-- uniqueStrings (tools/patchsync/main.go). -/
def uniqueStrings (l : List String) : List String := uniqueStringsAux [] l

/-- Replace the value of a key in an association list, appending when
absent (Go map insertion combined with the explicit order list). -/
def upsertAssoc (l : List (String × α)) (key : String) (v : α) : List (String × α) :=
  match l with
  | [] => [(key, v)]
  | (k, w) :: r => if k = key then (k, v) :: r else (k, w) :: upsertAssoc r key v

/-- One step of mergePatchesByID: record the patch under its ID,
remembering first-seen order and skipping blank IDs. -/
def mergeStep (st : List String × List (String × Patch)) (p : Patch) :
    List String × List (String × Patch) :=
  if goTrim p.id = "" then st
  else
    let order := if (st.2.lookup p.id).isSome then st.1 else st.1 ++ [p.id]
    (order, upsertAssoc st.2 p.id p)

/-- mergePatchesByID (tools/patchsync/main.go): union by patch ID,
additions overriding existing entries, result sorted by sortPatches. -/
def mergePatchesByID (existing additions : List Patch) : List Patch :=
  let st := (existing ++ additions).foldl mergeStep ([], [])
  sortPatches (st.1.filterMap (fun id => st.2.lookup id))

/-! ### Wuthering Waves sheet parsing (tools/patchsync/games.go)

The CSV layer (encoding/csv ReadAll) is modelled by taking the record
matrix, a list of rows of cells, as the input; parseSheetToPatchWuwa
below embeds everything the Go function does after ReadAll. -/

/-- getCell (tools/patchsync/main.go): trimmed cell, empty out of
range. -/
def getCell (record : List String) (idx : ℕ) : String :=
  match record.get? idx with
  | some v => goTrim v
  | none => ""

/-- strings.Contains for character lists. -/
def containsChars (hay needle : List Char) : Bool :=
  (List.range (hay.length + 1)).any (fun i => needle.isPrefixOf (hay.drop i))

/-- Integer cast from ℤ to ℚ with kernel-computable value. -/
def qOfInt (i : ℤ) : ℚ := mkRat i 1

/-- One duration candidate of findWuwaDurationDays: the cell to the
right, else the cell below-right. -/
def wuwaDurationFromCell (records : List (List String)) (rowIdx colIdx : ℕ) : Option ℤ :=
  let d1 := parseIntQ (getCell (records.getD rowIdx []) (colIdx + 1))
  if d1 > 0 then some d1
  else if rowIdx + 1 < records.length then
    let d2 := parseIntQ (getCell (records.getD (rowIdx + 1) []) (colIdx + 1))
    if d2 > 0 then some d2 else none
  else none

/-- The row-major scan positions whose normalized label contains
"version length". -/
def findWuwaScan (records : List (List String)) : List (ℕ × ℕ) :=
  records.enum.flatMap (fun rc =>
    rc.2.enum.filterMap (fun cc =>
      if containsChars (normalizeName cc.2).data "version length".data
      then some (rc.1, cc.1) else none))

/-- findWuwaDurationDays (tools/patchsync/games.go): first successful
duration candidate in row-major order, 0 when none. -/
def findWuwaDurationDays (records : List (List String)) : ℤ :=
  (((findWuwaScan records).filterMap
    (fun rc => wuwaDurationFromCell records rc.1 rc.2)).head?).getD 0

/-- Model of the anchored regexp patchVersionWithDatePattern
((?i) version digits dot digits, optional spaces, parenthesized
capture): returns the captured characters. -/
def matchVersionWithDate (l : List Char) : Option (List Char) :=
  if asciiLower (l.take 7) = "version".data then
    let r0 := l.drop 7
    let ws := r0.takeWhile isRegexSpace
    let r1 := r0.dropWhile isRegexSpace
    if ws = [] then none
    else
      let d1 := r1.takeWhile Char.isDigit
      let r2 := r1.dropWhile Char.isDigit
      if d1 = [] then none
      else
        match r2 with
        | '.' :: r3 =>
          let d2 := r3.takeWhile Char.isDigit
          let r4 := r3.dropWhile Char.isDigit
          if d2 = [] then none
          else
            let r5 := r4.dropWhile isRegexSpace
            match r5 with
            | '(' :: r6 =>
              let cap := r6.takeWhile (fun c => c ≠ ')')
              if cap = [] then none
              else if (r6.dropWhile (fun c => c ≠ ')')).head? = some ')' then some cap
              else none
            | _ => none
        | _ => none
  else none

/-- Number of days of a month (Gregorian), for the validity check
performed by time.Parse. -/
def daysInMonth (month year : ℕ) : ℕ :=
  if month = 2 then
    if year % 4 = 0 ∧ (year % 100 ≠ 0 ∨ year % 400 = 0) then 29 else 28
  else if month = 4 ∨ month = 6 ∨ month = 9 ∨ month = 11 then 30
  else 31

/-- Left-pad a numeral to two digits (time.Format "01", "02"). -/
def pad2 (n : ℕ) : String := if n < 10 then "0" ++ toString n else toString n

/-- An ISO date when day/month/year are a valid calendar date. -/
def mkISODate (day month year : ℕ) : Option String :=
  if 1 ≤ month ∧ month ≤ 12 ∧ 1 ≤ day ∧ day ≤ daysInMonth month year
  then some (toString year ++ "-" ++ pad2 month ++ "-" ++ pad2 day)
  else none

/-- A date component of one or two digits. -/
def dateComp2 (l : List Char) : Option ℕ :=
  if (l.length = 1 ∨ l.length = 2) ∧ l.all Char.isDigit then some (digitsVal l) else none

/-- A four-digit year component. -/
def dateComp4 (l : List Char) : Option ℕ :=
  if l.length = 4 ∧ l.all Char.isDigit then some (digitsVal l) else none

/-- parseDateToISO (tools/patchsync/games.go), modelling the time.Parse
layout list: dotted values are day.month.year; slashed values are tried
day/month/year first and month/day/year second; invalid dates yield the
empty string. -/
def parseDateToISO (s : String) : String :=
  let v := goTrimSpace s.data
  if v = [] then ""
  else
    match splitOnCh '.' v with
    | [a, b, c] =>
      match dateComp2 a, dateComp2 b, dateComp4 c with
      | some day, some month, some year => (mkISODate day month year).getD ""
      | _, _, _ => ""
    | _ =>
      match splitOnCh '/' v with
      | [a, b, c] =>
        match dateComp2 a, dateComp2 b, dateComp4 c with
        | some x, some y, some year =>
          match mkISODate x y year with
          | some d => d
          | none => (mkISODate y x year).getD ""
        | _, _, _ => ""
      | _ => ""

/-- parseWuwaRewards (tools/patchsync/games.go): columns 1..4 are
astrite, radiant tide, forging tide, lustrous tide. -/
def parseWuwaRewards (record : List String) : Rewards where
  oroberyl := parseNumberQ (getCell record 1)
  origeometry := 0
  chartered := parseNumberQ (getCell record 2)
  basic := parseNumberQ (getCell record 4)
  firewalker := parseNumberQ (getCell record 3)
  messenger := 0
  hues := 0
  arsenal := 0

/-- The aggregate-row labels recognised by parseSheetToPatchWuwa. -/
def wuwaAggregateNames : List String :=
  ["version events", "permanent content", "mailbox/miscellaneous",
   "recurring sources", "paid pioneer podcast", "lunite subscription",
   "total f2p", "total paid"]

/-- The aggregateRows map of parseSheetToPatchWuwa: last row with a
recognised normalized label wins. -/
def wuwaAggregateRows (records : List (List String)) : List (String × Rewards) :=
  records.foldl (fun acc record =>
    let name := normalizeName (getCell record 0)
    if name ≠ "" ∧ wuwaAggregateNames.contains name
    then upsertAssoc acc name (parseWuwaRewards record)
    else acc) []

/-- wwPullsFromRewards (tools/patchsync/games.go): astrite / 160 plus
radiant tides plus forging tides. -/
def wwPullsFromRewards (r : Rewards) : ℚ :=
  qAdd (qAdd (qDiv r.oroberyl 160) r.chartered) r.firewalker

/-- The reconciliation tolerance (const epsilon = 0.001). -/
def wuwaEpsilon : ℚ := mkRat 1 1000

/-- The free-tier reward recomputation of parseSheetToPatchWuwa:
events + permanent + mailbox + recurring. -/
def wuwaActualF2PRewards (events permanent mailbox recurring : Rewards) : Rewards :=
  ((zeroRewards.addR events).addR permanent |>.addR mailbox).addR recurring

/-- The paid-tier reward recomputation of parseSheetToPatchWuwa: the
free tier plus the paid podcast plus durationDays times the monthly
astrite value. -/
def wuwaActualPaidRewards (events permanent mailbox recurring paidPodcast monthly : Rewards)
    (durationDays : ℤ) : Rewards :=
  let base := (wuwaActualF2PRewards events permanent mailbox recurring).addR paidPodcast
  { base with oroberyl := qAdd base.oroberyl (qMul monthly.oroberyl (qOfInt durationDays)) }

/-- The fixed source list built by parseSheetToPatchWuwa, including the
per-day astrite scaler on the subscription source when present. -/
def wuwaSources (events permanent mailbox recurring paidPodcast monthly : Rewards) :
    List Source :=
  let monthlySource := mkSource "monthly" "Lunite Subscription" "monthly" none true
    { zeroRewards with
        chartered := monthly.chartered
        basic := monthly.basic
        firewalker := monthly.firewalker
        messenger := monthly.messenger
        hues := monthly.hues
        arsenal := monthly.arsenal }
  let monthlySource :=
    if monthly.oroberyl > 0 then
      { monthlySource with scalers :=
          [{ type := "per_duration", unit := "day", everyDays := 1, rounding := "floor",
             rewards := { zeroRewards with oroberyl := monthly.oroberyl } }] }
    else monthlySource
  [mkSource "events" "Version Events" "always" none true events,
   mkSource "permanent" "Permanent Content" "always" none true permanent,
   mkSource "mailbox" "Mailbox/Miscellaneous" "always" none true mailbox,
   mkSource "dailyActivity" "Daily Activity" "always" none true zeroRewards,
   mkSource "endgameModes" "Endgame Modes" "always" none true recurring,
   mkSource "coralShop" "Coral Shop" "always" none true zeroRewards,
   mkSource "weaponPulls" "Weapon Pulls" "always" none true zeroRewards,
   mkSource "paidPodcast" "Paid Pioneer Podcast" "bp2" none true paidPodcast,
   monthlySource]

/-- parseSheetToPatchWuwa (tools/patchsync/games.go), from the parsed
record matrix onward. -/
def parseSheetToPatchWuwa (sheetName : String) (records : List (List String)) :
    Except String Patch :=
  let normalizedSheetName := normalizePatchName sheetName
  if records.length < 3 then .error "sheet has no data rows"
  else
    let durationDays := findWuwaDurationDays records
    if durationDays ≤ 0 then .error "unable to determine durationDays from sheet"
    else
      let vn0 := goTrim (getCell (records.getD 0 []) 0)
      let vn1 := if (asciiLower vn0.data).take 8 = "version ".data then "" else vn0
      let startDate :=
        match (records.filterMap (fun record =>
          matchVersionWithDate (goTrim (getCell record 0)).data)).head? with
        | some cap => parseDateToISO cap.asString
        | none => ""
      let versionName := if vn1 = "" then "Version " ++ normalizedSheetName else vn1
      let agg := wuwaAggregateRows records
      match agg.lookup "version events", agg.lookup "permanent content",
            agg.lookup "mailbox/miscellaneous", agg.lookup "recurring sources" with
      | some events, some permanent, some mailbox, some recurring =>
        let paidPodcast := (agg.lookup "paid pioneer podcast").getD zeroRewards
        let monthly := (agg.lookup "lunite subscription").getD zeroRewards
        let sources := wuwaSources events permanent mailbox recurring paidPodcast monthly
        let check : Except String Unit :=
          match agg.lookup "total f2p", agg.lookup "total paid" with
          | some totalF2P, some totalPaid =>
            let expectedF2PPulls := wwPullsFromRewards totalF2P
            let expectedPaidPulls := wwPullsFromRewards totalPaid
            let actualF2PPulls :=
              wwPullsFromRewards (wuwaActualF2PRewards events permanent mailbox recurring)
            let actualPaidPulls :=
              wwPullsFromRewards (wuwaActualPaidRewards events permanent mailbox recurring
                paidPodcast monthly durationDays)
            if qAbs (qSub expectedF2PPulls actualF2PPulls) > wuwaEpsilon then
              .error "f2p mismatch: expected pulls from Total F2P differ"
            else if qAbs (qSub expectedPaidPulls actualPaidPulls) > wuwaEpsilon then
              .error "paid mismatch: expected pulls from Total Paid differ"
            else .ok ()
          | _, _ => .ok ()
        match check with
        | .error e => .error e
        | .ok _ =>
          .ok { id := normalizedSheetName
                patch := normalizedSheetName
                versionName := versionName
                startDate := startDate
                durationDays := durationDays
                tags := []
                notes := "Generated from Wuthering Waves Google Sheets by patchsync"
                sources := sources }
      | _, _, _, _ => .error "missing required aggregate rows in Wuthering Waves sheet"

/-! ### Data-sheet pull overrides (tools/patchsync/games.go) -/

/-- math.Round: round half away from zero. -/
def goRound (x : ℚ) : ℤ :=
  if x < 0 then -(⌊qAdd (qNeg x) (mkRat 1 2)⌋) else ⌊qAdd x (mkRat 1 2)⌋

/-- roundToTenth (tools/patchsync/games.go). -/
def roundToTenth (v : ℚ) : ℚ := mkRat (goRound (qMul v 10)) 10

/-- In-place update of a list element. -/
def listModify (f : α → α) : ℕ → List α → List α
  | _, [] => []
  | 0, a :: r => f a :: r
  | n + 1, a :: r => a :: listModify f n r

/-- The sourceIndex map of the override appliers: source ID to its
index, later occurrences overriding earlier ones. -/
def sourceIndexOf (sources : List Source) : List (String × ℕ) :=
  sources.enum.foldl (fun acc is => upsertAssoc acc is.2.id is.1) []

/-- The per-source phase of applyWuwaDataPullOverrides: every entry of
the Data-sheet mapping except the total marker overrides the pull count
of the source with that ID (rounded to one decimal). -/
def wuwaApplySourcePulls (sources : List Source) (sourcePulls : List (String × ℚ)) :
    List Source :=
  sourcePulls.foldl (fun srcs kv =>
    if kv.1 = "__totalF2P" then srcs
    else
      match (sourceIndexOf sources).lookup kv.1 with
      | some idx => listModify (fun src => { src with pulls := some (roundToTenth kv.2) }) idx srcs
      | none => srcs) sources

/-- The pull-eligible free-tier source IDs of the Wuthering Waves
catch-all reconciliation. -/
def wuwaF2PSourceIDs : List String :=
  ["events", "permanent", "mailbox", "dailyActivity", "endgameModes",
   "coralShop", "weaponPulls"]

/-- The recomputed free-tier pull sum of applyWuwaDataPullOverrides:
sources with an assigned pull count, counting toward pulls, and in the
free-tier ID set. -/
def wuwaF2PPullSum (sources : List Source) : ℚ :=
  sources.foldl (fun s src =>
    if src.pulls.isSome ∧ src.countInPulls ∧ wuwaF2PSourceIDs.contains src.id
    then qAdd s (src.pulls.getD 0) else s) 0

/-- A source with its pull-count override replaced. -/
def srcWithPulls (src : Source) (v : ℚ) : Source := { src with pulls := some v }

/-- A patch with its source list replaced. -/
def patchWithSources (p : Patch) (ss : List Source) : Patch := { p with sources := ss }

/-- The summand one source adds to the recomputed free-tier pull sum. -/
def wuwaSrcContribution (src : Source) : ℚ :=
  if src.pulls.isSome ∧ src.countInPulls ∧ wuwaF2PSourceIDs.contains src.id
  then src.pulls.getD 0 else 0

/-- applyWuwaDataPullOverrides (tools/patchsync/games.go). -/
def applyWuwaDataPullOverrides (patch : Patch)
    (pullsByPatch : List (String × List (String × ℚ))) : Except String Patch :=
  let patchName := normalizePatchName patch.patch
  match pullsByPatch.lookup patchName with
  | none => .error ("Data sheet has no row for patch " ++ patchName)
  | some sourcePulls =>
    let sources1 := wuwaApplySourcePulls patch.sources sourcePulls
    match sourcePulls.lookup "__totalF2P" with
    | some total =>
      let sum := wuwaF2PPullSum sources1
      let delta := qSub total sum
      if delta ≠ 0 then
        match (sourceIndexOf patch.sources).lookup "endgameModes" with
        | some idx =>
          match sources1.get? idx with
          | some src =>
            let base := src.pulls.getD 0
            let src1 : Source := { src with pulls := some (roundToTenth (qAdd base delta)) }
            .ok { patch with sources := sources1.set idx src1 }
          | none => .ok { patch with sources := sources1 }
        | none => .ok { patch with sources := sources1 }
      else .ok { patch with sources := sources1 }
    | none => .ok { patch with sources := sources1 }

/-! ### Patch equivalence and change tracking (tools/patchsync/main.go) -/

/-- comparablePatch (tools/patchsync/main.go): the fields compared by
patchesEquivalent; Notes is excluded and the string fields are
trimmed. -/
structure ComparablePatch where
  id : String
  patch : String
  versionName : String
  startDate : String
  durationDays : ℤ
  tags : List String
  sources : List Source
deriving DecidableEq

/-- patchComparableValue (tools/patchsync/main.go). -/
def patchComparableValue (p : Patch) : ComparablePatch where
  id := goTrim p.id
  patch := goTrim p.patch
  versionName := goTrim p.versionName
  startDate := goTrim p.startDate
  durationDays := p.durationDays
  tags := p.tags
  sources := p.sources

/-- patchesEquivalent (tools/patchsync/main.go): JSON equality of the
comparable values, which for this data model is structural equality. -/
def patchesEquivalent (a b : Patch) : Bool :=
  decide (patchComparableValue a = patchComparableValue b)

/-- sourcesEquivalent (tools/patchsync/main.go): JSON equality of two
sources, i.e. structural equality. -/
def sourcesEquivalent (a b : Source) : Bool := decide (a = b)

/-- sort.Strings (lexical byte order). -/
def sortStrings (l : List String) : List String := insSort strLexLess l

/-- Deduplication keeping first occurrences. -/
def dedupFirstAux (seen : List String) : List String → List String
  | [] => []
  | x :: r =>
    if seen.contains x then dedupFirstAux seen r
    else x :: dedupFirstAux (x :: seen) r

/-- Deduplication keeping first occurrences. -/
def dedupFirst (l : List String) : List String := dedupFirstAux [] l

/-- sourceByID (tools/patchsync/main.go): sources keyed by trimmed ID,
blank IDs skipped, later entries overriding earlier ones. -/
def sourceByID (p : Patch) : List (String × Source) :=
  p.sources.foldl (fun acc src =>
    let sid := goTrim src.id
    if sid = "" then acc else upsertAssoc acc sid src) []

/-- changedSourceIDs (tools/patchsync/main.go): the sorted IDs present
on either side whose sources are missing on one side or differ. -/
def changedSourceIDs (previous next : Patch) : List String :=
  let prevA := sourceByID previous
  let nextA := sourceByID next
  let ids := sortStrings (dedupFirst (prevA.map Prod.fst ++ nextA.map Prod.fst))
  ids.filter (fun id =>
    match prevA.lookup id, nextA.lookup id with
    | some p, some n => !(sourcesEquivalent p n)
    | _, _ => true)

/-- patchIDOrFallback (tools/patchsync/main.go). -/
def patchIDOrFallback (p : Patch) : String :=
  let pid := goTrim p.patch
  if pid = "" then goTrim p.id else pid

/-! ### The sync loop (runSync, tools/patchsync/main.go)

runSync is modelled from the point where the per-game inputs have been
fetched: the environment carries the auto-discovered sheet names, the
per-sheet composite of fetch, parse and Data-sheet override application
(one Except-valued function: each of those failures aborts or skips a
sheet in exactly the same way), and the Data-sheet tag table.  The
mergeTagLists helper is code of the repository that is not under src/
(only its caller is): it is taken as an opaque parameter of the
environment.  Branch creation is outside the model (the claims fix
createBranch to false).  The generated output file is represented by
the patch list it holds; writeGeneratedFile followed by
readGeneratedPatches is modelled by readBackGenerated below. -/

/-- One change-log entry (patchChangeLogEntry). -/
structure ChangeEntry where
  patch : String
  changeType : String
  changedSources : List String
deriving DecidableEq

/-- The loop state of runSync over the sheet list. -/
structure SyncLoopState where
  patches : List Patch
  parsedSheetNames : List String
  skipped : List String
  changeEntries : List ChangeEntry
  validRows : ℕ
  existingByID : List (String × Patch)
deriving DecidableEq

/-- The per-run environment: discovered names, the per-sheet resolver
(fetch plus parse plus override application), the Data-sheet tag table,
and the tag merge helper. -/
structure SyncEnv where
  discovered : List String
  resolve : String → Except String Patch
  dataTags : List (String × List String)
  mergeTags : List String → List String → List String

/-- The configuration fields of SyncConfig that the modelled part of
runSync reads. -/
structure SyncCfg where
  sheetNames : List String
  skipExisting : Bool
  dryRun : Bool

/-- The observable outcome of a run: the accepted patches, skipped ids,
parsed sheet names, change entries, merged set, the new output file
content when one is written, and whether a change-log record is
appended. -/
structure SyncRunResult where
  patches : List Patch
  skipped : List String
  sheetNames : List String
  changeEntries : List ChangeEntry
  allPatches : List Patch
  written : Option (List Patch)
  changeLogWritten : Bool
deriving DecidableEq

/-- The existingGeneratedByID map of runSync (patches read back from
the output file, keyed by patchIDOrFallback, blank keys skipped). -/
def mkExistingByID (existing : List Patch) : List (String × Patch) :=
  existing.foldl (fun acc p =>
    let pid := patchIDOrFallback p
    if pid ≠ "" then upsertAssoc acc pid p else acc) []

/-- The accept path of the loop body: record an added/updated change
entry, queue the patch, and update the in-run ID map. -/
def processSheetAccept (st : SyncLoopState) (sheetName patchID : String)
    (patch : Patch) (prev : Option Patch) : SyncLoopState :=
  let entry : ChangeEntry :=
    match prev with
    | some previousPatch => ⟨patchID, "updated", changedSourceIDs previousPatch patch⟩
    | none => ⟨patchID, "added", []⟩
  { st with
    changeEntries := st.changeEntries ++ [entry]
    patches := st.patches ++ [patch]
    parsedSheetNames := st.parsedSheetNames ++ [sheetName]
    existingByID :=
      if patchID ≠ "" then upsertAssoc st.existingByID patchID patch else st.existingByID }

/-- The Data-sheet tag merge performed on an accepted patch inside the
loop body of runSync. -/
def taggedPatch (env : SyncEnv) (patchID : String) (patch0 : Patch) : Patch :=
  if env.dataTags ≠ [] then
    match env.dataTags.lookup patchID with
    | some dtags => { patch0 with tags := env.mergeTags patch0.tags dtags }
    | none => patch0
  else patch0

/-- The loop body of runSync for one sheet name (lines 1726-1817 of
tools/patchsync/main.go): resolve failures abort with explicit sheet
names and are skipped otherwise; then Data-sheet tags are merged in,
and the patch is either skipped as unchanged or accepted.  (The
basePatchIDs bookkeeping is omitted: runSync only ever deletes from
that set, which has no observable effect.) -/
def processSheet (cfg : SyncCfg) (env : SyncEnv) (explicit : Bool)
    (st : SyncLoopState) (sheetName : String) : Except String SyncLoopState :=
  match env.resolve sheetName with
  | .error e =>
    if explicit then .error ("sheet " ++ sheetName ++ ": " ++ e) else .ok st
  | .ok patch0 =>
    let st := { st with validRows := st.validRows + 1 }
    let patchID := patchIDOrFallback patch0
    let patch := taggedPatch env patchID patch0
    let prev := st.existingByID.lookup patchID
    if cfg.skipExisting &&
        (match prev with
         | some previousPatch => patchesEquivalent previousPatch patch
         | none => false) then
      .ok { st with skipped := if patchID ≠ "" then st.skipped ++ [patchID] else st.skipped }
    else .ok (processSheetAccept st sheetName patchID patch prev)

/-- The sheet loop of runSync. -/
def processAllSheets (cfg : SyncCfg) (env : SyncEnv) (explicit : Bool)
    (init : SyncLoopState) (names : List String) : Except String SyncLoopState :=
  names.foldlM (processSheet cfg env explicit) init

/-- runSync (tools/patchsync/main.go) from the sheet-name resolution
onward: explicit names are deduplicated and authoritative, otherwise
the discovered names are used; names are version-sorted; the loop runs;
a run with no valid rows, no accepted patches and no skipped patches
fails; the accepted patches are sorted and merged over the prior
output, which is rewritten (outside dry-run) exactly when at least one
patch was accepted, and a change-log record is appended (outside
dry-run) exactly when at least one change entry exists. -/
def runSyncModel (cfg : SyncCfg) (env : SyncEnv) (existing : List Patch) :
    Except String SyncRunResult :=
  let cfgNames := uniqueSheetNames cfg.sheetNames
  let explicit := cfgNames ≠ []
  let names0 := if explicit then cfgNames else env.discovered
  if names0 = [] then .error "no sheet names to parse"
  else
    let names := sortVersionStrings names0
    match processAllSheets cfg env explicit ⟨[], [], [], [], 0, mkExistingByID existing⟩ names with
    | .error e => .error e
    | .ok st =>
      if st.validRows = 0 ∧ st.patches = [] ∧ st.skipped = [] then
        .error "no valid patch sheets found with N.N names"
      else
        let patches := sortPatches st.patches
        let skipped := uniqueStrings st.skipped
        let allPatches := mergePatchesByID existing patches
        .ok { patches := patches
              skipped := skipped
              sheetNames := st.parsedSheetNames
              changeEntries := st.changeEntries
              allPatches := allPatches
              written := if ¬cfg.dryRun ∧ patches ≠ [] then some allPatches else none
              changeLogWritten := ¬cfg.dryRun ∧ st.changeEntries ≠ [] }

/-! ### Serialization round trip (writeGeneratedFile / readGeneratedPatches)

writeGeneratedFile stores each patch with its reward bundles renamed
into the game vocabulary (rewardsForGame); readGeneratedPatches parses
them back, and Rewards.UnmarshalJSON folds every recognised key into
its canonical slot (addMappedValue).  For the two registered games
(games.go: arknights-endfield and wuthering-waves) the composition acts
on each reward bundle as follows: the endfield vocabulary is the
canonical one (identity), and the wuthering-waves vocabulary writes
astrite, lunite, forgingToken, radiantTide, lustrousTide and a combined
forgingTide = firewalker + messenger + hues, which reads back into the
firewalker slot. -/

/-- gameIDEndfield (tools/patchsync/games.go). -/
def gameIDEndfield : String := "arknights-endfield"

/-- gameIDWuwa (tools/patchsync/games.go). -/
def gameIDWuwa : String := "wuthering-waves"

/-- The write-then-read action on one reward bundle for the
wuthering-waves vocabulary. -/
def wuwaRoundTripRewards (r : Rewards) : Rewards where
  oroberyl := r.oroberyl
  origeometry := r.origeometry
  chartered := r.chartered
  basic := r.basic
  firewalker := qAdd (qAdd r.firewalker r.messenger) r.hues
  messenger := 0
  hues := 0
  arsenal := r.arsenal

/-- The write-then-read action on one reward bundle, per game. -/
def roundTripRewards (gameID : String) (r : Rewards) : Rewards :=
  if gameID = gameIDWuwa then wuwaRoundTripRewards r else r

/-- The write-then-read action on a scaler. -/
def roundTripScaler (gameID : String) (sc : Scaler) : Scaler :=
  { sc with rewards := roundTripRewards gameID sc.rewards }

/-- The write-then-read action on a source. -/
def roundTripSource (gameID : String) (src : Source) : Source :=
  { src with
      rewards := roundTripRewards gameID src.rewards
      costs := roundTripRewards gameID src.costs
      scalers := src.scalers.map (roundTripScaler gameID) }

/-- The write-then-read action on a patch. -/
def roundTripPatch (gameID : String) (p : Patch) : Patch :=
  { p with sources := p.sources.map (roundTripSource gameID) }

/-- readGeneratedPatches of a file produced by writeGeneratedFile. -/
def readBackGenerated (gameID : String) (filePatches : List Patch) : List Patch :=
  filePatches.map (roundTripPatch gameID)

/-! ### Brute-force probe discovery (discoverSheetNamesByProbe)

The probe function is modelled over the deterministic per-candidate
success predicate ok (fetch of the candidate sheet succeeded and it
parsed): the first phase probes major.0 for every candidate major
concurrently, the second phase walks minors 0..50 sequentially for the
majors whose first probe hit, stopping at a miss on minor 0 or after
two consecutive misses.  discoverProbeTrace lists every candidate
(major, minor) pair for which a probe request is issued. -/

/-- The candidate majors, in probing order. -/
def majorCandidates : List ℕ := [1, 0, 2, 3, 4, 5]

/-- fmt.Sprintf %d for a natural number, fuelled recursion (the fuel
n + 1 always suffices since n / 10 < n). -/
def goItoaAux : ℕ → ℕ → List Char
  | 0, _ => []
  | fuel + 1, n =>
    if n < 10 then [Char.ofNat (48 + n)]
    else goItoaAux fuel (n / 10) ++ [Char.ofNat (48 + n % 10)]

/-- fmt.Sprintf %d for a natural number. -/
def goItoa (n : ℕ) : List Char := goItoaAux (n + 1) n

/-- The probed sheet name major.minor. -/
def probeName (major minor : ℕ) : String := (goItoa major ++ '.' :: goItoa minor).asString

/-- The minor-version loop of discoverSheetNamesByProbe for one major:
returns the probed minors and the hit minors; fuel 51 covers the loop
bound minor less-or-equal 50. -/
def probeMinorLoop (ok : ℕ → ℕ → Bool) (major : ℕ) :
    ℕ → ℕ → ℕ → List ℕ × List ℕ
  | _, _, 0 => ([], [])
  | minor, missStreak, fuel + 1 =>
    if minor > 50 then ([], [])
    else if ok major minor then
      let r := probeMinorLoop ok major (minor + 1) 0 fuel
      (minor :: r.1, minor :: r.2)
    else if minor = 0 then ([minor], [])
    else if missStreak + 1 ≥ 2 then ([minor], [])
    else
      let r := probeMinorLoop ok major (minor + 1) (missStreak + 1) fuel
      (minor :: r.1, r.2)

/-- The minors probed in the second phase for one major (empty when
the first-phase probe of major.0 missed). -/
def probeMajorTrace (ok : ℕ → ℕ → Bool) (m : ℕ) : List ℕ :=
  if ok m 0 then (probeMinorLoop ok m 0 0 51).1 else []

/-- The minors that hit for one major. -/
def probeMajorNames (ok : ℕ → ℕ → Bool) (m : ℕ) : List ℕ :=
  if ok m 0 then (probeMinorLoop ok m 0 0 51).2 else []

/-- Every (major, minor) pair probed by discoverSheetNamesByProbe:
the concurrent first phase followed by the sequential minor walks. -/
def discoverProbeTrace (ok : ℕ → ℕ → Bool) : List (ℕ × ℕ) :=
  majorCandidates.map (fun m => (m, 0)) ++
  majorCandidates.flatMap (fun m => (probeMajorTrace ok m).map (fun n => (m, n)))

/-- discoverSheetNamesByProbe (tools/patchsync/main.go): the hit names,
deduplicated and version-sorted; failure exactly when empty. -/
def discoverSheetNamesByProbe (ok : ℕ → ℕ → Bool) : Except String (List String) :=
  let names := majorCandidates.flatMap (fun m => (probeMajorNames ok m).map (probeName m))
  let names := sortVersionStrings (uniqueSheetNames names)
  if names = [] then .error "no N.N sheet names found by probe" else .ok names

/-! ### Concrete Wuthering Waves reconciliation data -/

/-- A parsed Wuthering Waves patch whose free-tier sources carry the
aggregate rewards 1600 astrite + 2 radiant tides + 1 forging tide + 3
lustrous tides (events), 160 astrite (permanent) and 320 astrite
(recurring). -/
def c3Patch : Patch where
  id := "1.0"
  patch := "1.0"
  versionName := "Version 1.0"
  startDate := ""
  durationDays := 40
  tags := []
  notes := "Generated from Wuthering Waves Google Sheets by patchsync"
  sources := wuwaSources ⟨1600, 0, 2, 3, 1, 0, 0, 0⟩ ⟨160, 0, 0, 0, 0, 0, 0, 0⟩
    zeroRewards ⟨320, 0, 0, 0, 0, 0, 0, 0⟩ zeroRewards zeroRewards

/-- A Data-sheet mapping publishing per-source pull counts summing to
200 and a Total F2P of 205. -/
def c3SourcePulls : List (String × ℚ) :=
  [("events", 120), ("permanent", 50), ("mailbox", 30), ("__totalF2P", 205)]

/-- The Data-sheet pull table keyed by patch name. -/
def c3Pulls : List (String × List (String × ℚ)) := [("1.0", c3SourcePulls)]

/-- The catch-all source of c3Patch before the delta is absorbed. -/
def c3EndgameSrc : Source :=
  mkSource "endgameModes" "Endgame Modes" "always" none true ⟨320, 0, 0, 0, 0, 0, 0, 0⟩

/-! ### Reward calculation (src/domain/calculation.js, economy.js)

JS reward records are modelled as association lists String to ℚ:
hasOwnProperty is key membership, a missing or non-numeric read is 0
(safeNumber). -/

/-- The economy data used by resolveSourceRewards: the canonical
resource keys and the alias table. -/
structure Economy where
  resourceKeys : List String
  resourceAliases : List (String × List String)

/-- getResourceAliasKeys (src/domain/economy.js). -/
def getResourceAliasKeys (econ : Economy) (key : String) : List String :=
  if key = "" then []
  else
    match econ.resourceAliases.lookup key with
    | some aliases => if aliases ≠ [] then aliases else [key]
    | none => [key]

/-- safeNumber(record[key]) for an association-list record. -/
def jsLookup (record : List (String × ℚ)) (key : String) : ℚ :=
  (record.lookup key).getD 0

/-- resolveResourceAmount (src/domain/economy.js): the canonical key
when present, otherwise the sum of the record values under the other
aliases. -/
def resolveResourceAmount (record : List (String × ℚ)) (key : String) (econ : Economy) : ℚ :=
  if key = "" then 0
  else if (record.lookup key).isSome then jsLookup record key
  else
    (getResourceAliasKeys econ key).foldl
      (fun sum ak => if ak = key then sum else qAdd sum (jsLookup record ak)) 0

/-- normalizeRewards (src/domain/calculation.js): one entry per
canonical resource key. -/
def normalizeRewards (input : List (String × ℚ)) (econ : Economy) : List (String × ℚ) :=
  econ.resourceKeys.map (fun k => (k, resolveResourceAmount input k econ))

/-- applyRounding (src/domain/calculation.js): Math.ceil, Math.round
(half toward positive infinity) or Math.floor. -/
def applyRounding (value : ℚ) (rounding : Option String) : ℚ :=
  if rounding = some "ceil" then qOfInt ⌈value⌉
  else if rounding = some "round" then qOfInt ⌊qAdd value (mkRat 1 2)⌋
  else qOfInt ⌊value⌋

/-- A scaler as consumed by resolveSourceRewards; absent JS fields are
none. -/
structure JsScaler where
  type : String
  unit : Option String
  everyDays : Option ℚ
  rounding : Option String
  rewards : List (String × ℚ)

/-- A bpCrateModel record as consumed by resolveBpCrateScale. -/
structure JsBpCrateModel where
  type : String
  daysToLevel60Tier3 : Option ℚ
  tier2XpBonus : Option ℚ
  tier3XpBonus : Option ℚ

/-- The source fields read by resolveSourceRewards. -/
structure JsSource where
  rewards : List (String × ℚ)
  scalers : List JsScaler
  bpCrateModel : Option JsBpCrateModel

/-- Math.max on ℚ. -/
def qMax (a b : ℚ) : ℚ := if a < b then b else a

/-- normalizeTier (src/domain/calculation.js). -/
def normalizeTier (tier : ℚ) : ℕ := if tier = 2 then 2 else if tier = 3 then 3 else 1

/-- resolveBpCrateScale (src/domain/calculation.js). -/
def resolveBpCrateScale (model : JsBpCrateModel) (rowDurationDays battlePassTier : ℚ) : ℚ :=
  let durationDays := qMax 0 rowDurationDays
  let days60 := qMax 0 (model.daysToLevel60Tier3.getD 21)
  let tier2 := model.tier2XpBonus.getD (mkRat 3 100)
  let tier3 := model.tier3XpBonus.getD (mkRat 6 100)
  let tier := normalizeTier battlePassTier
  let currentBonus := if tier ≥ 3 then tier3 else if tier ≥ 2 then tier2 else 0
  let referenceBonus := tier3
  let refRemaining := qMax 0 (qSub durationDays days60)
  if refRemaining ≤ 0 then 0
  else
    let days60Cur := qOfInt ⌈qDiv (qMul days60 (qAdd 1 referenceBonus)) (qAdd 1 currentBonus)⌉
    let curRemaining := qMax 0 (qSub durationDays days60Cur)
    qMax 0 (qMul (qDiv curRemaining refRemaining)
                 (qDiv (qAdd 1 currentBonus) (qAdd 1 referenceBonus)))

/-- The effective cycle length of a scaler: scaler.everyDays or 1 when
absent or zero, clamped to at least 1. -/
def scalerEveryDays (sc : JsScaler) : ℚ :=
  qMax 1 (match sc.everyDays with
          | none => 1
          | some v => if v = 0 then 1 else v)

/-- The expanded cycle count of one scaler (src/domain/calculation.js
lines 100-108): the clamped duration for unit day, the rounded quotient
by the cycle length otherwise. -/
def scalerCycles (sc : JsScaler) (rowDurationDays : ℚ) : ℚ :=
  let d := qMax 0 rowDurationDays
  if sc.unit.getD "day" = "day" then d
  else applyRounding (qDiv d (scalerEveryDays sc)) sc.rounding

/-- The reward a single scaler adds per resource key. -/
def scalerContribution (sc : JsScaler) (rowDurationDays : ℚ) (key : String)
    (econ : Economy) : ℚ :=
  if sc.type = "per_duration" then
    qMul (scalerCycles sc rowDurationDays) (resolveResourceAmount sc.rewards key econ)
  else 0

/-- The body of the scaler loop in resolveSourceRewards: a
per-duration scaler adds its cycle count times its normalized per-cycle
reward to every entry of the accumulated record. -/
def scalerStep (econ : Economy) (rowDurationDays : ℚ)
    (acc : List (String × ℚ)) (sc : JsScaler) : List (String × ℚ) :=
  if sc.type = "per_duration" then
    let cycles := scalerCycles sc rowDurationDays
    let scaled := normalizeRewards sc.rewards econ
    acc.map (fun kv => (kv.1, qAdd kv.2 (qMul cycles (jsLookup scaled kv.1))))
  else acc

/-- resolveSourceRewards (src/domain/calculation.js). -/
def resolveSourceRewards (source : JsSource) (rowDurationDays battlePassTier : ℚ)
    (econ : Economy) : List (String × ℚ) :=
  let rewards := normalizeRewards source.rewards econ
  let rewards :=
    match source.bpCrateModel with
    | some model =>
      if model.type = "post_bp60_estimate" then
        let scale := resolveBpCrateScale model rowDurationDays battlePassTier
        rewards.map (fun kv => (kv.1, qMul kv.2 scale))
      else rewards
    | none => rewards
  source.scalers.foldl (scalerStep econ rowDurationDays) rewards

/-! ## Theorems

Everything from here on is lemmas and the claim theorems; the
definitions above are the embedding. -/

theorem qAdd_eq (a b : ℚ) : qAdd a b = a + b := by
  have ha : (a.den : ℚ) ≠ 0 := by exact_mod_cast a.den_nz
  have hb : (b.den : ℚ) ≠ 0 := by exact_mod_cast b.den_nz
  rw [qAdd, Rat.mkRat_eq_div]
  conv_rhs => rw [← Rat.num_div_den a, ← Rat.num_div_den b]
  push_cast
  field_simp

theorem qMul_eq (a b : ℚ) : qMul a b = a * b := by
  have ha : (a.den : ℚ) ≠ 0 := by exact_mod_cast a.den_nz
  have hb : (b.den : ℚ) ≠ 0 := by exact_mod_cast b.den_nz
  rw [qMul, Rat.mkRat_eq_div]
  conv_rhs => rw [← Rat.num_div_den a, ← Rat.num_div_den b]
  push_cast
  field_simp

theorem qNeg_eq (a : ℚ) : qNeg a = -a := by
  have ha : (a.den : ℚ) ≠ 0 := by exact_mod_cast a.den_nz
  rw [qNeg, Rat.mkRat_eq_div]
  conv_rhs => rw [← Rat.num_div_den a]
  push_cast
  field_simp

theorem qSub_eq (a b : ℚ) : qSub a b = a - b := by
  rw [qSub, qAdd_eq, qNeg_eq, sub_eq_add_neg]

theorem qInv_eq (a : ℚ) : qInv a = a⁻¹ := by
  rw [qInv, Rat.inv_def', Rat.divInt_eq_div]
  rcases lt_trichotomy a.num 0 with h | h | h
  · rw [if_pos h, Rat.mkRat_eq_div]
    have hn : ((a.num.natAbs : ℕ) : ℚ) = -((a.num : ℤ) : ℚ) := by
      rw [Int.cast_natAbs, abs_of_neg (by exact_mod_cast h)]
      push_cast
      ring
    rw [hn]
    push_cast
    rw [neg_div_neg_eq]
  · rw [if_neg (by omega), Rat.mkRat_eq_div, h]
    norm_num
  · rw [if_neg (by omega), Rat.mkRat_eq_div]
    have hn : ((a.num.natAbs : ℕ) : ℚ) = ((a.num : ℤ) : ℚ) := by
      rw [Int.cast_natAbs, abs_of_pos (by exact_mod_cast h)]
    rw [hn]

theorem qDiv_eq (a b : ℚ) : qDiv a b = a / b := by
  rw [qDiv, qMul_eq, qInv_eq, div_eq_mul_inv]

theorem qAbs_eq (a : ℚ) : qAbs a = |a| := by
  rw [qAbs]
  rcases lt_or_le a 0 with h | h
  · rw [if_pos h, qNeg_eq, abs_of_neg h]
  · rw [if_neg (not_lt.mpr h), abs_of_nonneg h]

theorem qOfInt_eq (i : ℤ) : qOfInt i = (i : ℚ) := by
  rw [qOfInt, Rat.mkRat_eq_div]
  norm_num

/-! ### Character-list lemmas -/

theorem takeWhile_of_all {p : Char → Bool} :
    ∀ {l : List Char}, (∀ c ∈ l, p c = true) → l.takeWhile p = l
  | [], _ => rfl
  | c :: r, h => by
    have hc := h c (by simp)
    simp only [List.takeWhile_cons, hc, if_true]
    exact congrArg (c :: ·) (takeWhile_of_all fun d hd => h d (by simp [hd]))

theorem dropWhile_of_all {p : Char → Bool} :
    ∀ {l : List Char}, (∀ c ∈ l, p c = true) → l.dropWhile p = []
  | [], _ => rfl
  | c :: r, h => by
    have hc := h c (by simp)
    simp only [List.dropWhile_cons, hc, if_true]
    exact dropWhile_of_all fun d hd => h d (by simp [hd])

theorem takeWhile_of_none {p : Char → Bool} {l : List Char}
    (h : ∀ c ∈ l, p c = false) : l.takeWhile p = [] := by
  cases l with
  | nil => rfl
  | cons c r => simp only [List.takeWhile_cons, h c (by simp), Bool.false_eq_true, if_false]

theorem dropWhile_of_none {p : Char → Bool} {l : List Char}
    (h : ∀ c ∈ l, p c = false) : l.dropWhile p = l := by
  cases l with
  | nil => rfl
  | cons c r => simp only [List.dropWhile_cons, h c (by simp), Bool.false_eq_true, if_false]

theorem goTrimSpace_of_noWS {l : List Char} (h : ∀ c ∈ l, isWS c = false) :
    goTrimSpace l = l := by
  unfold goTrimSpace trimLeftWS trimRightWS
  rw [dropWhile_of_none h, dropWhile_of_none (fun c hc => h c (List.mem_reverse.mp hc)),
    List.reverse_reverse]

theorem mem_goTrimSpace {l : List Char} {c : Char} (h : c ∈ goTrimSpace l) : c ∈ l := by
  unfold goTrimSpace trimLeftWS trimRightWS at h
  have h1 := (List.dropWhile_sublist (p := isWS)).subset (List.mem_reverse.mp h)
  exact (List.dropWhile_sublist (p := isWS)).subset (List.mem_reverse.mp h1)

theorem mem_of_getLast?_eq {l : List Char} {a : Char} (h : l.getLast? = some a) : a ∈ l := by
  rcases List.mem_getLast?_eq_getLast (show a ∈ l.getLast? from h) with ⟨hne, he⟩
  rw [he]
  exact List.getLast_mem hne

theorem trimPercentSuffix_of_noPercent {l : List Char} (h : '%' ∉ l) :
    trimPercentSuffix l = l := by
  unfold trimPercentSuffix
  split
  · next heq => exact absurd (mem_of_getLast?_eq heq) h
  · rfl

theorem mem_trimPercentSuffix {l : List Char} {c : Char} (h : c ∈ trimPercentSuffix l) :
    c ∈ l := by
  unfold trimPercentSuffix at h
  split at h
  · exact List.mem_of_mem_dropLast h
  · exact h

theorem lastIdxOf_neg_of_not_mem {c : Char} :
    ∀ {l : List Char}, c ∉ l → lastIdxOf c l = -1
  | [], _ => rfl
  | a :: r, h => by
    have hr : c ∉ r := fun hm => h (by simp [hm])
    have ha : a ≠ c := fun he => h (by simp [he])
    simp only [lastIdxOf, lastIdxOf_neg_of_not_mem hr]
    norm_num [ha]

theorem lastIdxOf_nonneg_of_mem {c : Char} :
    ∀ {l : List Char}, c ∈ l → lastIdxOf c l ≥ 0
  | a :: r, h => by
    simp only [lastIdxOf]
    by_cases hm : c ∈ r
    · have := lastIdxOf_nonneg_of_mem hm
      rw [if_pos this]
      omega
    · have hr := lastIdxOf_neg_of_not_mem hm
      rw [hr]
      have ha : a = c := by
        rcases List.mem_cons.mp h with he | hm2
        · exact he.symm
        · exact absurd hm2 hm
      norm_num [ha]

theorem splitOnCh_ne_nil (c : Char) : ∀ (l : List Char), splitOnCh c l ≠ []
  | [] => by simp [splitOnCh]
  | a :: r => by
    simp only [splitOnCh]
    split <;> simp

theorem mem_of_mem_splitOnCh {sep : Char} :
    ∀ {l : List Char} {p : List Char} {c : Char},
      p ∈ splitOnCh sep l → c ∈ p → c ∈ l
  | [], p, c, hp, hc => by
    simp only [splitOnCh, List.mem_singleton] at hp
    subst hp
    cases hc
  | a :: r, p, c, hp, hc => by
    rcases h : splitOnCh sep r with _ | ⟨hh, t⟩
    · exact absurd h (splitOnCh_ne_nil sep r)
    · simp only [splitOnCh, h, List.headD_cons, List.tail_cons] at hp
      by_cases ha : a = sep
      · rw [if_pos ha] at hp
        rcases List.mem_cons.mp hp with he | hm
        · subst he; cases hc
        · exact List.mem_cons_of_mem a (mem_of_mem_splitOnCh (by rw [h]; exact hm) hc)
      · rw [if_neg ha] at hp
        rcases List.mem_cons.mp hp with he | hm
        · subst he
          rcases List.mem_cons.mp hc with he2 | hm2
          · simp [he2]
          · exact List.mem_cons_of_mem a
              (mem_of_mem_splitOnCh (l := r) (by rw [h]; exact List.mem_cons_self hh t) hm2)
        · exact List.mem_cons_of_mem a
            (mem_of_mem_splitOnCh (by rw [h]; exact List.mem_cons_of_mem hh hm) hc)

theorem splitOnCh_append_no_sep {sep : Char} :
    ∀ {p l : List Char}, sep ∉ p →
      splitOnCh sep (p ++ l) =
        (p ++ (splitOnCh sep l).headD []) :: (splitOnCh sep l).tail
  | [], l, _ => by
    rcases h : splitOnCh sep l with _ | ⟨hh, t⟩
    · exact absurd h (splitOnCh_ne_nil sep l)
    · simp [h]
  | a :: p, l, hs => by
    have ha : a ≠ sep := fun he => hs (by simp [he])
    have hp : sep ∉ p := fun hm => hs (by simp [hm])
    rcases h : splitOnCh sep l with _ | ⟨hh, t⟩
    · exact absurd h (splitOnCh_ne_nil sep l)
    · show splitOnCh sep (a :: (p ++ l)) = _
      simp only [splitOnCh, splitOnCh_append_no_sep hp, h]
      rw [if_neg ha]
      simp

theorem splitOnCh_no_sep {sep : Char} {l : List Char} (h : sep ∉ l) :
    splitOnCh sep l = [l] := by
  have h2 := splitOnCh_append_no_sep (l := ([] : List Char)) h
  simpa [splitOnCh] using h2

theorem splitOnCh_joinSep {sep : Char} :
    ∀ {parts : List (List Char)}, parts ≠ [] →
      (∀ p ∈ parts, sep ∉ p) →
      splitOnCh sep (joinSep sep parts) = parts
  | [], h, _ => absurd rfl h
  | [p], _, hs => by
    simp only [joinSep]
    exact splitOnCh_no_sep (hs p (by simp))
  | p :: q :: ps, _, hs => by
    have hp : sep ∉ p := hs p (by simp)
    have hrest : splitOnCh sep (joinSep sep (q :: ps)) = q :: ps :=
      splitOnCh_joinSep (by simp) (fun r hr => hs r (by simp [hr]))
    show splitOnCh sep (p ++ sep :: joinSep sep (q :: ps)) = p :: q :: ps
    rw [splitOnCh_append_no_sep hp]
    simp only [splitOnCh, if_pos rfl, hrest]
    simp

theorem mem_joinSep {sep : Char} :
    ∀ {parts : List (List Char)} {c : Char},
      c ∈ joinSep sep parts → c = sep ∨ ∃ p ∈ parts, c ∈ p
  | [], c, h => by cases h
  | [p], c, h => by
    right
    exact ⟨p, by simp, h⟩
  | p :: q :: ps, c, h => by
    rcases List.mem_append.mp h with hm | hm
    · exact Or.inr ⟨p, by simp, hm⟩
    · rcases List.mem_cons.mp hm with he | hm2
      · exact Or.inl he
      · rcases mem_joinSep hm2 with he | ⟨r, hr, hcr⟩
        · exact Or.inl he
        · exact Or.inr ⟨r, by simp [hr], hcr⟩

theorem sep_mem_joinSep {sep : Char} (p q : List Char) (ps : List (List Char)) :
    sep ∈ joinSep sep (p :: q :: ps) := by
  show sep ∈ p ++ sep :: joinSep sep (q :: ps)
  simp

/-! ### parseNumber lemmas -/

theorem data_asString (l : List Char) : (l.asString).data = l := rfl

theorem isWS_false_of_digit {c : Char} (h : c.isDigit = true) : isWS c = false := by
  simp only [isWS, Bool.or_eq_false_iff, decide_eq_false_iff_not]
  refine ⟨⟨⟨⟨⟨⟨⟨?_, ?_⟩, ?_⟩, ?_⟩, ?_⟩, ?_⟩, ?_⟩, ?_⟩ <;>
    · intro he
      subst he
      exact absurd h (by decide)

theorem ne_percent_of_digit {c : Char} (h : c.isDigit = true) : c ≠ '%' := by
  intro he
  subst he
  exact absurd h (by decide)

theorem ne_dot_of_digit {c : Char} (h : c.isDigit = true) : c ≠ '.' := by
  intro he
  subst he
  exact absurd h (by decide)

theorem stripSign_snd_subset {l : List Char} {c : Char} (h : c ∈ (stripSign l).2) : c ∈ l := by
  rcases l with _ | ⟨a, r⟩
  · simpa [stripSign] using h
  · simp only [stripSign] at h
    split at h
    · exact List.mem_cons_of_mem a h
    · split at h
      · exact List.mem_cons_of_mem a h
      · exact h

theorem goParseFloat_all_digits {l : List Char} (hne : l ≠ [])
    (h : ∀ c ∈ l, c.isDigit = true) :
    goParseFloat l = some (mkRat (digitsVal l) 1) := by
  rcases l with _ | ⟨c, r⟩
  · exact absurd rfl hne
  have hc := h c (by simp)
  have hcp : c ≠ '+' := by intro he; rw [he] at hc; exact absurd hc (by decide)
  have hcm : c ≠ '-' := by intro he; rw [he] at hc; exact absurd hc (by decide)
  have hsp : stripSign (c :: r) = (false, c :: r) := by simp [stripSign, hcp, hcm]
  simp only [goParseFloat, hsp, takeWhile_of_all h, dropWhile_of_all h, List.head?_nil]
  norm_num [digitsVal]
  intro h0
  simp at h0

theorem goParseFloat_no_digits {l : List Char} (h : ∀ c ∈ l, c.isDigit = false) :
    goParseFloat l = none := by
  have hsub : ∀ c ∈ (stripSign l).2, c.isDigit = false :=
    fun c hc => h c (stripSign_snd_subset hc)
  simp only [goParseFloat, takeWhile_of_none hsub, dropWhile_of_none hsub]
  by_cases hh : (stripSign l).2.head? = some '.'
  · rw [if_pos hh, if_pos hh]
    have htail : ∀ c ∈ (stripSign l).2.tail, c.isDigit = false :=
      fun c hc => hsub c (List.mem_of_mem_tail hc)
    rw [takeWhile_of_none htail]
    simp
  · rw [if_neg hh, if_neg hh]
    simp

theorem parseNumberQ_clean {s : String} (hne : s.data ≠ [])
    (hWS : ∀ c ∈ s.data, isWS c = false) (hPC : '%' ∉ s.data) :
    parseNumberQ s = (goParseFloat (thousandsRegroup (sepNormalize s.data))).getD 0 := by
  simp only [parseNumberQ]
  rw [goTrimSpace_of_noWS hWS, if_neg hne]
  have hf : ∀ x : Char, isWS x = true → s.data.filter (fun ch => ch ≠ x) = s.data := by
    intro x hx
    rw [List.filter_eq_self]
    intro a ha
    simp only [decide_eq_true_eq]
    intro he
    have hw := hWS a ha
    rw [he, hx] at hw
    cases hw
  rw [hf _ (by decide), hf _ (by decide), trimPercentSuffix_of_noPercent hPC]

theorem sepNormalize_no_comma {l : List Char} (h : ',' ∉ l) : sepNormalize l = l := by
  simp only [sepNormalize, lastIdxOf_neg_of_not_mem h]
  norm_num

theorem sepNormalize_comma_later {l : List Char} (hc : ',' ∈ l) (hd : '.' ∈ l)
    (hlt : lastIdxOf ',' l > lastIdxOf '.' l) :
    sepNormalize l = (l.filter (fun c => c ≠ '.')).map commaToDot := by
  simp only [sepNormalize]
  rw [if_pos ⟨lastIdxOf_nonneg_of_mem hc, lastIdxOf_nonneg_of_mem hd⟩, if_pos hlt]

theorem sepNormalize_dot_later {l : List Char} (hc : ',' ∈ l) (hd : '.' ∈ l)
    (hlt : ¬ lastIdxOf ',' l > lastIdxOf '.' l) :
    sepNormalize l = l.filter (fun c => c ≠ ',') := by
  simp only [sepNormalize]
  rw [if_pos ⟨lastIdxOf_nonneg_of_mem hc, lastIdxOf_nonneg_of_mem hd⟩, if_neg hlt]

theorem mem_sepNormalize {l : List Char} {c : Char} (h : c ∈ sepNormalize l) :
    c = '.' ∨ c ∈ l := by
  simp only [sepNormalize] at h
  split at h
  · split at h
    · rcases List.mem_map.mp h with ⟨c0, hc0, he⟩
      by_cases h0 : c0 = ','
      · left
        rw [← he, h0]
        rfl
      · right
        have : commaToDot c0 = c0 := by simp [commaToDot, h0]
        rw [← he, this]
        exact (List.mem_filter.mp hc0).1
    · exact Or.inr (List.mem_filter.mp h).1
  · split at h
    · split at h
      · exact Or.inr (List.mem_filter.mp h).1
      · split at h
        · next a b heq =>
          split at h
          · rcases List.mem_append.mp h with hm | hm
            · exact Or.inr (mem_of_mem_splitOnCh (heq ▸ List.mem_cons_self a [b]) hm)
            · exact Or.inr
                (mem_of_mem_splitOnCh (heq ▸ List.mem_cons_of_mem a (List.mem_cons_self b [])) hm)
          · rcases List.mem_map.mp h with ⟨c0, hc0, he⟩
            by_cases h0 : c0 = ','
            · left
              rw [← he, h0]
              rfl
            · right
              have : commaToDot c0 = c0 := by simp [commaToDot, h0]
              rw [← he, this]
              exact hc0
        · rcases List.mem_map.mp h with ⟨c0, hc0, he⟩
          by_cases h0 : c0 = ','
          · left
            rw [← he, h0]
            rfl
          · right
            have : commaToDot c0 = c0 := by simp [commaToDot, h0]
            rw [← he, this]
            exact hc0
    · exact Or.inr h

theorem mem_thousandsRegroup {l : List Char} {c : Char} (h : c ∈ thousandsRegroup l) :
    c ∈ l := by
  simp only [thousandsRegroup] at h
  split at h
  · split at h
    · rcases List.mem_flatten.mp h with ⟨p, hp, hc⟩
      exact mem_of_mem_splitOnCh hp hc
    · exact h
  · exact h

theorem parseNumber_sep_comma_later {s : String} (hne : s.data ≠ [])
    (hcl : ∀ c ∈ s.data, isWS c = false ∧ c ≠ '%')
    (hc : ',' ∈ s.data) (hd : '.' ∈ s.data)
    (hlt : lastIdxOf ',' s.data > lastIdxOf '.' s.data) :
    parseNumberQ s = parseNumberQ (((s.data.filter (fun c => c ≠ '.')).map commaToDot).asString) := by
  have ht'mem : ∀ c ∈ (s.data.filter (fun c => c ≠ '.')).map commaToDot,
      c = '.' ∨ c ∈ s.data := by
    intro c hcm
    rcases List.mem_map.mp hcm with ⟨c0, hc0, he⟩
    by_cases h0 : c0 = ','
    · left
      rw [← he, h0]
      rfl
    · right
      have hid : commaToDot c0 = c0 := by simp [commaToDot, h0]
      rw [← he, hid]
      exact (List.mem_filter.mp hc0).1
  have hcl' : ∀ c ∈ (s.data.filter (fun c => c ≠ '.')).map commaToDot,
      isWS c = false ∧ c ≠ '%' := by
    intro c hcm
    rcases ht'mem c hcm with he | hm
    · subst he
      exact ⟨by decide, by decide⟩
    · exact hcl c hm
  have hne' : (s.data.filter (fun c => c ≠ '.')).map commaToDot ≠ [] := by
    have hm : commaToDot ',' ∈ (s.data.filter (fun c => c ≠ '.')).map commaToDot :=
      List.mem_map_of_mem _ (List.mem_filter.mpr ⟨hc, by decide⟩)
    intro h0
    rw [h0] at hm
    cases hm
  have hnc' : ',' ∉ (s.data.filter (fun c => c ≠ '.')).map commaToDot := by
    intro hm
    rcases List.mem_map.mp hm with ⟨c0, _, he⟩
    by_cases h0 : c0 = ',' <;> simp [commaToDot, h0] at he
  rw [parseNumberQ_clean hne (fun c h => (hcl c h).1) (fun hm => (hcl '%' hm).2 rfl),
    parseNumberQ_clean (s := ((s.data.filter (fun c => c ≠ '.')).map commaToDot).asString)
      hne' (fun c h => (hcl' c h).1) (fun hm => ( hcl' '%' hm).2 rfl),
    sepNormalize_comma_later hc hd hlt, data_asString,
    sepNormalize_no_comma hnc']

theorem parseNumber_sep_dot_later {s : String} (hne : s.data ≠ [])
    (hcl : ∀ c ∈ s.data, isWS c = false ∧ c ≠ '%')
    (hc : ',' ∈ s.data) (hd : '.' ∈ s.data)
    (hlt : lastIdxOf '.' s.data > lastIdxOf ',' s.data) :
    parseNumberQ s = parseNumberQ ((s.data.filter (fun c => c ≠ ',')).asString) := by
  have hcl' : ∀ c ∈ s.data.filter (fun c => c ≠ ','), isWS c = false ∧ c ≠ '%' :=
    fun c hcm => hcl c (List.mem_filter.mp hcm).1
  have hne' : s.data.filter (fun c => c ≠ ',') ≠ [] := by
    have hm : '.' ∈ s.data.filter (fun c => c ≠ ',') :=
      List.mem_filter.mpr ⟨hd, by decide⟩
    intro h0
    rw [h0] at hm
    cases hm
  have hnc' : ',' ∉ s.data.filter (fun c => c ≠ ',') := by
    intro hm
    have := (List.mem_filter.mp hm).2
    simp at this
  rw [parseNumberQ_clean hne (fun c h => (hcl c h).1) (fun hm => (hcl '%' hm).2 rfl),
    parseNumberQ_clean (s := (s.data.filter (fun c => c ≠ ',')).asString)
      hne' (fun c h => (hcl' c h).1) (fun hm => ( hcl' '%' hm).2 rfl),
    sepNormalize_dot_later hc hd (by omega), data_asString,
    sepNormalize_no_comma hnc']

theorem parseNumber_thousands_groups (g : List Char) (gs : List (List Char))
    (hg : g ≠ []) (hgd : ∀ c ∈ g, c.isDigit = true) (hgs : gs ≠ [])
    (h3 : ∀ p ∈ gs, p.length = 3 ∧ ∀ c ∈ p, c.isDigit = true) :
    parseNumberQ ((joinSep '.' (g :: gs)).asString) = ((digitsVal (g ++ gs.flatten) : ℕ) : ℚ) := by
  have hmem : ∀ c ∈ joinSep '.' (g :: gs), c = '.' ∨ c.isDigit = true := by
    intro c hcm
    rcases mem_joinSep hcm with he | ⟨p, hp, hcp⟩
    · exact Or.inl he
    · right
      rcases List.mem_cons.mp hp with hpe | hpm
      · exact hgd c (hpe ▸ hcp)
      · exact (h3 p hpm).2 c hcp
  rcases gs with _ | ⟨q, ps⟩
  · exact absurd rfl hgs
  have hne : joinSep '.' (g :: q :: ps) ≠ [] := by
    show g ++ '.' :: joinSep '.' (q :: ps) ≠ []
    simp
  have hdot : '.' ∈ joinSep '.' (g :: q :: ps) := sep_mem_joinSep g q ps
  have hnc : ',' ∉ joinSep '.' (g :: q :: ps) := by
    intro hm
    rcases hmem ',' hm with he | hd
    · exact absurd he (by decide)
    · exact absurd hd (by decide)
  have hcl : ∀ c ∈ joinSep '.' (g :: q :: ps), isWS c = false ∧ c ≠ '%' := by
    intro c hcm
    rcases hmem c hcm with he | hd
    · subst he
      exact ⟨by decide, by decide⟩
    · exact ⟨isWS_false_of_digit hd, ne_percent_of_digit hd⟩
  rw [parseNumberQ_clean (s := (joinSep '.' (g :: q :: ps)).asString)
      hne (fun c h => (hcl c h).1) (fun hm => (hcl '%' hm).2 rfl),
    data_asString, sepNormalize_no_comma hnc]
  have hsplit : splitOnCh '.' (joinSep '.' (g :: q :: ps)) = g :: q :: ps := by
    apply splitOnCh_joinSep (by simp)
    intro p hp hm
    rcases List.mem_cons.mp hp with hpe | hpm
    · exact ne_dot_of_digit (hgd '.' (hpe ▸ hm)) rfl
    · exact ne_dot_of_digit ((h3 p hpm).2 '.' hm) rfl
  have hcount : 0 < (joinSep '.' (g :: q :: ps)).count '.' :=
    List.count_pos_iff.mpr hdot
  simp only [thousandsRegroup, hsplit]
  rw [if_pos hcount]
  have hok : (decide (1 < (g :: q :: ps).length) &&
      (g :: q :: ps).all (fun p => !p.isEmpty && p.all Char.isDigit) &&
      ((g :: q :: ps).drop 1).all (fun p => p.length = 3)) = true := by
    simp only [Bool.and_eq_true, decide_eq_true_eq, List.all_eq_true]
    refine ⟨⟨by simp, ?_⟩, ?_⟩
    · intro p hp
      rcases List.mem_cons.mp hp with hpe | hpm
      · subst hpe
        simp only [Bool.and_eq_true, Bool.not_eq_true', List.all_eq_true]
        exact ⟨by simpa [List.isEmpty_iff] using hg, hgd⟩
      · simp only [Bool.and_eq_true, Bool.not_eq_true', List.all_eq_true]
        refine ⟨?_, (h3 p hpm).2⟩
        have := (h3 p hpm).1
        simp [List.isEmpty_iff]
        intro h0
        rw [h0] at this
        simp at this
    · intro p hp
      simp only [List.drop_one, List.tail_cons] at hp
      simp [(h3 p hp).1]
  rw [if_pos hok]
  have hflat : (g :: q :: ps).flatten = g ++ (q :: ps).flatten := rfl
  rw [hflat]
  have hdig : ∀ c ∈ g ++ (q :: ps).flatten, c.isDigit = true := by
    intro c hcm
    rcases List.mem_append.mp hcm with hm | hm
    · exact hgd c hm
    · rcases List.mem_flatten.mp hm with ⟨p, hp, hcp⟩
      exact (h3 p hp).2 c hcp
  rw [goParseFloat_all_digits (by simp [hg]) hdig]
  rw [Option.getD_some]
  rw [show mkRat (digitsVal (g ++ (q :: ps).flatten) : ℕ) 1 =
    qOfInt (digitsVal (g ++ (q :: ps).flatten) : ℕ) from rfl, qOfInt_eq]
  push_cast
  rfl

theorem pipeline_no_digits {l : List Char} (h : ∀ c ∈ l, c.isDigit = false) :
    goParseFloat (thousandsRegroup (sepNormalize (trimPercentSuffix
      ((l.filter (fun ch => ch ≠ ' ')).filter (fun ch => ch ≠ ' '))))) = none := by
  apply goParseFloat_no_digits
  intro c hcm
  have h1 := mem_thousandsRegroup hcm
  rcases mem_sepNormalize h1 with he | h2
  · subst he
    decide
  · have h3 := mem_trimPercentSuffix h2
    have h4 := (List.mem_filter.mp h3).1
    have h5 := (List.mem_filter.mp h4).1
    exact h c h5

theorem parseNumber_no_digits (s : String) (h : ∀ c ∈ s.data, c.isDigit = false) :
    parseNumberQ s = 0 := by
  simp only [parseNumberQ]
  by_cases ht : goTrimSpace s.data = []
  · rw [ht, if_pos rfl]
  · rw [if_neg ht,
      pipeline_no_digits (fun c hc => h c (mem_goTrimSpace hc)), Option.getD_none]

/-! ### Claim C5 -/

/-- Claim C5: parseNumber maps the tokens 1,234.5 / 1234.5 / 1.234,5
all to 1234.5; when both separators occur, the one with the later last
position is the decimal separator (parsing agrees with the token
rewritten with that separator as a dot and the other removed); a token
of dot-separated all-digit groups in which every group after the first
has exactly three digits is read as thousands-grouped; and empty or
non-numeric (digit-free) tokens parse to 0 (the embedding is a total
function, so no error is ever raised). -/
theorem claim_C5_parseNumber_locale :
    parseNumberQ "1,234.5" = 1234.5 ∧
    parseNumberQ "1234.5" = 1234.5 ∧
    parseNumberQ "1.234,5" = 1234.5 ∧
    (∀ s : String, s.data ≠ [] → (∀ c ∈ s.data, isWS c = false ∧ c ≠ '%') →
      ',' ∈ s.data → '.' ∈ s.data →
      (lastIdxOf ',' s.data > lastIdxOf '.' s.data →
        parseNumberQ s =
          parseNumberQ (((s.data.filter (fun c => c ≠ '.')).map commaToDot).asString)) ∧
      (lastIdxOf '.' s.data > lastIdxOf ',' s.data →
        parseNumberQ s = parseNumberQ ((s.data.filter (fun c => c ≠ ',')).asString))) ∧
    (∀ (g : List Char) (gs : List (List Char)),
      g ≠ [] → (∀ c ∈ g, c.isDigit = true) → gs ≠ [] →
      (∀ p ∈ gs, p.length = 3 ∧ ∀ c ∈ p, c.isDigit = true) →
      parseNumberQ ((joinSep '.' (g :: gs)).asString) = ((digitsVal (g ++ gs.flatten) : ℕ) : ℚ)) ∧
    parseNumberQ "" = 0 ∧
    (∀ s : String, (∀ c ∈ s.data, c.isDigit = false) → parseNumberQ s = 0) := by
  refine ⟨?_, ?_, ?_, ?_, ?_, by decide, parseNumber_no_digits⟩
  · have h : parseNumberQ "1,234.5" = mkRat 2469 2 := by decide
    rw [h, Rat.mkRat_eq_div]
    norm_num
  · have h : parseNumberQ "1234.5" = mkRat 2469 2 := by decide
    rw [h, Rat.mkRat_eq_div]
    norm_num
  · have h : parseNumberQ "1.234,5" = mkRat 2469 2 := by decide
    rw [h, Rat.mkRat_eq_div]
    norm_num
  · intro s hne hcl hc hd
    exact ⟨parseNumber_sep_comma_later hne hcl hc hd,
      parseNumber_sep_dot_later hne hcl hc hd⟩
  · intro g gs hg hgd hgs h3
    exact parseNumber_thousands_groups g gs hg hgd hgs h3

/-- Witness for C5: the separator rule at 12,34.5 (dot later), the
thousands rule at 1.234.567, and the non-numeric rule at abc. -/
theorem claim_C5_parseNumber_locale_witness :
    parseNumberQ "12,34.5" = parseNumberQ (("12,34.5".data.filter (fun c => c ≠ ',')).asString) ∧
    parseNumberQ ((joinSep '.' ("1".data :: ["234".data, "567".data])).asString) =
      ((digitsVal ("1".data ++ ["234".data, "567".data].flatten) : ℕ) : ℚ) ∧
    parseNumberQ "abc" = 0 :=
  ⟨(claim_C5_parseNumber_locale.2.2.2.1 "12,34.5" (by decide) (by decide)
      (by decide) (by decide)).2 (by decide),
   claim_C5_parseNumber_locale.2.2.2.2.1 "1".data ["234".data, "567".data]
      (by decide) (by decide) (by decide) (by decide),
   claim_C5_parseNumber_locale.2.2.2.2.2.2 "abc" (by decide)⟩

/-! ### Claim C10 -/

/-- Claim C10: a request with no Origin header always passes the CORS
check; an origin equal to null or whose URL host is a loopback host
(localhost, 127.0.0.1, ::1) is accepted regardless of the allow-list;
an empty or all-whitespace configured token authorizes every request,
and a non-empty token authorizes exactly the requests whose trimmed
X-Patchsync-Token header equals the configured token. -/
theorem claim_C10_http_access_edges :
    (∀ allowed : List String, withCORSAllows "" allowed = true) ∧
    (∀ allowed : List String, isOriginAllowed "null" allowed = true) ∧
    (∀ (origin : String) (allowed : List String),
      (asciiLower (goTrimSpace (originHostname (goTrimSpace origin.data))) = "localhost".data ∨
       asciiLower (goTrimSpace (originHostname (goTrimSpace origin.data))) = "127.0.0.1".data ∨
       asciiLower (goTrimSpace (originHostname (goTrimSpace origin.data))) = "::1".data) →
      isOriginAllowed origin allowed = true) ∧
    (∀ authToken header : String, goTrimSpace authToken.data = [] →
      isAuthorized authToken header = true) ∧
    (∀ authToken header : String, goTrimSpace authToken.data ≠ [] →
      (isAuthorized authToken header = true ↔ goTrimSpace header.data = authToken.data)) := by
  refine ⟨?_, ?_, ?_, ?_, ?_⟩
  · intro allowed
    rfl
  · intro allowed
    have hlb : isLoopbackOrigin "null" = true := by decide
    unfold isOriginAllowed
    rw [if_neg (by decide)]
    split
    · rfl
    · split
      · rfl
      · exact hlb
  · intro origin allowed h
    unfold isOriginAllowed
    split
    · rfl
    · split
      · rfl
      · split
        · rfl
        · unfold isLoopbackOrigin
          split
          · rfl
          · rcases h with h | h | h <;> simp [h]
  · intro authToken header h
    unfold isAuthorized
    rw [if_pos h]
  · intro authToken header h
    unfold isAuthorized
    rw [if_neg h]
    simp

/-- Witness for C10 at concrete inputs. -/
theorem claim_C10_http_access_edges_witness :
    isOriginAllowed "http://localhost:5173" ["https://example.com"] = true ∧
    isAuthorized "  " "whatever" = true ∧
    (isAuthorized "tok" " tok " = true ↔ goTrimSpace " tok ".data = "tok".data) :=
  ⟨claim_C10_http_access_edges.2.2.1 "http://localhost:5173" ["https://example.com"]
      (Or.inl (by decide)),
   claim_C10_http_access_edges.2.2.2.1 "  " "whatever" (by decide),
   claim_C10_http_access_edges.2.2.2.2 "tok" " tok " (by decide)⟩

/-! ### Claim C3 -/

theorem wuwaF2PPullSum_foldl : ∀ (l : List Source) (s0 : ℚ),
    l.foldl (fun s src =>
      if src.pulls.isSome ∧ src.countInPulls ∧ wuwaF2PSourceIDs.contains src.id
      then qAdd s (src.pulls.getD 0) else s) s0 =
    s0 + (l.map wuwaSrcContribution).sum
  | [], s0 => by simp
  | a :: r, s0 => by
    simp only [List.foldl_cons, List.map_cons, List.sum_cons]
    by_cases hc : a.pulls.isSome ∧ a.countInPulls ∧ wuwaF2PSourceIDs.contains a.id
    · rw [if_pos hc, wuwaF2PPullSum_foldl r, qAdd_eq, wuwaSrcContribution, if_pos hc]
      ring
    · rw [if_neg hc, wuwaF2PPullSum_foldl r, wuwaSrcContribution, if_neg hc]
      ring

theorem wuwaF2PPullSum_eq_sum (l : List Source) :
    wuwaF2PPullSum l = (l.map wuwaSrcContribution).sum := by
  rw [wuwaF2PPullSum, wuwaF2PPullSum_foldl, zero_add]

theorem sum_map_set (f : Source → ℚ) :
    ∀ (l : List Source) (idx : ℕ) (a b : Source), l.get? idx = some a →
      ((l.set idx b).map f).sum = (l.map f).sum - f a + f b
  | [], idx, a, b, h => by cases h
  | x :: r, 0, a, b, h => by
    simp only [List.get?] at h
    injection h with h
    subst h
    simp only [List.set, List.map_cons, List.sum_cons]
    ring
  | x :: r, idx + 1, a, b, h => by
    simp only [List.get?] at h
    simp only [List.set, List.map_cons, List.sum_cons, sum_map_set f r idx a b h]
    ring

/-- Claim C3: when the Wuthering Waves Data sheet publishes a Total
F2P value, applyWuwaDataPullOverrides adds the difference between that
total and the recomputed sum of the pull-eligible free-tier pull counts
(rounded to one decimal) onto the endgameModes catch-all source, and
when the rounding is exact the recomputed aggregate then equals the
published total; concretely, a published 205.0 against a computed 200.0
raises the catch-all pull count by exactly 5.0 and the aggregate
becomes 205.0. -/
theorem claim_C3_wuwa_catchall_absorption :
    (∀ (patch : Patch) (pulls : List (String × List (String × ℚ)))
       (sourcePulls : List (String × ℚ)) (total : ℚ) (idx : ℕ) (src : Source),
      pulls.lookup (normalizePatchName patch.patch) = some sourcePulls →
      sourcePulls.lookup "__totalF2P" = some total →
      (sourceIndexOf patch.sources).lookup "endgameModes" = some idx →
      (wuwaApplySourcePulls patch.sources sourcePulls).get? idx = some src →
      qSub total (wuwaF2PPullSum (wuwaApplySourcePulls patch.sources sourcePulls)) ≠ 0 →
      (applyWuwaDataPullOverrides patch pulls =
        .ok (patchWithSources patch ((wuwaApplySourcePulls patch.sources sourcePulls).set idx
          (srcWithPulls src (roundToTenth (src.pulls.getD 0 +
            (total - wuwaF2PPullSum (wuwaApplySourcePulls patch.sources sourcePulls)))))))) ∧
      (src.id = "endgameModes" → src.countInPulls = true →
        roundToTenth (src.pulls.getD 0 +
            (total - wuwaF2PPullSum (wuwaApplySourcePulls patch.sources sourcePulls))) =
          src.pulls.getD 0 +
            (total - wuwaF2PPullSum (wuwaApplySourcePulls patch.sources sourcePulls)) →
        wuwaF2PPullSum ((wuwaApplySourcePulls patch.sources sourcePulls).set idx
          (srcWithPulls src (roundToTenth (src.pulls.getD 0 +
            (total - wuwaF2PPullSum (wuwaApplySourcePulls patch.sources sourcePulls)))))) =
          total)) ∧
    (wuwaF2PPullSum (wuwaApplySourcePulls c3Patch.sources c3SourcePulls) = 200 ∧
     (applyWuwaDataPullOverrides c3Patch c3Pulls).toOption.map
       (fun p => ((p.sources.filter (fun s => s.id = "endgameModes")).map (fun s => s.pulls),
                  wuwaF2PPullSum p.sources)) = some ([some 5], 205)) := by
  constructor
  · intro patch pulls sourcePulls total idx src hlookup htotal hidx hget hdelta
    constructor
    · simp only [applyWuwaDataPullOverrides, hlookup, htotal, hidx, hget]
      rw [if_pos hdelta]
      simp only [qAdd_eq, qSub_eq]
      rfl
    · intro hid hcount hexact
      rw [wuwaF2PPullSum_eq_sum,
        sum_map_set wuwaSrcContribution _ idx src _ hget, hexact]
      have hcontains : wuwaF2PSourceIDs.contains "endgameModes" = true := by decide
      have hold : wuwaSrcContribution src = src.pulls.getD 0 := by
        rcases hp : src.pulls with _ | v
        · rw [wuwaSrcContribution, if_neg (by simp [hp])]
          simp [hp]
        · rw [wuwaSrcContribution, if_pos ⟨by simp [hp], hcount, by rw [hid]; exact hcontains⟩]
          rw [hp]
      have hnew : wuwaSrcContribution (srcWithPulls src (src.pulls.getD 0 +
          (total - wuwaF2PPullSum (wuwaApplySourcePulls patch.sources sourcePulls)))) =
          src.pulls.getD 0 +
            (total - wuwaF2PPullSum (wuwaApplySourcePulls patch.sources sourcePulls)) := by
        rw [wuwaSrcContribution,
          if_pos ⟨by simp [srcWithPulls], hcount, by simp [srcWithPulls, hid]; decide⟩]
        simp [srcWithPulls]
      rw [hnew, hold, ← wuwaF2PPullSum_eq_sum]
      ring
  · constructor
    · decide
    · decide

/-- Witness for C3: the general absorption equation applied at the
concrete 205-versus-200 Data sheet. -/
theorem claim_C3_wuwa_catchall_absorption_witness :
    applyWuwaDataPullOverrides c3Patch c3Pulls =
      .ok (patchWithSources c3Patch ((wuwaApplySourcePulls c3Patch.sources c3SourcePulls).set 4
        (srcWithPulls c3EndgameSrc (roundToTenth (c3EndgameSrc.pulls.getD 0 +
          (205 - wuwaF2PPullSum (wuwaApplySourcePulls c3Patch.sources c3SourcePulls))))))) :=
  ((claim_C3_wuwa_catchall_absorption.1 c3Patch c3Pulls c3SourcePulls 205 4 c3EndgameSrc
    (by decide) (by decide) (by decide) (by decide) (by decide)).1)

/-! ### Claim C4 -/

/-- Claim C4: for a Wuthering Waves sheet that parses past the
structural checks (enough rows, a positive duration, all four required
aggregate rows) and publishes both a Total F2P and a Total Paid row,
parseSheetToPatchWuwa returns an error, and no patch, exactly when the
published pull total of either tier differs from the recomputed pull
total (events + permanent + mailbox + recurring for the free tier,
plus the paid podcast and the duration-scaled monthly astrite for the
paid tier) by more than the tolerance 0.001. -/
theorem claim_C4_wuwa_reconciliation_error :
    ∀ (sheetName : String) (records : List (List String))
      (events permanent mailbox recurring totalF2P totalPaid : Rewards),
      3 ≤ records.length →
      0 < findWuwaDurationDays records →
      (wuwaAggregateRows records).lookup "version events" = some events →
      (wuwaAggregateRows records).lookup "permanent content" = some permanent →
      (wuwaAggregateRows records).lookup "mailbox/miscellaneous" = some mailbox →
      (wuwaAggregateRows records).lookup "recurring sources" = some recurring →
      (wuwaAggregateRows records).lookup "total f2p" = some totalF2P →
      (wuwaAggregateRows records).lookup "total paid" = some totalPaid →
      ((∃ e, parseSheetToPatchWuwa sheetName records = .error e) ↔
        (|wwPullsFromRewards totalF2P -
            wwPullsFromRewards (wuwaActualF2PRewards events permanent mailbox recurring)| >
          wuwaEpsilon ∨
         |wwPullsFromRewards totalPaid -
            wwPullsFromRewards (wuwaActualPaidRewards events permanent mailbox recurring
              (((wuwaAggregateRows records).lookup "paid pioneer podcast").getD zeroRewards)
              (((wuwaAggregateRows records).lookup "lunite subscription").getD zeroRewards)
              (findWuwaDurationDays records))| > wuwaEpsilon)) := by
  intro sheetName records events permanent mailbox recurring totalF2P totalPaid
    hlen hdur hEv hPe hMa hRe hTF hTP
  simp only [parseSheetToPatchWuwa, hEv, hPe, hMa, hRe, hTF, hTP]
  rw [if_neg (by omega), if_neg (by omega)]
  by_cases h1 : qAbs (qSub (wwPullsFromRewards totalF2P)
      (wwPullsFromRewards (wuwaActualF2PRewards events permanent mailbox recurring))) > wuwaEpsilon
  · rw [if_pos h1]
    constructor
    · intro _
      left
      rw [← qAbs_eq, ← qSub_eq]
      exact h1
    · intro _
      exact ⟨_, rfl⟩
  · rw [if_neg h1]
    by_cases h2 : qAbs (qSub (wwPullsFromRewards totalPaid)
        (wwPullsFromRewards (wuwaActualPaidRewards events permanent mailbox recurring
          (((wuwaAggregateRows records).lookup "paid pioneer podcast").getD zeroRewards)
          (((wuwaAggregateRows records).lookup "lunite subscription").getD zeroRewards)
          (findWuwaDurationDays records)))) > wuwaEpsilon
    · rw [if_pos h2]
      constructor
      · intro _
        right
        rw [← qAbs_eq, ← qSub_eq]
        exact h2
      · intro _
        exact ⟨_, rfl⟩
    · rw [if_neg h2]
      constructor
      · rintro ⟨e, he⟩
        cases he
      · rintro (hm | hm)
        · rw [← qAbs_eq, ← qSub_eq] at hm
          exact absurd hm h1
        · rw [← qAbs_eq, ← qSub_eq] at hm
          exact absurd hm h2

/-- Witness for C4: a concrete sheet whose published Total F2P of 14
pulls disagrees with the recomputed 16 pulls, so parsing fails. -/
theorem claim_C4_wuwa_reconciliation_error_witness :
    (∃ e, parseSheetToPatchWuwa "1.0"
      [["Version 1.0"], ["Version Length", "40"],
       ["Version Events", "1600", "2", "1", "3"],
       ["Permanent Content", "160", "0", "0", "0"],
       ["Mailbox/Miscellaneous", "0", "0", "0", "0"],
       ["Recurring Sources", "320", "0", "0", "0"],
       ["Total F2P", "1600", "2", "1", "3"],
       ["Total Paid", "2080", "2", "1", "3"]] = .error e) ↔
    (|wwPullsFromRewards ⟨1600, 0, 2, 3, 1, 0, 0, 0⟩ -
        wwPullsFromRewards (wuwaActualF2PRewards ⟨1600, 0, 2, 3, 1, 0, 0, 0⟩
          ⟨160, 0, 0, 0, 0, 0, 0, 0⟩ zeroRewards ⟨320, 0, 0, 0, 0, 0, 0, 0⟩)| > wuwaEpsilon ∨
     |wwPullsFromRewards ⟨2080, 0, 2, 3, 1, 0, 0, 0⟩ -
        wwPullsFromRewards (wuwaActualPaidRewards ⟨1600, 0, 2, 3, 1, 0, 0, 0⟩
          ⟨160, 0, 0, 0, 0, 0, 0, 0⟩ zeroRewards ⟨320, 0, 0, 0, 0, 0, 0, 0⟩
          zeroRewards zeroRewards 40)| > wuwaEpsilon) :=
  claim_C4_wuwa_reconciliation_error "1.0" _ _ _ _ _ _ _
    (by decide) (by decide) (by decide) (by decide) (by decide) (by decide)
    (by decide) (by decide)

/-! ### Claim C6 -/

theorem lookup_keyMap (keys : List String) (f : String → ℚ) (key : String) (hk : key ∈ keys) :
    (keys.map (fun k => (k, f k))).lookup key = some (f key) := by
  induction keys with
  | nil => cases hk
  | cons a r ih =>
    by_cases h : key = a
    · subst h
      simp [List.lookup]
    · have hba : (key == a) = false := by simp [h]
      rcases List.mem_cons.mp hk with he | hm
      · exact absurd he h
      · simp only [List.map_cons, List.lookup, hba]
        exact ih hm

theorem jsLookup_normalizeRewards {econ : Economy} {key : String}
    (hk : key ∈ econ.resourceKeys) (input : List (String × ℚ)) :
    jsLookup (normalizeRewards input econ) key = resolveResourceAmount input key econ := by
  rw [jsLookup, normalizeRewards, lookup_keyMap _ _ _ hk, Option.getD_some]

theorem scalerStep_keyMap (econ : Economy) (dN : ℚ) (g : String → ℚ) (sc : JsScaler) :
    scalerStep econ dN (econ.resourceKeys.map fun k => (k, g k)) sc =
      econ.resourceKeys.map fun k => (k,
        if sc.type = "per_duration" then
          qAdd (g k) (qMul (scalerCycles sc dN) (jsLookup (normalizeRewards sc.rewards econ) k))
        else g k) := by
  by_cases ht : sc.type = "per_duration"
  · simp only [scalerStep, if_pos ht, List.map_map]
    rfl
  · simp only [scalerStep, if_neg ht]

theorem foldl_scalerStep_lookup (econ : Economy) (dN : ℚ) (key : String)
    (hk : key ∈ econ.resourceKeys) :
    ∀ (scalers : List JsScaler) (g : String → ℚ),
      ((scalers.foldl (scalerStep econ dN) (econ.resourceKeys.map fun k => (k, g k))).lookup key)
        = some (g key + (scalers.map (fun sc => scalerContribution sc dN key econ)).sum)
  | [], g => by
    simp only [List.foldl_nil, List.map_nil, List.sum_nil, add_zero]
    exact lookup_keyMap _ _ _ hk
  | sc :: rest, g => by
    rw [List.foldl_cons, scalerStep_keyMap, foldl_scalerStep_lookup econ dN key hk rest]
    simp only [List.map_cons, List.sum_cons, Option.some.injEq]
    by_cases ht : sc.type = "per_duration"
    · simp only [if_pos ht, scalerContribution, qAdd_eq, qMul_eq,
        jsLookup_normalizeRewards hk]
      ring
    · simp only [if_neg ht, scalerContribution]
      ring

/-- Claim C6: for a source with a per-duration scaler list and no crate
model, resolveSourceRewards assigns to every canonical resource key its
base amount plus the sum of the scalers' contributions; the
contribution of a scaler with unit day over a duration of N days (N at
least 0) is exactly N times its per-cycle reward, and the contribution
of a scaler with any other unit, cycle length C (everyDays, C at least
1) and rounding ceil is the ceiling of N / C times its per-cycle
reward. -/
theorem claim_C6_scaler_expansion :
    (∀ (econ : Economy) (source : JsSource) (N tier : ℚ) (key : String),
      key ∈ econ.resourceKeys → source.bpCrateModel = none →
      (resolveSourceRewards source N tier econ).lookup key =
        some (resolveResourceAmount source.rewards key econ +
          (source.scalers.map (fun sc => scalerContribution sc N key econ)).sum)) ∧
    (∀ (econ : Economy) (sc : JsScaler) (N : ℚ) (key : String),
      sc.type = "per_duration" → 0 ≤ N → (sc.unit = some "day" ∨ sc.unit = none) →
      scalerContribution sc N key econ = N * resolveResourceAmount sc.rewards key econ) ∧
    (∀ (econ : Economy) (sc : JsScaler) (N C : ℚ) (key : String),
      sc.type = "per_duration" → 0 ≤ N →
      sc.unit.getD "day" ≠ "day" → sc.rounding = some "ceil" →
      sc.everyDays = some C → 1 ≤ C →
      scalerContribution sc N key econ =
        (⌈N / C⌉ : ℚ) * resolveResourceAmount sc.rewards key econ) := by
  have hqmax0 : ∀ N : ℚ, 0 ≤ N → qMax 0 N = N := by
    intro N hN
    rw [qMax]
    by_cases h : (0 : ℚ) < N
    · rw [if_pos h]
    · rw [if_neg h]
      exact le_antisymm hN (not_lt.mp h)
  refine ⟨?_, ?_, ?_⟩
  · intro econ source N tier key hk hbp
    simp only [resolveSourceRewards, hbp, normalizeRewards]
    exact foldl_scalerStep_lookup econ N key hk source.scalers
      (fun k => resolveResourceAmount source.rewards k econ)
  · intro econ sc N key ht hN hu
    have hunit : sc.unit.getD "day" = "day" := by
      rcases hu with h | h <;> simp [h]
    simp [scalerContribution, scalerCycles, ht, hunit, hqmax0 N hN, qMul_eq]
  · intro econ sc N C key ht hN hu hr hev hC
    have hevery : scalerEveryDays sc = C := by
      have hC0 : C ≠ 0 := by
        intro h
        rw [h] at hC
        norm_num at hC
      simp only [scalerEveryDays, hev]
      rw [if_neg hC0, qMax]
      by_cases h : (1 : ℚ) < C
      · rw [if_pos h]
      · rw [if_neg h]
        exact le_antisymm hC (not_lt.mp h)
    simp [scalerContribution, scalerCycles, ht, hu, hqmax0 N hN, hevery, hr,
      applyRounding, qMul_eq, qOfInt_eq, qDiv_eq]

/-- Witness for C6: a 200-per-day scaler over a 54-day patch on a
one-key economy yields base plus contribution; the day contribution is
54 times the per-cycle reward, and a ceil-rounded 7-day cycle over 54
days contributes the ceiling of 54 / 7 cycles. -/
theorem claim_C6_scaler_expansion_witness :
    (resolveSourceRewards
        ⟨[("oroberyl", 3000)],
         [⟨"per_duration", some "day", some 1, some "floor", [("oroberyl", 200)]⟩], none⟩
        54 1 ⟨["oroberyl"], []⟩).lookup "oroberyl" =
      some (resolveResourceAmount [("oroberyl", 3000)] "oroberyl" ⟨["oroberyl"], []⟩ +
        ([⟨"per_duration", some "day", some 1, some "floor",
            [("oroberyl", 200)]⟩].map
          (fun sc => scalerContribution sc 54 "oroberyl" ⟨["oroberyl"], []⟩)).sum) ∧
    scalerContribution
        ⟨"per_duration", some "day", some 1, some "floor", [("oroberyl", 200)]⟩
        54 "oroberyl" ⟨["oroberyl"], []⟩ =
      54 * resolveResourceAmount [("oroberyl", 200)] "oroberyl" ⟨["oroberyl"], []⟩ ∧
    scalerContribution
        ⟨"per_duration", some "cycle", some 7, some "ceil", [("oroberyl", 100)]⟩
        54 "oroberyl" ⟨["oroberyl"], []⟩ =
      (⌈(54 : ℚ) / 7⌉ : ℚ) * resolveResourceAmount [("oroberyl", 100)] "oroberyl" ⟨["oroberyl"], []⟩ :=
  ⟨claim_C6_scaler_expansion.1 ⟨["oroberyl"], []⟩
      ⟨[("oroberyl", 3000)],
       [⟨"per_duration", some "day", some 1, some "floor", [("oroberyl", 200)]⟩], none⟩
      54 1 "oroberyl" (by decide) rfl,
   claim_C6_scaler_expansion.2.1 ⟨["oroberyl"], []⟩
      ⟨"per_duration", some "day", some 1, some "floor", [("oroberyl", 200)]⟩
      54 "oroberyl" rfl (by norm_num) (Or.inl rfl),
   claim_C6_scaler_expansion.2.2 ⟨["oroberyl"], []⟩
      ⟨"per_duration", some "cycle", some 7, some "ceil", [("oroberyl", 100)]⟩
      54 7 "oroberyl" rfl (by norm_num) (by decide) rfl rfl (by norm_num)⟩

/-! ### Claim C7: probe lemmas -/

theorem goItoaAux_fuel : ∀ (f1 f2 n : ℕ), n < f1 → n < f2 → goItoaAux f1 n = goItoaAux f2 n
  | f1 + 1, f2 + 1, n, h1, h2 => by
    rw [goItoaAux, goItoaAux]
    by_cases h : n < 10
    · rw [if_pos h, if_pos h]
    · rw [if_neg h, if_neg h,
        goItoaAux_fuel f1 f2 (n / 10) (by omega) (by omega)]

theorem goItoa_lt10 {n : ℕ} (h : n < 10) : goItoa n = [Char.ofNat (48 + n)] := by
  rw [goItoa, goItoaAux, if_pos h]

theorem goItoa_ge10 {n : ℕ} (h : 10 ≤ n) :
    goItoa n = goItoa (n / 10) ++ [Char.ofNat (48 + n % 10)] := by
  rw [goItoa, goItoa, goItoaAux, if_neg (by omega)]
  rw [goItoaAux_fuel n (n / 10 + 1) (n / 10) (by omega) (by omega)]

theorem goItoa_ne_nil (n : ℕ) : goItoa n ≠ [] := by
  by_cases h : n < 10
  · rw [goItoa_lt10 h]
    simp
  · rw [goItoa_ge10 (by omega)]
    simp

theorem charOfNat_digit_isDigit {k : ℕ} (h : k < 10) :
    (Char.ofNat (48 + k)).isDigit = true := by
  interval_cases k <;> decide

theorem digitVal_charOfNat {k : ℕ} (h : k < 10) : digitVal (Char.ofNat (48 + k)) = k := by
  interval_cases k <;> decide

theorem goItoa_digits (n : ℕ) : ∀ c ∈ goItoa n, c.isDigit = true := by
  induction n using Nat.strong_induction_on with
  | _ n ih =>
    intro c hc
    by_cases h : n < 10
    · rw [goItoa_lt10 h] at hc
      simp only [List.mem_singleton] at hc
      subst hc
      exact charOfNat_digit_isDigit h
    · rw [goItoa_ge10 (by omega)] at hc
      rcases List.mem_append.mp hc with h1 | h1
      · exact ih (n / 10) (Nat.div_lt_self (by omega) (by omega)) c h1
      · simp only [List.mem_singleton] at h1
        subst h1
        exact charOfNat_digit_isDigit (Nat.mod_lt _ (by omega))

theorem digitsVal_foldl_init :
    ∀ (l : List Char) (a : ℕ),
      l.foldl (fun a c => 10 * a + digitVal c) a = a * 10 ^ l.length + digitsVal l
  | [], a => by simp [digitsVal]
  | c :: r, a => by
    have hr := digitsVal_foldl_init r
    have h1 : digitsVal (c :: r) = digitVal c * 10 ^ r.length + digitsVal r := by
      rw [digitsVal, List.foldl_cons, hr]
      simp
    rw [List.foldl_cons, hr, h1, List.length_cons]
    ring

theorem digitsVal_append (l1 l2 : List Char) :
    digitsVal (l1 ++ l2) = digitsVal l1 * 10 ^ l2.length + digitsVal l2 := by
  rw [digitsVal, List.foldl_append, digitsVal_foldl_init l2]
  rfl

theorem digitsVal_goItoa (n : ℕ) : digitsVal (goItoa n) = n := by
  induction n using Nat.strong_induction_on with
  | _ n ih =>
    by_cases h : n < 10
    · rw [goItoa_lt10 h, digitsVal]
      simp only [List.foldl_cons, List.foldl_nil]
      rw [digitVal_charOfNat h]
      omega
    · rw [goItoa_ge10 (by omega), digitsVal_append,
        ih (n / 10) (Nat.div_lt_self (by omega) (by omega))]
      rw [digitsVal, List.length_singleton]
      simp only [List.foldl_cons, List.foldl_nil]
      rw [digitVal_charOfNat (Nat.mod_lt _ (by omega))]
      omega

theorem isRegexSpace_false_of_digit {c : Char} (h : c.isDigit = true) :
    isRegexSpace c = false := by
  simp only [isRegexSpace, Bool.or_eq_false_iff, decide_eq_false_iff_not]
  refine ⟨⟨⟨⟨?_, ?_⟩, ?_⟩, ?_⟩, ?_⟩ <;>
    · intro he
      subst he
      exact absurd h (by decide)

theorem takeWhile_append_of_all {p : Char → Bool} {x : Char} (hx : p x = false)
    (t : List Char) :
    ∀ {g : List Char}, (∀ c ∈ g, p c = true) → (g ++ x :: t).takeWhile p = g
  | [], _ => by simp [List.takeWhile_cons, hx]
  | c :: r, hg => by
    simp only [List.cons_append, List.takeWhile_cons, hg c (by simp), if_true]
    exact congrArg (c :: ·) (takeWhile_append_of_all hx t fun d hd => hg d (by simp [hd]))

theorem dropWhile_append_of_all {p : Char → Bool} {x : Char} (hx : p x = false)
    (t : List Char) :
    ∀ {g : List Char}, (∀ c ∈ g, p c = true) → (g ++ x :: t).dropWhile p = x :: t
  | [], _ => by simp [List.dropWhile_cons, hx]
  | c :: r, hg => by
    simp only [List.cons_append, List.dropWhile_cons, hg c (by simp), if_true]
    exact dropWhile_append_of_all hx t fun d hd => hg d (by simp [hd])

theorem probeName_data (m n : ℕ) :
    (probeName m n).data = goItoa m ++ '.' :: goItoa n := by
  rw [probeName, data_asString]

theorem versionSortKey_probeName {m n : ℕ}
    (hm : m ≤ maxInt64) (hn : n ≤ maxInt64) :
    versionSortKey (probeName m n) = some (m, n) := by
  rw [versionSortKey, probeName_data]
  have hnoWS : ∀ c ∈ goItoa m ++ '.' :: goItoa n, isRegexSpace c = false := by
    intro c hc
    rcases List.mem_append.mp hc with h1 | h1
    · exact isRegexSpace_false_of_digit (goItoa_digits m c h1)
    · rcases List.mem_cons.mp h1 with rfl | h2
      · decide
      · exact isRegexSpace_false_of_digit (goItoa_digits n c h2)
  rw [dropWhile_of_none hnoWS]
  rw [takeWhile_append_of_all (by decide) (goItoa n) (goItoa_digits m)]
  rw [dropWhile_append_of_all (by decide) (goItoa n) (goItoa_digits m)]
  rw [if_neg (by simpa using goItoa_ne_nil m)]
  simp only
  rw [takeWhile_of_all (goItoa_digits n)]
  rw [if_neg (by simpa using goItoa_ne_nil n)]
  rw [digitsVal_goItoa, digitsVal_goItoa]
  rw [if_neg (by omega)]

theorem goTrim_probeName (m n : ℕ) : goTrim (probeName m n) = probeName m n := by
  rw [goTrim, probeName_data]
  have hnoWS : ∀ c ∈ goItoa m ++ '.' :: goItoa n, isWS c = false := by
    intro c hc
    rcases List.mem_append.mp hc with h1 | h1
    · exact isWS_false_of_digit (goItoa_digits m c h1)
    · rcases List.mem_cons.mp h1 with rfl | h2
      · decide
      · exact isWS_false_of_digit (goItoa_digits n c h2)
  rw [goTrimSpace_of_noWS hnoWS, probeName]

theorem probeName_ne_empty (m n : ℕ) : probeName m n ≠ "" := by
  intro he
  have : (probeName m n).data = ("" : String).data := by rw [he]
  rw [probeName_data] at this
  exact goItoa_ne_nil m (List.append_eq_nil.mp this).1

theorem probeMinorLoop_zero (ok : ℕ → ℕ → Bool) (major minor streak : ℕ) :
    probeMinorLoop ok major minor streak 0 = ([], []) := rfl

theorem probeMinorLoop_succ (ok : ℕ → ℕ → Bool) (major minor streak fuel : ℕ) :
    probeMinorLoop ok major minor streak (fuel + 1) =
      if minor > 50 then ([], [])
      else if ok major minor then
        (minor :: (probeMinorLoop ok major (minor + 1) 0 fuel).1,
         minor :: (probeMinorLoop ok major (minor + 1) 0 fuel).2)
      else if minor = 0 then ([minor], [])
      else if streak + 1 ≥ 2 then ([minor], [])
      else
        (minor :: (probeMinorLoop ok major (minor + 1) (streak + 1) fuel).1,
         (probeMinorLoop ok major (minor + 1) (streak + 1) fuel).2) := rfl

theorem probeMinorLoop_head (ok : ℕ → ℕ → Bool) (major minor streak fuel : ℕ)
    (hf : 1 ≤ fuel) (hm : minor ≤ 50) :
    minor ∈ (probeMinorLoop ok major minor streak fuel).1 := by
  obtain ⟨f, rfl⟩ : ∃ f, fuel = f + 1 := ⟨fuel - 1, by omega⟩
  rw [probeMinorLoop_succ, if_neg (by omega)]
  by_cases h1 : ok major minor
  · rw [if_pos h1]
    exact List.mem_cons_self _ _
  · rw [if_neg h1]
    by_cases h2 : minor = 0
    · rw [if_pos h2]
      simp
    · rw [if_neg h2]
      by_cases h3 : streak + 1 ≥ 2
      · rw [if_pos h3]
        simp
      · rw [if_neg h3]
        exact List.mem_cons_self _ _

theorem probeMinorLoop_mem_le (ok : ℕ → ℕ → Bool) (major : ℕ) :
    ∀ (fuel minor streak j : ℕ), j ∈ (probeMinorLoop ok major minor streak fuel).1 →
      minor ≤ j ∧ j ≤ 50
  | 0, minor, streak, j => by
    rw [probeMinorLoop_zero]
    simp
  | fuel + 1, minor, streak, j => by
    rw [probeMinorLoop_succ]
    by_cases h0 : minor > 50
    · rw [if_pos h0]
      simp
    · rw [if_neg h0]
      by_cases h1 : ok major minor
      · rw [if_pos h1]
        intro hj
        rcases List.mem_cons.mp hj with rfl | hj
        · omega
        · have := probeMinorLoop_mem_le ok major fuel (minor + 1) 0 j hj
          omega
      · rw [if_neg h1]
        by_cases h2 : minor = 0
        · rw [if_pos h2]
          intro hj
          simp only [List.mem_singleton] at hj
          omega
        · rw [if_neg h2]
          by_cases h3 : streak + 1 ≥ 2
          · rw [if_pos h3]
            intro hj
            simp only [List.mem_singleton] at hj
            omega
          · rw [if_neg h3]
            intro hj
            rcases List.mem_cons.mp hj with rfl | hj
            · omega
            · have := probeMinorLoop_mem_le ok major fuel (minor + 1) (streak + 1) j hj
              omega

theorem probeMinorLoop_range (ok : ℕ → ℕ → Bool) (major : ℕ) :
    ∀ (fuel minor streak : ℕ), ∃ k, (probeMinorLoop ok major minor streak fuel).1 =
      (List.range k).map (minor + ·)
  | 0, minor, streak => ⟨0, by rw [probeMinorLoop_zero]; simp⟩
  | fuel + 1, minor, streak => by
    rw [probeMinorLoop_succ]
    by_cases h0 : minor > 50
    · rw [if_pos h0]
      exact ⟨0, by simp⟩
    · rw [if_neg h0]
      by_cases h1 : ok major minor
      · rw [if_pos h1]
        obtain ⟨k, hk⟩ := probeMinorLoop_range ok major fuel (minor + 1) 0
        refine ⟨k + 1, ?_⟩
        rw [hk, List.range_succ_eq_map, List.map_cons, List.map_map]
        simp only [Nat.add_zero]
        refine congrArg (minor :: ·) (List.map_congr_left ?_)
        intro i _
        simp only [Function.comp_apply]
        omega
      · rw [if_neg h1]
        by_cases h2 : minor = 0
        · rw [if_pos h2]
          exact ⟨1, by simp [List.range_succ]⟩
        · rw [if_neg h2]
          by_cases h3 : streak + 1 ≥ 2
          · rw [if_pos h3]
            exact ⟨1, by simp [List.range_succ]⟩
          · rw [if_neg h3]
            obtain ⟨k, hk⟩ := probeMinorLoop_range ok major fuel (minor + 1) (streak + 1)
            refine ⟨k + 1, ?_⟩
            rw [hk, List.range_succ_eq_map, List.map_cons, List.map_map]
            simp only [Nat.add_zero]
            refine congrArg (minor :: ·) (List.map_congr_left ?_)
            intro i _
            simp only [Function.comp_apply]
            omega

theorem probeMinorLoop_hits (ok : ℕ → ℕ → Bool) (major : ℕ) :
    ∀ (fuel minor streak : ℕ), (probeMinorLoop ok major minor streak fuel).2 =
      (probeMinorLoop ok major minor streak fuel).1.filter (fun j => ok major j)
  | 0, minor, streak => by rw [probeMinorLoop_zero]; rfl
  | fuel + 1, minor, streak => by
    rw [probeMinorLoop_succ]
    by_cases h0 : minor > 50
    · rw [if_pos h0]
      rfl
    · rw [if_neg h0]
      by_cases h1 : ok major minor
      · rw [if_pos h1]
        simp only [List.filter_cons, h1, if_true]
        exact congrArg (minor :: ·) (probeMinorLoop_hits ok major fuel (minor + 1) 0)
      · rw [if_neg h1]
        by_cases h2 : minor = 0
        · rw [if_pos h2]
          simp [List.filter_cons, h1]
        · rw [if_neg h2]
          by_cases h3 : streak + 1 ≥ 2
          · rw [if_pos h3]
            simp [List.filter_cons, h1]
          · rw [if_neg h3]
            simp only [List.filter_cons, h1, Bool.false_eq_true, if_false]
            exact probeMinorLoop_hits ok major fuel (minor + 1) (streak + 1)

theorem probeMinorLoop_two_misses (ok : ℕ → ℕ → Bool) (major : ℕ) :
    ∀ (fuel minor streak j : ℕ), minor ≤ j → ok major j = false →
      ok major (j + 1) = false →
      (j + 2) ∉ (probeMinorLoop ok major minor streak fuel).1
  | 0, minor, streak, j => by
    intro _ _ _
    rw [probeMinorLoop_zero]
    simp
  | fuel + 1, minor, streak, j => by
    intro hmj hj hj1
    rw [probeMinorLoop_succ]
    by_cases h0 : minor > 50
    · rw [if_pos h0]
      simp
    · rw [if_neg h0]
      by_cases h1 : ok major minor
      · rw [if_pos h1]
        intro hmem
        rcases List.mem_cons.mp hmem with he | hmem
        · omega
        · by_cases hlt : minor + 1 ≤ j
          · exact probeMinorLoop_two_misses ok major fuel (minor + 1) 0 j hlt hj hj1 hmem
          · have : minor = j := by omega
            rw [this, hj] at h1
            exact absurd h1 (by simp)
      · rw [if_neg h1]
        by_cases h2 : minor = 0
        · rw [if_pos h2]
          intro hmem
          simp only [List.mem_singleton] at hmem
          omega
        · rw [if_neg h2]
          by_cases h3 : streak + 1 ≥ 2
          · rw [if_pos h3]
            intro hmem
            simp only [List.mem_singleton] at hmem
            omega
          · rw [if_neg h3]
            intro hmem
            rcases List.mem_cons.mp hmem with he | hmem
            · omega
            · by_cases hlt : minor + 1 ≤ j
              · exact probeMinorLoop_two_misses ok major fuel (minor + 1) (streak + 1) j
                  hlt hj hj1 hmem
              · have hmi : minor = j := by omega
                subst hmi
                cases fuel with
                | zero => rw [probeMinorLoop_zero] at hmem; simp at hmem
                | succ f =>
                  rw [probeMinorLoop_succ] at hmem
                  by_cases h4 : minor + 1 > 50
                  · rw [if_pos h4] at hmem
                    simp at hmem
                  · rw [if_neg h4, if_neg (by rw [hj1]; simp), if_neg (by omega),
                      if_pos (by omega)] at hmem
                    simp only [List.mem_singleton] at hmem
                    omega

theorem probeMinorLoop_cont_hit (ok : ℕ → ℕ → Bool) (major : ℕ) :
    ∀ (fuel minor streak j : ℕ), minor + fuel ≥ 51 →
      j ∈ (probeMinorLoop ok major minor streak fuel).1 → j < 50 →
      ok major j = true →
      (j + 1) ∈ (probeMinorLoop ok major minor streak fuel).1
  | 0, minor, streak, j => by
    rw [probeMinorLoop_zero]
    simp
  | fuel + 1, minor, streak, j => by
    intro hfuel hmem hj50 hokj
    rw [probeMinorLoop_succ] at hmem ⊢
    by_cases h0 : minor > 50
    · rw [if_pos h0] at hmem
      simp at hmem
    · rw [if_neg h0] at hmem ⊢
      by_cases h1 : ok major minor
      · rw [if_pos h1] at hmem ⊢
        rcases List.mem_cons.mp hmem with he | hmem
        · subst he
          exact List.mem_cons_of_mem _
            (probeMinorLoop_head ok major (j + 1) 0 fuel (by omega) (by omega))
        · exact List.mem_cons_of_mem _
            (probeMinorLoop_cont_hit ok major fuel (minor + 1) 0 j (by omega) hmem hj50 hokj)
      · rw [if_neg h1] at hmem ⊢
        by_cases h2 : minor = 0
        · rw [if_pos h2] at hmem
          simp only [List.mem_singleton] at hmem
          subst hmem
          rw [hokj] at h1
          exact absurd rfl h1
        · rw [if_neg h2] at hmem ⊢
          by_cases h3 : streak + 1 ≥ 2
          · rw [if_pos h3] at hmem
            simp only [List.mem_singleton] at hmem
            subst hmem
            rw [hokj] at h1
            exact absurd rfl h1
          · rw [if_neg h3] at hmem ⊢
            rcases List.mem_cons.mp hmem with he | hmem
            · subst he
              rw [hokj] at h1
              exact absurd rfl h1
            · exact List.mem_cons_of_mem _
                (probeMinorLoop_cont_hit ok major fuel (minor + 1) (streak + 1) j
                  (by omega) hmem hj50 hokj)

theorem probeMinorLoop_cont_single (ok : ℕ → ℕ → Bool) (major : ℕ) :
    ∀ (fuel minor streak j : ℕ), minor + fuel ≥ 51 →
      (1 ≤ minor → ok major (minor - 1) = true → streak = 0) →
      j ∈ (probeMinorLoop ok major minor streak fuel).1 → j < 50 →
      1 ≤ j → ok major (j - 1) = true →
      (j + 1) ∈ (probeMinorLoop ok major minor streak fuel).1
  | 0, minor, streak, j => by
    rw [probeMinorLoop_zero]
    simp
  | fuel + 1, minor, streak, j => by
    intro hfuel hinv hmem hj50 hj1 hprev
    rw [probeMinorLoop_succ] at hmem ⊢
    by_cases h0 : minor > 50
    · rw [if_pos h0] at hmem
      simp at hmem
    · rw [if_neg h0] at hmem ⊢
      by_cases h1 : ok major minor
      · rw [if_pos h1] at hmem ⊢
        rcases List.mem_cons.mp hmem with he | hmem
        · subst he
          exact List.mem_cons_of_mem _
            (probeMinorLoop_head ok major (j + 1) 0 fuel (by omega) (by omega))
        · exact List.mem_cons_of_mem _
            (probeMinorLoop_cont_single ok major fuel (minor + 1) 0 j (by omega)
              (fun _ _ => rfl) hmem hj50 hj1 hprev)
      · rw [if_neg h1] at hmem ⊢
        by_cases h2 : minor = 0
        · rw [if_pos h2] at hmem
          simp only [List.mem_singleton] at hmem
          omega
        · rw [if_neg h2] at hmem ⊢
          by_cases h3 : streak + 1 ≥ 2
          · rw [if_pos h3] at hmem
            simp only [List.mem_singleton] at hmem
            subst hmem
            have := hinv hj1 hprev
            omega
          · rw [if_neg h3] at hmem ⊢
            rcases List.mem_cons.mp hmem with he | hmem
            · subst he
              exact List.mem_cons_of_mem _
                (probeMinorLoop_head ok major (j + 1) (streak + 1) fuel (by omega) (by omega))
            · refine List.mem_cons_of_mem _
                (probeMinorLoop_cont_single ok major fuel (minor + 1) (streak + 1) j
                  (by omega) ?_ hmem hj50 hj1 hprev)
              intro _ hokm
              simp only [Nat.add_sub_cancel] at hokm
              rw [hokm] at h1
              exact absurd rfl h1

theorem insLess_perm {α : Type} (less : α → α → Bool) (a : α) :
    ∀ l : List α, (insLess less a l).Perm (a :: l)
  | [] => List.Perm.refl _
  | b :: r => by
    rw [insLess]
    by_cases h : less a b = true
    · rw [if_pos h]
    · rw [if_neg h]
      exact ((insLess_perm less a r).cons b).trans (List.Perm.swap a b r)

theorem insSort_perm {α : Type} (less : α → α → Bool) :
    ∀ l : List α, (insSort less l).Perm l
  | [] => List.Perm.refl _
  | a :: r => by
    rw [insSort]
    exact (insLess_perm less a (insSort less r)).trans ((insSort_perm less r).cons a)

theorem insLess_pairwise {α : Type} (less : α → α → Bool) (P : α → Prop)
    (hasym : ∀ x y, P x → P y → less x y = true → less y x = false)
    (htrans : ∀ x y z, P x → P y → P z → less z x = true → less x y = true →
      less z y = true) :
    ∀ (l : List α) (a : α), P a → (∀ x ∈ l, P x) →
      l.Pairwise (fun x y => less y x = false) →
      (insLess less a l).Pairwise (fun x y => less y x = false)
  | [], a, _, _, _ => by simp [insLess]
  | b :: r, a, ha, hl, hs => by
    rw [insLess]
    by_cases h : less a b = true
    · rw [if_pos h]
      rw [List.pairwise_cons]
      refine ⟨?_, hs⟩
      intro y hy
      rcases List.mem_cons.mp hy with rfl | hy
      · exact hasym a y ha (hl _ (by simp)) h
      · by_contra hya
        simp only [Bool.not_eq_false] at hya
        have h1 : less y b = true :=
          htrans a b y ha (hl b (by simp)) (hl y (by simp [hy])) hya h
        have h2 : less y b = false := (List.pairwise_cons.mp hs).1 y hy
        rw [h1] at h2
        exact absurd h2 (by simp)
    · rw [if_neg h]
      rw [List.pairwise_cons] at hs ⊢
      refine ⟨?_, insLess_pairwise less P hasym htrans r a ha
        (fun x hx => hl x (by simp [hx])) hs.2⟩
      intro y hy
      rcases List.mem_cons.mp ((insLess_perm less a r).mem_iff.mp hy) with rfl | hy2
      · simp only [Bool.not_eq_true] at h
        exact h
      · exact hs.1 y hy2

theorem insSort_pairwise {α : Type} (less : α → α → Bool) (P : α → Prop)
    (hasym : ∀ x y, P x → P y → less x y = true → less y x = false)
    (htrans : ∀ x y z, P x → P y → P z → less z x = true → less x y = true →
      less z y = true) :
    ∀ l : List α, (∀ x ∈ l, P x) →
      (insSort less l).Pairwise (fun x y => less y x = false)
  | [], _ => by simp [insSort]
  | a :: r, hl => by
    rw [insSort]
    refine insLess_pairwise less P hasym htrans _ a (hl a (by simp)) ?_
      (insSort_pairwise less P hasym htrans r (fun x hx => hl x (by simp [hx])))
    intro x hx
    exact hl x (by simp [(insSort_perm less r).mem_iff.mp hx])

theorem charListLex_asymm :
    ∀ {as bs : List Char}, charListLex as bs = true → charListLex bs as = false
  | [], [], h => by rw [charListLex] at h; exact absurd h (by simp)
  | [], _ :: _, _ => by rw [charListLex]
  | _ :: _, [], h => by rw [charListLex] at h; exact absurd h (by simp)
  | a :: as, b :: bs, h => by
    rw [charListLex] at h
    rw [charListLex]
    by_cases hab : a < b
    · rw [if_neg (lt_asymm hab), if_pos hab]
    · rw [if_neg hab] at h
      by_cases hba : b < a
      · rw [if_pos hba] at h
        exact absurd h (by simp)
      · rw [if_neg hba] at h
        rw [if_neg hba, if_neg hab]
        exact charListLex_asymm h

theorem strLexLess_asymm {a b : String} (h : strLexLess a b = true) :
    strLexLess b a = false := charListLex_asymm h

theorem versionLess_asymm (a b : String) (h : versionLess a b = true) :
    versionLess b a = false := by
  rw [versionLess] at h ⊢
  cases ha : versionSortKey a <;> cases hb : versionSortKey b <;>
      rw [ha, hb] at h <;> simp only at h ⊢
  · exact strLexLess_asymm h
  · exact strLexLess_asymm h
  · exact strLexLess_asymm h
  · rename_i ka kb
    by_cases h1 : ka.1 = kb.1
    · rw [if_neg (by omega)] at h
      rw [if_neg (by omega)]
      simp only [decide_eq_true_eq] at h
      simp only [decide_eq_false_iff_not]
      omega
    · rw [if_pos (by omega)] at h
      rw [if_pos (by omega)]
      simp only [decide_eq_true_eq] at h
      simp only [decide_eq_false_iff_not]
      omega

theorem versionLess_trans_conf {a b c : String}
    (ha : (versionSortKey a).isSome = true) (hb : (versionSortKey b).isSome = true)
    (hc : (versionSortKey c).isSome = true)
    (h1 : versionLess c a = true) (h2 : versionLess a b = true) :
    versionLess c b = true := by
  obtain ⟨ka, hka⟩ := Option.isSome_iff_exists.mp ha
  obtain ⟨kb, hkb⟩ := Option.isSome_iff_exists.mp hb
  obtain ⟨kc, hkc⟩ := Option.isSome_iff_exists.mp hc
  rw [versionLess, hkc, hka] at h1
  rw [versionLess, hka, hkb] at h2
  rw [versionLess, hkc, hkb]
  simp only at h1 h2 ⊢
  by_cases e1 : kc.1 = ka.1
  · rw [if_neg (by omega)] at h1
    simp only [decide_eq_true_eq] at h1
    by_cases e2 : ka.1 = kb.1
    · rw [if_neg (by omega)] at h2
      rw [if_neg (by omega)]
      simp only [decide_eq_true_eq] at h2 ⊢
      omega
    · rw [if_pos (by omega)] at h2
      simp only [decide_eq_true_eq] at h2
      rw [if_pos (by omega)]
      simp only [decide_eq_true_eq]
      omega
  · rw [if_pos (by omega)] at h1
    simp only [decide_eq_true_eq] at h1
    by_cases e2 : ka.1 = kb.1
    · rw [if_pos (by omega)]
      simp only [decide_eq_true_eq]
      omega
    · rw [if_pos (by omega)] at h2
      simp only [decide_eq_true_eq] at h2
      rw [if_pos (by omega)]
      simp only [decide_eq_true_eq]
      omega

theorem uniqueSheetNamesAux_subset :
    ∀ (l seen : List String), ∀ y ∈ uniqueSheetNamesAux seen l, y ∈ l
  | [], seen => by simp [uniqueSheetNamesAux]
  | x :: r, seen => by
    intro y hy
    simp only [uniqueSheetNamesAux] at hy
    split at hy
    · exact List.mem_cons_of_mem _ (uniqueSheetNamesAux_subset r seen y hy)
    · rcases List.mem_cons.mp hy with rfl | hy
      · simp
      · exact List.mem_cons_of_mem _ (uniqueSheetNamesAux_subset r _ y hy)

theorem uniqueSheetNamesAux_trim_spec :
    ∀ (l seen : List String),
      ((uniqueSheetNamesAux seen l).map goTrim).Nodup ∧
      ∀ y ∈ uniqueSheetNamesAux seen l, goTrim y ∉ seen
  | [], seen => by simp [uniqueSheetNamesAux]
  | x :: r, seen => by
    simp only [uniqueSheetNamesAux]
    split
    · exact uniqueSheetNamesAux_trim_spec r seen
    · rename_i hcond
      push_neg at hcond
      obtain ⟨ih1, ih2⟩ := uniqueSheetNamesAux_trim_spec r (goTrim x :: seen)
      refine ⟨?_, ?_⟩
      · rw [List.map_cons, List.nodup_cons]
        refine ⟨?_, ih1⟩
        intro hmem
        obtain ⟨y, hy, he⟩ := List.mem_map.mp hmem
        exact ih2 y hy (by rw [he]; simp)
      · intro y hy
        rcases List.mem_cons.mp hy with rfl | hy
        · intro hmem
          exact hcond.2 (by simp [hmem])
        · intro hmem
          exact ih2 y hy (by simp [hmem])

theorem uniqueSheetNames_nodup (l : List String) : (uniqueSheetNames l).Nodup :=
  List.Nodup.of_map goTrim (uniqueSheetNamesAux_trim_spec l []).1

theorem uniqueSheetNames_cons_ne_nil {x : String} (hx : goTrim x ≠ "") (r : List String) :
    uniqueSheetNames (x :: r) ≠ [] := by
  rw [uniqueSheetNames]
  simp only [uniqueSheetNamesAux]
  rw [if_neg (by simp [hx])]
  simp

theorem probeMajorNames_le (ok : ℕ → ℕ → Bool) (m : ℕ) :
    ∀ n ∈ probeMajorNames ok m, n ≤ 50 := by
  intro n hn
  rw [probeMajorNames] at hn
  by_cases h : ok m 0
  · rw [if_pos h] at hn
    rw [probeMinorLoop_hits] at hn
    exact (probeMinorLoop_mem_le ok m 51 0 0 n (List.mem_filter.mp hn).1).2
  · rw [if_neg h] at hn
    simp at hn

theorem mem_probeAllNames (ok : ℕ → ℕ → Bool) (y : String)
    (hy : y ∈ majorCandidates.flatMap
      (fun m => (probeMajorNames ok m).map (probeName m))) :
    ∃ m n, m ≤ 5 ∧ n ≤ 50 ∧ y = probeName m n := by
  obtain ⟨m, hm, hy2⟩ := List.mem_flatMap.mp hy
  obtain ⟨n, hn, he⟩ := List.mem_map.mp hy2
  refine ⟨m, n, ?_, probeMajorNames_le ok m n hn, he.symm⟩
  revert hm
  rw [majorCandidates]
  intro hm
  simp only [List.mem_cons, List.not_mem_nil, or_false] at hm
  omega

/-- Claim C7: in discoverSheetNamesByProbe, only candidate majors are
ever probed; a major whose first probe major.0 misses gets no further
major.x probe; for a major whose first probe hits, the minors are
probed sequentially upward from 0 with no gaps, a probe two past two
consecutive misses never happens, and probing continues past a hit and
past a single miss (below the minor bound 50); the returned name list
is non-empty, deduplicated and version-sorted; and the probe errors
exactly when it yields zero names. -/
theorem claim_C7_probe_early_stop :
    (∀ (ok : ℕ → ℕ → Bool) (m n : ℕ), (m, n) ∈ discoverProbeTrace ok →
      m ∈ majorCandidates) ∧
    (∀ (ok : ℕ → ℕ → Bool) (m n : ℕ), ok m 0 = false →
      (m, n) ∈ discoverProbeTrace ok → n = 0) ∧
    (∀ (ok : ℕ → ℕ → Bool) (m : ℕ), ok m 0 = true →
      ∃ k, probeMajorTrace ok m = List.range k) ∧
    (∀ (ok : ℕ → ℕ → Bool) (m j : ℕ), ok m j = false → ok m (j + 1) = false →
      j + 2 ∉ probeMajorTrace ok m) ∧
    (∀ (ok : ℕ → ℕ → Bool) (m j : ℕ), j ∈ probeMajorTrace ok m → j < 50 →
      ok m j = true → j + 1 ∈ probeMajorTrace ok m) ∧
    (∀ (ok : ℕ → ℕ → Bool) (m j : ℕ), j ∈ probeMajorTrace ok m → j < 50 →
      1 ≤ j → ok m (j - 1) = true → j + 1 ∈ probeMajorTrace ok m) ∧
    (∀ (ok : ℕ → ℕ → Bool) (ns : List String),
      discoverSheetNamesByProbe ok = .ok ns →
      ns ≠ [] ∧ ns.Nodup ∧ ns.Pairwise (fun a b => versionLess b a = false)) ∧
    (∀ ok : ℕ → ℕ → Bool, (discoverSheetNamesByProbe ok).toOption = none ↔
      majorCandidates.flatMap (fun m => (probeMajorNames ok m).map (probeName m)) = []) := by
  refine ⟨?_, ?_, ?_, ?_, ?_, ?_, ?_, ?_⟩
  · intro ok m n hmem
    rcases List.mem_append.mp hmem with h | h
    · obtain ⟨m2, hm2, he⟩ := List.mem_map.mp h
      obtain ⟨rfl, rfl⟩ := Prod.mk.injEq .. ▸ he
      exact hm2
    · obtain ⟨m2, hm2, h2⟩ := List.mem_flatMap.mp h
      obtain ⟨n2, _, he⟩ := List.mem_map.mp h2
      obtain ⟨rfl, rfl⟩ := Prod.mk.injEq .. ▸ he
      exact hm2
  · intro ok m n hmiss hmem
    rcases List.mem_append.mp hmem with h | h
    · obtain ⟨m2, _, he⟩ := List.mem_map.mp h
      obtain ⟨rfl, rfl⟩ := Prod.mk.injEq .. ▸ he
      rfl
    · obtain ⟨m2, _, h2⟩ := List.mem_flatMap.mp h
      obtain ⟨n2, hn2, he⟩ := List.mem_map.mp h2
      obtain ⟨rfl, rfl⟩ := Prod.mk.injEq .. ▸ he
      rw [probeMajorTrace, if_neg (by rw [hmiss]; simp)] at hn2
      exact absurd hn2 (by simp)
  · intro ok m hhit
    obtain ⟨k, hk⟩ := probeMinorLoop_range ok m 51 0 0
    refine ⟨k, ?_⟩
    rw [probeMajorTrace, if_pos hhit, hk]
    simp
  · intro ok m j hj hj1
    rw [probeMajorTrace]
    by_cases h : ok m 0
    · rw [if_pos h]
      exact probeMinorLoop_two_misses ok m 51 0 0 j (by omega) hj hj1
    · rw [if_neg h]
      simp
  · intro ok m j hmem hj50 hokj
    rw [probeMajorTrace] at hmem ⊢
    by_cases h : ok m 0
    · rw [if_pos h] at hmem ⊢
      exact probeMinorLoop_cont_hit ok m 51 0 0 j (by omega) hmem hj50 hokj
    · rw [if_neg h] at hmem
      exact absurd hmem (by simp)
  · intro ok m j hmem hj50 hj1 hprev
    rw [probeMajorTrace] at hmem ⊢
    by_cases h : ok m 0
    · rw [if_pos h] at hmem ⊢
      exact probeMinorLoop_cont_single ok m 51 0 0 j (by omega)
        (fun hc => absurd hc (by omega)) hmem hj50 hj1 hprev
    · rw [if_neg h] at hmem
      exact absurd hmem (by simp)
  · intro ok ns h
    simp only [discoverSheetNamesByProbe] at h
    split at h
    · exact absurd h (by simp)
    · rename_i hcond
      simp only [Except.ok.injEq] at h
      subst h
      refine ⟨hcond, ?_, ?_⟩
      · rw [sortVersionStrings]
        exact (insSort_perm versionLess _).nodup_iff.mpr (uniqueSheetNames_nodup _)
      · rw [sortVersionStrings]
        refine insSort_pairwise versionLess (fun s => (versionSortKey s).isSome = true)
          (fun x y _ _ hxy => versionLess_asymm x y hxy)
          (fun x y z hx hy hz h1 h2 => versionLess_trans_conf hx hy hz h1 h2)
          _ ?_
        intro x hx
        obtain ⟨m, n, hm, hn, rfl⟩ :=
          mem_probeAllNames ok x (uniqueSheetNamesAux_subset _ [] x hx)
        rw [versionSortKey_probeName (by simp only [maxInt64]; omega)
          (by simp only [maxInt64]; omega)]
        rfl
  · intro ok
    constructor
    · intro htop
      by_contra hne
      obtain ⟨x, t, hxt⟩ : ∃ x t,
          majorCandidates.flatMap (fun m => (probeMajorNames ok m).map (probeName m)) =
            x :: t := by
        cases hc : majorCandidates.flatMap
            (fun m => (probeMajorNames ok m).map (probeName m)) with
        | nil => exact absurd hc hne
        | cons a l => exact ⟨a, l, rfl⟩
      obtain ⟨m, n, _, _, rfl⟩ := mem_probeAllNames ok x (by rw [hxt]; simp)
      have hx : goTrim (probeName m n) ≠ "" := by
        rw [goTrim_probeName]
        exact probeName_ne_empty m n
      have hne2 : sortVersionStrings
          (uniqueSheetNames (probeName m n :: t)) ≠ [] := by
        intro hnil
        have hlen := congrArg List.length hnil
        rw [sortVersionStrings, (insSort_perm versionLess _).length_eq] at hlen
        exact uniqueSheetNames_cons_ne_nil hx t (List.length_eq_zero.mp hlen)
      simp only [discoverSheetNamesByProbe, hxt] at htop
      rw [if_neg hne2] at htop
      simp [Except.toOption] at htop
    · intro hnil
      simp only [discoverSheetNamesByProbe, hnil]
      rfl

/-- Witness for C7: with the success predicate hitting exactly 1.0,
1.1 and 1.2, the run returns those names deduplicated and sorted, minor
5 is never probed for major 1 (misses at 3 and 4), probing continues
from the hit at minor 1, and for a predicate missing 3.0 every probe of
major 3 stops at minor 0. -/
theorem claim_C7_probe_early_stop_witness :
    ((5 : ℕ) ∉ probeMajorTrace (fun m n => decide (m = 1) && decide (n < 3)) 1) ∧
    ((2 : ℕ) ∈ probeMajorTrace (fun m n => decide (m = 1) && decide (n < 3)) 1) ∧
    ((["1.0", "1.1", "1.2"] : List String) ≠ [] ∧
     (["1.0", "1.1", "1.2"] : List String).Nodup ∧
     (["1.0", "1.1", "1.2"] : List String).Pairwise
       (fun a b => versionLess b a = false)) ∧
    ((0 : ℕ) = 0) :=
  ⟨claim_C7_probe_early_stop.2.2.2.1 (fun m n => decide (m = 1) && decide (n < 3))
      1 3 rfl rfl,
   claim_C7_probe_early_stop.2.2.2.2.1 (fun m n => decide (m = 1) && decide (n < 3))
      1 1 (by decide) (by decide) rfl,
   claim_C7_probe_early_stop.2.2.2.2.2.2.1 (fun m n => decide (m = 1) && decide (n < 3))
      ["1.0", "1.1", "1.2"] rfl,
   claim_C7_probe_early_stop.2.1 (fun m n => decide (m = 2) && decide (n < 3))
      3 0 rfl (by decide)⟩

/-! ### Claim C2: merge and sort lemmas -/

theorem lookup_upsert :
    ∀ (l : List (String × Patch)) (k : String) (v : Patch) (s : String),
      (upsertAssoc l k v).lookup s = if s = k then some v else l.lookup s
  | [], k, v, s => by
    rw [upsertAssoc]
    by_cases h : s = k
    · have hb : (s == k) = true := beq_iff_eq.mpr h
      rw [if_pos h]
      simp only [List.lookup, hb]
    · have hb : (s == k) = false := beq_eq_false_iff_ne.mpr h
      rw [if_neg h]
      simp only [List.lookup, hb]
  | (k2, w) :: r, k, v, s => by
    rw [upsertAssoc]
    by_cases hk : k2 = k
    · rw [if_pos hk]
      subst hk
      by_cases hs : s = k2
      · have hb : (s == k2) = true := beq_iff_eq.mpr hs
        rw [if_pos hs]
        simp only [List.lookup, hb]
      · have hb : (s == k2) = false := beq_eq_false_iff_ne.mpr hs
        rw [if_neg hs]
        simp only [List.lookup, hb]
    · rw [if_neg hk]
      by_cases hs : s = k2
      · have hsk : ¬s = k := by rw [hs]; exact hk
        have hb : (s == k2) = true := beq_iff_eq.mpr hs
        rw [if_neg hsk]
        simp only [List.lookup, hb]
      · have hb : (s == k2) = false := beq_eq_false_iff_ne.mpr hs
        simp only [List.lookup, hb]
        exact lookup_upsert r k v s

theorem find_reverse_of_nodup :
    ∀ (l : List Patch), (l.map (fun p => p.id)).Nodup → ∀ p ∈ l,
      l.reverse.find? (fun q => q.id == p.id) = some p
  | [], _, p, hp => by simp at hp
  | a :: r, hnd, p, hp => by
    rw [List.map_cons, List.nodup_cons] at hnd
    rw [List.reverse_cons, List.find?_append]
    rcases List.mem_cons.mp hp with rfl | hp2
    · have hnone : r.reverse.find? (fun q => q.id == p.id) = none := by
        rw [List.find?_eq_none]
        intro x hx
        simp only [beq_iff_eq]
        intro he
        exact hnd.1 (List.mem_map.mpr ⟨x, List.mem_reverse.mp hx, he⟩)
      rw [hnone]
      simp
    · rw [find_reverse_of_nodup r hnd.2 p hp2]
      rfl

theorem filterMap_map_id_eq :
    ∀ (lst : List String) (f : String → Option Patch),
      (∀ s ∈ lst, ∃ p, f s = some p ∧ p.id = s) →
      (lst.filterMap f).map (fun p => p.id) = lst
  | [], _, _ => rfl
  | s :: r, f, h => by
    obtain ⟨p, hf, hid⟩ := h s (by simp)
    rw [List.filterMap_cons, hf, List.map_cons, hid,
      filterMap_map_id_eq r f (fun t ht => h t (by simp [ht]))]

theorem mergeFoldInv :
    ∀ (L : List Patch), (∀ p ∈ L, goTrim p.id ≠ "") →
      (∀ s : String, (L.foldl mergeStep ([], [])).2.lookup s =
          L.reverse.find? (fun p => p.id == s)) ∧
      (∀ s : String, s ∈ (L.foldl mergeStep ([], [])).1 ↔
          s ∈ L.map (fun p => p.id)) ∧
      (L.foldl mergeStep ([], [])).1.Nodup := by
  intro L
  induction L using List.reverseRecOn with
  | nil =>
    intro _
    refine ⟨fun s => rfl, fun s => by simp, by simp⟩
  | append_singleton L p ih =>
    intro hbl
    obtain ⟨hlook, hmem, hnd⟩ := ih (fun q hq => hbl q (by simp [hq]))
    rw [List.foldl_append, List.foldl_cons, List.foldl_nil]
    rw [mergeStep, if_neg (hbl p (by simp))]
    simp only
    have hfind : ∀ s : String, (L ++ [p]).reverse.find? (fun q => q.id == s) =
        if s = p.id then some p else L.reverse.find? (fun q => q.id == s) := by
      intro s
      rw [List.reverse_append, List.reverse_singleton, List.singleton_append]
      by_cases hs : s = p.id
      · rw [if_pos hs, List.find?_cons_of_pos _ (by simp [hs])]
      · rw [if_neg hs, List.find?_cons_of_neg _ (by simp; intro he; exact hs he.symm)]
    refine ⟨?_, ?_, ?_⟩
    · intro s
      rw [lookup_upsert, hfind s, hlook s]
    · intro s
      rw [List.map_append]
      by_cases h : ((L.foldl mergeStep ([], [])).2.lookup p.id).isSome = true
      · rw [if_pos h]
        have hpid : p.id ∈ L.map (fun q => q.id) := by
          rw [hlook p.id] at h
          obtain ⟨x, hx, hpx⟩ := List.find?_isSome.mp h
          simp only [beq_iff_eq] at hpx
          exact List.mem_map.mpr ⟨x, List.mem_reverse.mp hx, hpx⟩
        rw [hmem s]
        constructor
        · intro hin
          exact List.mem_append.mpr (Or.inl hin)
        · intro hin
          rcases List.mem_append.mp hin with hin | hin
          · exact hin
          · simp only [List.map_cons, List.map_nil, List.mem_singleton] at hin
            rw [hin]
            exact hpid
      · rw [if_neg h, List.mem_append, hmem s]
        simp
    · by_cases h : ((L.foldl mergeStep ([], [])).2.lookup p.id).isSome = true
      · rw [if_pos h]
        exact hnd
      · rw [if_neg h]
        rw [List.nodup_append]
        refine ⟨hnd, by simp, ?_⟩
        intro s hs hsp
        simp only [List.mem_singleton] at hsp
        subst hsp
        have hpid := (hmem p.id).mp hs
        obtain ⟨x, hx, hpx⟩ := List.mem_map.mp hpid
        have hsome : (L.reverse.find? (fun q => q.id == p.id)).isSome = true :=
          List.find?_isSome.mpr ⟨x, List.mem_reverse.mpr hx, by simp [hpx]⟩
        rw [← hlook p.id] at hsome
        exact h hsome

/-- Claim C2 (amended): with non-blank ids that are unique within the
prior list and within the additions, mergePatchesByID is exactly the
union by patch id in which an addition replaces the prior record with
its id and every other prior record is retained; the result carries no
duplicate id; and when every patch field parses to a (major, minor)
key the result is sorted ascending by that key.  (The original claim's
tail — non-conforming ids sort lexically after all conforming ids — is
refuted by claim_C2_merge_union_sort_counterexample.) -/
theorem claim_C2_merge_union_sort :
    ∀ (existing additions : List Patch),
      (∀ p ∈ existing ++ additions, goTrim p.id ≠ "") →
      (existing.map (fun p => p.id)).Nodup →
      (additions.map (fun p => p.id)).Nodup →
      (∀ p, p ∈ mergePatchesByID existing additions ↔
        (p ∈ additions ∨ (p ∈ existing ∧ p.id ∉ additions.map (fun q => q.id)))) ∧
      ((mergePatchesByID existing additions).map (fun p => p.id)).Nodup ∧
      ((∀ p ∈ existing ++ additions, (versionSortKey p.patch).isSome = true) →
        (mergePatchesByID existing additions).Pairwise
          (fun p q => versionLess q.patch p.patch = false)) := by
  intro existing additions h1 h2 h3
  obtain ⟨hlook, hmem, hnd⟩ := mergeFoldInv (existing ++ additions) h1
  have hfind : ∀ s : String,
      (existing ++ additions).reverse.find? (fun q => q.id == s) =
        ((additions.reverse.find? (fun q => q.id == s)).or
          (existing.reverse.find? (fun q => q.id == s))) := by
    intro s
    rw [List.reverse_append, List.find?_append]
  have hRchar : ∀ p, p ∈ ((existing ++ additions).foldl mergeStep ([], [])).1.filterMap
      (fun id2 => ((existing ++ additions).foldl mergeStep ([], [])).2.lookup id2) ↔
      (p ∈ additions ∨ (p ∈ existing ∧ p.id ∉ additions.map (fun q => q.id))) := by
    intro p
    rw [List.mem_filterMap]
    constructor
    · rintro ⟨s, hs, hsome⟩
      rw [hlook s, hfind s] at hsome
      cases hadd : additions.reverse.find? (fun q => q.id == s) with
      | some q =>
        rw [hadd] at hsome
        simp only [Option.or_some, Option.some.injEq] at hsome
        subst hsome
        exact Or.inl (List.mem_reverse.mp (List.mem_of_find?_eq_some hadd))
      | none =>
        rw [hadd] at hsome
        simp only [Option.none_or] at hsome
        refine Or.inr ⟨List.mem_reverse.mp (List.mem_of_find?_eq_some hsome), ?_⟩
        have hid : p.id = s := by
          have := List.find?_some hsome
          simp only [beq_iff_eq] at this
          exact this
        rw [hid]
        intro hin
        obtain ⟨q, hq, hqs⟩ := List.mem_map.mp hin
        rw [List.find?_eq_none] at hadd
        exact hadd q (List.mem_reverse.mpr hq) (by simp [hqs])
    · intro hp
      rcases hp with hp | ⟨hp, hnotin⟩
      · refine ⟨p.id, ?_, ?_⟩
        · rw [hmem p.id, List.map_append]
          exact List.mem_append.mpr (Or.inr (List.mem_map.mpr ⟨p, hp, rfl⟩))
        · rw [hlook p.id, hfind p.id, find_reverse_of_nodup additions h3 p hp]
          rfl
      · refine ⟨p.id, ?_, ?_⟩
        · rw [hmem p.id, List.map_append]
          exact List.mem_append.mpr (Or.inl (List.mem_map.mpr ⟨p, hp, rfl⟩))
        · have hnone : additions.reverse.find? (fun q => q.id == p.id) = none := by
            rw [List.find?_eq_none]
            intro x hx
            simp only [beq_iff_eq]
            intro he
            exact hnotin (List.mem_map.mpr ⟨x, List.mem_reverse.mp hx, he⟩)
          rw [hlook p.id, hfind p.id, hnone, Option.none_or,
            find_reverse_of_nodup existing h2 p hp]
  have hRids : (((existing ++ additions).foldl mergeStep ([], [])).1.filterMap
      (fun id2 => ((existing ++ additions).foldl mergeStep ([], [])).2.lookup id2)).map
        (fun p => p.id) = ((existing ++ additions).foldl mergeStep ([], [])).1 := by
    refine filterMap_map_id_eq _ _ ?_
    intro s hs
    have hx := (hmem s).mp hs
    obtain ⟨x, hxl, hxs⟩ := List.mem_map.mp hx
    have hsome : ((existing ++ additions).reverse.find?
        (fun q => q.id == s)).isSome = true :=
      List.find?_isSome.mpr ⟨x, List.mem_reverse.mpr hxl, by simp [hxs]⟩
    obtain ⟨q, hq⟩ := Option.isSome_iff_exists.mp hsome
    refine ⟨q, by rw [hlook s]; exact hq, ?_⟩
    have := List.find?_some hq
    simp only [beq_iff_eq] at this
    exact this
  have hperm := insSort_perm (fun p q => versionLess p.patch q.patch)
    (((existing ++ additions).foldl mergeStep ([], [])).1.filterMap
      (fun id2 => ((existing ++ additions).foldl mergeStep ([], [])).2.lookup id2))
  refine ⟨?_, ?_, ?_⟩
  · intro p
    simp only [mergePatchesByID]
    rw [sortPatches]
    rw [hperm.mem_iff]
    exact hRchar p
  · simp only [mergePatchesByID]
    rw [sortPatches]
    rw [(hperm.map (fun p => p.id)).nodup_iff, hRids]
    exact hnd
  · intro hconf
    simp only [mergePatchesByID]
    rw [sortPatches]
    refine insSort_pairwise (fun p q : Patch => versionLess p.patch q.patch)
      (fun p : Patch => (versionSortKey p.patch).isSome = true)
      (fun x y _ _ hxy => versionLess_asymm x.patch y.patch hxy)
      (fun x y z hx hy hz hza hab => versionLess_trans_conf hx hy hz hza hab)
      _ ?_
    intro x hx
    rcases (hRchar x).mp hx with h | ⟨h, _⟩
    · exact hconf x (List.mem_append.mpr (Or.inr h))
    · exact hconf x (List.mem_append.mpr (Or.inl h))

/-- Counterexample to claim C2's ordering tail: merging the freshly
parsed patches with ids 1.0 (conforming) and !bad (non-conforming)
sorts !bad FIRST, because the comparator falls back to plain lexical
comparison for a mixed pair and the exclamation mark precedes the
digits — the spec's statement that non-conforming ids order lexically
after all conforming ids is false. -/
theorem claim_C2_merge_union_sort_counterexample :
    mergePatchesByID []
        [⟨"1.0", "1.0", "", "", 0, [], "", []⟩,
         ⟨"!bad", "!bad", "", "", 0, [], "", []⟩] =
      [⟨"!bad", "!bad", "", "", 0, [], "", []⟩,
       ⟨"1.0", "1.0", "", "", 0, [], "", []⟩] ∧
    versionSortKey "!bad" = none ∧
    (versionSortKey "1.0").isSome = true := by
  refine ⟨rfl, by decide, by decide⟩

/-- Witness for the amended C2: an addition overriding the single
prior 1.0 record next to a retained prior 1.1 record. -/
theorem claim_C2_merge_union_sort_witness :
    ((⟨"1.0", "1.0", "", "", 0, [], "new", []⟩ : Patch) ∈
      mergePatchesByID
        [⟨"1.0", "1.0", "", "", 0, [], "old", []⟩,
         ⟨"1.1", "1.1", "", "", 0, [], "", []⟩]
        [⟨"1.0", "1.0", "", "", 0, [], "new", []⟩] ↔
      ((⟨"1.0", "1.0", "", "", 0, [], "new", []⟩ : Patch) ∈
          [(⟨"1.0", "1.0", "", "", 0, [], "new", []⟩ : Patch)] ∨
        ((⟨"1.0", "1.0", "", "", 0, [], "new", []⟩ : Patch) ∈
            [⟨"1.0", "1.0", "", "", 0, [], "old", []⟩,
             ⟨"1.1", "1.1", "", "", 0, [], "", []⟩] ∧
          (⟨"1.0", "1.0", "", "", 0, [], "new", []⟩ : Patch).id ∉
            [(⟨"1.0", "1.0", "", "", 0, [], "new", []⟩ : Patch)].map
              (fun q => q.id)))) ∧
    ((mergePatchesByID
        [⟨"1.0", "1.0", "", "", 0, [], "old", []⟩,
         ⟨"1.1", "1.1", "", "", 0, [], "", []⟩]
        [⟨"1.0", "1.0", "", "", 0, [], "new", []⟩]).map (fun p => p.id)).Nodup ∧
    (mergePatchesByID
        [⟨"1.0", "1.0", "", "", 0, [], "old", []⟩,
         ⟨"1.1", "1.1", "", "", 0, [], "", []⟩]
        [⟨"1.0", "1.0", "", "", 0, [], "new", []⟩]).Pairwise
      (fun p q => versionLess q.patch p.patch = false) :=
  have h := claim_C2_merge_union_sort
    [⟨"1.0", "1.0", "", "", 0, [], "old", []⟩,
     ⟨"1.1", "1.1", "", "", 0, [], "", []⟩]
    [⟨"1.0", "1.0", "", "", 0, [], "new", []⟩]
    (by decide) (by decide) (by decide)
  ⟨h.1 ⟨"1.0", "1.0", "", "", 0, [], "new", []⟩, h.2.1, h.2.2 (by decide)⟩

/-! ### Claim C8: error propagation lemmas -/

theorem processAllSheets_nil (cfg : SyncCfg) (env : SyncEnv) (ex : Bool)
    (st : SyncLoopState) : processAllSheets cfg env ex st [] = .ok st := rfl

theorem processAllSheets_cons (cfg : SyncCfg) (env : SyncEnv) (ex : Bool)
    (st : SyncLoopState) (n : String) (ns : List String) :
    processAllSheets cfg env ex st (n :: ns) =
      (processSheet cfg env ex st n) >>= fun st2 =>
        processAllSheets cfg env ex st2 ns := rfl

theorem processSheet_of_resolve_error {env : SyncEnv} {s e : String}
    (h : env.resolve s = .error e) (cfg : SyncCfg) (st : SyncLoopState) :
    processSheet cfg env true st s = .error ("sheet " ++ s ++ ": " ++ e) ∧
    processSheet cfg env false st s = .ok st := by
  rw [processSheet, h, processSheet, h]
  exact ⟨rfl, rfl⟩

theorem exists_ok_ite {c : Prop} [Decidable c] (a b : SyncLoopState) :
    ∃ x, (if c then Except.ok a else Except.ok b : Except String SyncLoopState) =
      .ok x := by
  by_cases h : c
  · exact ⟨a, by rw [if_pos h]⟩
  · exact ⟨b, by rw [if_neg h]⟩

theorem processSheet_of_resolve_ok {env : SyncEnv} {s : String} {p : Patch}
    (h : env.resolve s = .ok p) (cfg : SyncCfg) (ex : Bool) (st : SyncLoopState) :
    ∃ st2, processSheet cfg env ex st s = .ok st2 := by
  rw [processSheet, h]
  simp only
  exact exists_ok_ite _ _

theorem mem_dropWhile_of_not {p : Char → Bool} :
    ∀ {l : List Char} {c : Char}, c ∈ l → p c = false → c ∈ l.dropWhile p
  | a :: r, c, hc, hpc => by
    rw [List.dropWhile_cons]
    by_cases hpa : p a = true
    · rw [if_pos hpa]
      rcases List.mem_cons.mp hc with rfl | hc2
      · rw [hpc] at hpa
        exact absurd hpa (by simp)
      · exact mem_dropWhile_of_not hc2 hpc
    · rw [if_neg hpa]
      exact hc

theorem goTrimSpace_ne_nil_of_mem {l : List Char} {c : Char} (hc : c ∈ l)
    (hws : isWS c = false) : goTrimSpace l ≠ [] := by
  intro hnil
  rw [goTrimSpace, trimRightWS] at hnil
  have h2 : (trimLeftWS l).reverse.dropWhile isWS = [] := by
    cases he : (trimLeftWS l).reverse.dropWhile isWS with
    | nil => rfl
    | cons a t => rw [he] at hnil; simp at hnil
  rw [List.dropWhile_eq_nil_iff] at h2
  have hc2 : c ∈ (trimLeftWS l).reverse :=
    List.mem_reverse.mpr (mem_dropWhile_of_not hc hws)
  rw [h2 c hc2] at hws
  exact absurd hws (by simp)

theorem dropWhile_head_false {p : Char → Bool} :
    ∀ {l : List Char} {c : Char} {t : List Char}, l.dropWhile p = c :: t → p c = false
  | a :: r, c, t, h => by
    rw [List.dropWhile_cons] at h
    by_cases hpa : p a = true
    · rw [if_pos hpa] at h
      exact dropWhile_head_false h
    · rw [if_neg hpa] at h
      obtain ⟨rfl, -⟩ := List.cons.injEq .. ▸ h
      simp only [Bool.not_eq_true] at hpa
      exact hpa

theorem dropWhile_eq_drop_k {p : Char → Bool} :
    ∀ l : List Char, ∃ k, l.dropWhile p = l.drop k
  | [] => ⟨0, rfl⟩
  | a :: r => by
    rw [List.dropWhile_cons]
    by_cases hpa : p a = true
    · rw [if_pos hpa]
      obtain ⟨k, hk⟩ := dropWhile_eq_drop_k (p := p) r
      exact ⟨k + 1, by rw [hk]; rfl⟩
    · rw [if_neg hpa]
      exact ⟨0, rfl⟩

theorem trimRight_head {x : List Char} {c : Char} {t : List Char}
    (h : trimRightWS x = c :: t) : ∃ t2, x = c :: t2 := by
  rw [trimRightWS] at h
  obtain ⟨k, hk⟩ := dropWhile_eq_drop_k (p := isWS) x.reverse
  have h2 : x.reverse.drop k = (c :: t).reverse := by
    rw [← hk, ← List.reverse_reverse (x.reverse.dropWhile isWS), h]
  have h3 : x.reverse = x.reverse.take k ++ (c :: t).reverse := by
    rw [← h2, List.take_append_drop]
  have h5 := congrArg List.reverse h3
  rw [List.reverse_reverse, List.reverse_append, List.reverse_reverse] at h5
  exact ⟨t ++ (x.reverse.take k).reverse, h5⟩

theorem asString_ne_empty {l : List Char} (h : l ≠ []) : l.asString ≠ "" := by
  intro he
  have : (l.asString).data = ("" : String).data := by rw [he]
  rw [data_asString] at this
  exact h this

theorem goTrim_nonblank_stable {s : String} (h : goTrim s ≠ "") :
    goTrim (goTrim s) ≠ "" := by
  have hne : goTrimSpace s.data ≠ [] := by
    intro hnil
    rw [goTrim, hnil] at h
    exact h rfl
  obtain ⟨c, t, hct⟩ : ∃ c t, goTrimSpace s.data = c :: t := by
    cases he : goTrimSpace s.data with
    | nil => exact absurd he hne
    | cons a u => exact ⟨a, u, rfl⟩
  have hcws : isWS c = false := by
    rw [goTrimSpace] at hct
    obtain ⟨t2, ht2⟩ := trimRight_head hct
    exact dropWhile_head_false (p := isWS) ht2
  rw [goTrim, goTrim, data_asString]
  exact asString_ne_empty (goTrimSpace_ne_nil_of_mem (by rw [hct]; simp) hcws)

theorem uniqueStrings_cons_ne_nil {x : String} (hx : goTrim x ≠ "") (r : List String) :
    uniqueStrings (x :: r) ≠ [] := by
  rw [uniqueStrings]
  simp only [uniqueStringsAux]
  rw [if_neg (by simp [hx])]
  simp

theorem mkExistingByID_blank (existing : List Patch) :
    (mkExistingByID existing).lookup "" = none := by
  rw [mkExistingByID]
  suffices h : ∀ (l : List Patch) (acc : List (String × Patch)), acc.lookup "" = none →
      (l.foldl (fun acc p =>
        let pid := patchIDOrFallback p
        if pid ≠ "" then upsertAssoc acc pid p else acc) acc).lookup "" = none by
    exact h existing [] rfl
  intro l
  induction l with
  | nil => intro acc h; exact h
  | cons p r ih =>
    intro acc h
    rw [List.foldl_cons]
    refine ih _ ?_
    simp only
    by_cases hp : patchIDOrFallback p ≠ ""
    · rw [if_pos hp, lookup_upsert, if_neg (fun he => hp he.symm)]
      exact h
    · rw [if_neg hp]
      exact h

theorem patchIDOrFallback_trim_stable {p : Patch}
    (h : patchIDOrFallback p ≠ "") : goTrim (patchIDOrFallback p) ≠ "" := by
  simp only [patchIDOrFallback] at h ⊢
  by_cases hp : goTrim p.patch = ""
  · rw [if_pos hp] at h ⊢
    exact goTrim_nonblank_stable h
  · rw [if_neg hp] at h ⊢
    exact goTrim_nonblank_stable h

theorem ok_ite_cases {c : Prop} [Decidable c] {A B st2 : SyncLoopState}
    (h : (if c then Except.ok A else Except.ok B : Except String SyncLoopState) =
      .ok st2) :
    (c ∧ st2 = A) ∨ (¬c ∧ st2 = B) := by
  by_cases hc : c
  · rw [if_pos hc] at h
    exact Or.inl ⟨hc, (Except.ok.inj h).symm⟩
  · rw [if_neg hc] at h
    exact Or.inr ⟨hc, (Except.ok.inj h).symm⟩

theorem processSheet_inv {cfg : SyncCfg} {env : SyncEnv} {ex : Bool}
    {st : SyncLoopState} {s : String} {st2 : SyncLoopState}
    (h : processSheet cfg env ex st s = .ok st2)
    (hb : st.existingByID.lookup "" = none) :
    st2.existingByID.lookup "" = none ∧
    st2.validRows + (st.patches.length + st.skipped.length) =
      st.validRows + (st2.patches.length + st2.skipped.length) ∧
    (∀ x ∈ st2.skipped, x ∈ st.skipped ∨ goTrim x ≠ "") := by
  cases hr : env.resolve s with
  | error e =>
    rw [processSheet, hr] at h
    cases ex with
    | true =>
      dsimp only at h
      rw [if_pos rfl] at h
      exact absurd h (by simp)
    | false =>
      dsimp only at h
      rw [if_neg (by simp)] at h
      simp only [Except.ok.injEq] at h
      subst h
      exact ⟨hb, by omega, fun x hx => Or.inl hx⟩
  | ok p =>
    rw [processSheet, hr] at h
    dsimp only at h
    rcases ok_ite_cases h with ⟨hcond, rfl⟩ | ⟨hcond, rfl⟩
    · have hpid : patchIDOrFallback p ≠ "" := by
        intro hpe
        rw [hpe, hb] at hcond
        simp at hcond
      refine ⟨by simp [hb], ?_, ?_⟩
      · simp only [if_pos hpid]
        simp [List.length_append]
        omega
      · intro x hx
        simp only [if_pos hpid] at hx
        simp only [List.mem_append, List.mem_singleton] at hx
        rcases hx with hx | hx
        · exact Or.inl hx
        · subst hx
          exact Or.inr (patchIDOrFallback_trim_stable hpid)
    · simp only [processSheetAccept]
      refine ⟨?_, by simp only [List.length_append, List.length_singleton]; omega,
        fun x hx => Or.inl hx⟩
      by_cases hpid : patchIDOrFallback p ≠ ""
      · simp only [if_pos hpid]
        rw [lookup_upsert, if_neg (fun he => hpid he.symm)]
        exact hb
      · simp only [if_neg hpid]
        exact hb

theorem processAllSheets_inv :
    ∀ (names : List String) (cfg : SyncCfg) (env : SyncEnv) (ex : Bool)
      (st st2 : SyncLoopState),
      processAllSheets cfg env ex st names = .ok st2 →
      st.existingByID.lookup "" = none →
      st2.existingByID.lookup "" = none ∧
      st2.validRows + (st.patches.length + st.skipped.length) =
        st.validRows + (st2.patches.length + st2.skipped.length) ∧
      (∀ x ∈ st2.skipped, x ∈ st.skipped ∨ goTrim x ≠ "")
  | [], cfg, env, ex, st, st2 => by
    intro h hb
    rw [processAllSheets_nil] at h
    simp only [Except.ok.injEq] at h
    subst h
    exact ⟨hb, by omega, fun x hx => Or.inl hx⟩
  | n :: ns, cfg, env, ex, st, st2 => by
    intro h hb
    rw [processAllSheets_cons] at h
    cases hps : processSheet cfg env ex st n with
    | error e =>
      rw [hps] at h
      have h2 : (Except.error e : Except String SyncLoopState) = .ok st2 := h
      exact absurd h2 (by simp)
    | ok stm =>
      rw [hps] at h
      have hbind : (Except.ok stm >>= fun st3 =>
          processAllSheets cfg env ex st3 ns) =
          processAllSheets cfg env ex stm ns := rfl
      rw [hbind] at h
      obtain ⟨hb1, hc1, hs1⟩ := processSheet_inv hps hb
      obtain ⟨hb2, hc2, hs2⟩ := processAllSheets_inv ns cfg env ex stm st2 h hb1
      refine ⟨hb2, by omega, ?_⟩
      intro x hx
      rcases hs2 x hx with hx2 | hx2
      · exact hs1 x hx2
      · exact Or.inr hx2

theorem sortPatches_eq_nil {l : List Patch} (h : sortPatches l = []) : l = [] := by
  have := (insSort_perm (fun p q : Patch => versionLess p.patch q.patch) l).length_eq
  rw [sortPatches] at h
  rw [h] at this
  exact List.length_eq_zero.mp this.symm

/-- Claim C8: with explicit sheet names the first resolve (fetch,
parse or override) error on any named sheet aborts the whole run with
an error naming that sheet; with auto-discovered names a failing sheet
is silently excluded (the loop equals the loop over the resolvable
names and never errors); and a successful run always carries at least
one accepted or skipped patch — zero parsed and zero skipped is a
terminal failure. -/
theorem claim_C8_error_propagation :
    (∀ (cfg : SyncCfg) (env : SyncEnv) (st : SyncLoopState) (n1 : List String)
        (bad : String) (n2 : List String) (e : String),
      (∀ s ∈ n1, ∃ p, env.resolve s = .ok p) → env.resolve bad = .error e →
      processAllSheets cfg env true st (n1 ++ bad :: n2) =
        .error ("sheet " ++ bad ++ ": " ++ e)) ∧
    (∀ (cfg : SyncCfg) (env : SyncEnv) (st : SyncLoopState) (names : List String),
      processAllSheets cfg env false st names =
        processAllSheets cfg env false st
          (names.filter (fun s => (env.resolve s).toOption.isSome)) ∧
      ∃ st2, processAllSheets cfg env false st names = .ok st2) ∧
    (∀ (cfg : SyncCfg) (env : SyncEnv) (existing : List Patch) (r : SyncRunResult),
      runSyncModel cfg env existing = .ok r → r.patches ≠ [] ∨ r.skipped ≠ []) := by
  refine ⟨?_, ?_, ?_⟩
  · intro cfg env st n1
    induction n1 generalizing st with
    | nil =>
      intro bad n2 e _ hbad
      rw [List.nil_append, processAllSheets_cons,
        (processSheet_of_resolve_error hbad cfg st).1]
      rfl
    | cons a r ih =>
      intro bad n2 e hok hbad
      obtain ⟨p, hp⟩ := hok a (by simp)
      obtain ⟨st2, hst2⟩ := processSheet_of_resolve_ok hp cfg true st
      rw [List.cons_append, processAllSheets_cons, hst2]
      have hbind : ((Except.ok st2 : Except String SyncLoopState) >>= fun st3 =>
          processAllSheets cfg env true st3 (r ++ bad :: n2)) =
          processAllSheets cfg env true st2 (r ++ bad :: n2) := rfl
      rw [hbind]
      exact ih st2 bad n2 e (fun s hs => hok s (by simp [hs])) hbad
  · intro cfg env st names
    induction names generalizing st with
    | nil => exact ⟨rfl, st, rfl⟩
    | cons a r ih =>
      cases ha : env.resolve a with
      | error e =>
        have hps := (processSheet_of_resolve_error ha cfg st).2
        have hfil : (a :: r).filter (fun s => (env.resolve s).toOption.isSome) =
            r.filter (fun s => (env.resolve s).toOption.isSome) := by
          rw [List.filter_cons]
          rw [if_neg (by rw [ha]; simp [Except.toOption])]
        rw [hfil, processAllSheets_cons, hps]
        have hbind : ((Except.ok st : Except String SyncLoopState) >>= fun st3 =>
            processAllSheets cfg env false st3 r) =
            processAllSheets cfg env false st r := rfl
        rw [hbind]
        exact ih st
      | ok p =>
        obtain ⟨st2, hst2⟩ := processSheet_of_resolve_ok ha cfg false st
        have hfil : (a :: r).filter (fun s => (env.resolve s).toOption.isSome) =
            a :: r.filter (fun s => (env.resolve s).toOption.isSome) := by
          rw [List.filter_cons]
          rw [if_pos (by rw [ha]; simp [Except.toOption])]
        rw [hfil, processAllSheets_cons, processAllSheets_cons, hst2]
        have hbind : ∀ ns, ((Except.ok st2 : Except String SyncLoopState) >>= fun st3 =>
            processAllSheets cfg env false st3 ns) =
            processAllSheets cfg env false st2 ns := fun ns => rfl
        rw [hbind, hbind]
        exact ih st2
  · intro cfg env existing r h
    have key : ∀ (ex : Bool) (names : List String) (st : SyncLoopState),
        processAllSheets cfg env ex
          ⟨[], [], [], [], 0, mkExistingByID existing⟩ names = .ok st →
        ¬(st.validRows = 0 ∧ st.patches = [] ∧ st.skipped = []) →
        sortPatches st.patches ≠ [] ∨ uniqueStrings st.skipped ≠ [] := by
      intro ex names st hloop hcond
      obtain ⟨-, hcount, hskip⟩ := processAllSheets_inv _ _ _ _ _ _ hloop
        (mkExistingByID_blank existing)
      simp only [List.length_nil] at hcount
      by_cases hp : st.patches = []
      · cases hs : st.skipped with
        | nil =>
          rw [hp, hs] at hcount
          simp only [List.length_nil] at hcount
          exact absurd ⟨by omega, hp, hs⟩ hcond
        | cons x rest =>
          refine Or.inr ?_
          refine uniqueStrings_cons_ne_nil ?_ rest
          rcases hskip x (by rw [hs]; simp) with hx | hx
          · simp at hx
          · exact hx
      · exact Or.inl (fun hnil => hp (sortPatches_eq_nil hnil))
    simp only [runSyncModel] at h
    split at h
    · split at h
      · exact absurd h (by simp)
      · rename_i st heq
        split at h
        · exact absurd h (by simp)
        · rename_i hcond
          simp only [Except.ok.injEq] at h
          subst h
          exact key _ _ st heq hcond
    · split at h
      · exact absurd h (by simp)
      · split at h
        · exact absurd h (by simp)
        · rename_i st heq
          split at h
          · exact absurd h (by simp)
          · rename_i hcond
            simp only [Except.ok.injEq] at h
            subst h
            exact key _ _ st heq hcond

/-- Witness for C8: with explicit names 1.0 and zz where zz fails to
resolve, the run aborts naming sheet zz; and a concrete successful run
carries its accepted patch. -/
theorem claim_C8_error_propagation_witness :
    processAllSheets ⟨["1.0"], false, false⟩
        ⟨[], fun s => if s = "1.0"
            then .ok ⟨"1.0", "1.0", "", "", 0, [], "", []⟩
            else .error "boom", [], fun a _ => a⟩
        true ⟨[], [], [], [], 0, []⟩ ["1.0", "zz"] = .error "sheet zz: boom" ∧
    ((⟨[⟨"1.0", "1.0", "", "", 0, [], "", []⟩], [], ["1.0"],
        [⟨"1.0", "added", []⟩], [⟨"1.0", "1.0", "", "", 0, [], "", []⟩],
        some [⟨"1.0", "1.0", "", "", 0, [], "", []⟩], true⟩ : SyncRunResult).patches ≠ []
      ∨ (⟨[⟨"1.0", "1.0", "", "", 0, [], "", []⟩], [], ["1.0"],
          [⟨"1.0", "added", []⟩], [⟨"1.0", "1.0", "", "", 0, [], "", []⟩],
          some [⟨"1.0", "1.0", "", "", 0, [], "", []⟩], true⟩ : SyncRunResult).skipped ≠ []) :=
  ⟨claim_C8_error_propagation.1 ⟨["1.0"], false, false⟩
      ⟨[], fun s => if s = "1.0"
          then .ok ⟨"1.0", "1.0", "", "", 0, [], "", []⟩
          else .error "boom", [], fun a _ => a⟩
      ⟨[], [], [], [], 0, []⟩ ["1.0"] "zz" [] "boom"
      (by
        intro s hs
        simp only [List.mem_singleton] at hs
        subst hs
        exact ⟨⟨"1.0", "1.0", "", "", 0, [], "", []⟩, rfl⟩)
      rfl,
   claim_C8_error_propagation.2.2 ⟨["1.0"], false, false⟩
      ⟨[], fun s => if s = "1.0"
          then .ok ⟨"1.0", "1.0", "", "", 0, [], "", []⟩
          else .error "boom", [], fun a _ => a⟩
      []
      ⟨[⟨"1.0", "1.0", "", "", 0, [], "", []⟩], [], ["1.0"],
        [⟨"1.0", "added", []⟩], [⟨"1.0", "1.0", "", "", 0, [], "", []⟩],
        some [⟨"1.0", "1.0", "", "", 0, [], "", []⟩], true⟩
      rfl⟩

/-! ### Claim C9 -/

/-- Claim C9: a dry run still performs the whole pipeline — it returns
the same accepted patches, skipped ids, parsed sheet names, change
entries and merged set as the real run — but writes neither the output
file nor a change-log record; in any run the output file is written
exactly when the run is not dry and accepted at least one patch, the
change log exactly when the run is not dry and produced at least one
change entry, and the written content is the single post-merge set
computed from the final accepted patches. -/
theorem claim_C9_dry_run_frame :
    (∀ (sn : List String) (sk : Bool) (env : SyncEnv) (existing : List Patch)
        (r : SyncRunResult),
      runSyncModel ⟨sn, sk, true⟩ env existing = .ok r →
      r.written = none ∧ r.changeLogWritten = false ∧
      ∃ r2, runSyncModel ⟨sn, sk, false⟩ env existing = .ok r2 ∧
        r2.patches = r.patches ∧ r2.skipped = r.skipped ∧
        r2.sheetNames = r.sheetNames ∧ r2.changeEntries = r.changeEntries ∧
        r2.allPatches = r.allPatches) ∧
    (∀ (cfg : SyncCfg) (env : SyncEnv) (existing : List Patch) (r : SyncRunResult),
      runSyncModel cfg env existing = .ok r →
      r.written =
        (if cfg.dryRun = false ∧ r.patches ≠ [] then some r.allPatches else none) ∧
      (r.changeLogWritten = true ↔ (cfg.dryRun = false ∧ r.changeEntries ≠ []))) ∧
    (∀ (cfg : SyncCfg) (env : SyncEnv) (existing : List Patch) (r : SyncRunResult),
      runSyncModel cfg env existing = .ok r →
      r.allPatches = mergePatchesByID existing r.patches) := by
  refine ⟨?_, ?_, ?_⟩
  · intro sn sk env existing r h
    have hloopeq : ∀ (ex : Bool) (st : SyncLoopState) (names : List String),
        processAllSheets ⟨sn, sk, false⟩ env ex st names =
          processAllSheets ⟨sn, sk, true⟩ env ex st names := fun _ _ _ => rfl
    simp only [runSyncModel] at h ⊢
    split at h
    · rename_i hne
      split at h
      · exact absurd h (by simp)
      · rename_i st heq
        split at h
        · exact absurd h (by simp)
        · rename_i hcond
          simp only [Except.ok.injEq] at h
          subst h
          refine ⟨by simp, by simp, ?_⟩
          rw [if_pos hne, if_neg hne, hloopeq, heq]
          dsimp only
          rw [if_neg hcond]
          exact ⟨_, rfl, rfl, rfl, rfl, rfl, rfl⟩
    · rename_i hne
      split at h
      · exact absurd h (by simp)
      · rename_i hdisc
        split at h
        · exact absurd h (by simp)
        · rename_i st heq
          split at h
          · exact absurd h (by simp)
          · rename_i hcond
            simp only [Except.ok.injEq] at h
            subst h
            refine ⟨by simp, by simp, ?_⟩
            rw [if_neg hne, if_neg hdisc, hloopeq, heq]
            dsimp only
            rw [if_neg hcond]
            exact ⟨_, rfl, rfl, rfl, rfl, rfl, rfl⟩
  · intro cfg env existing r h
    simp only [runSyncModel] at h
    split at h
    · split at h
      · exact absurd h (by simp)
      · rename_i st heq
        split at h
        · exact absurd h (by simp)
        · rename_i hcond
          simp only [Except.ok.injEq] at h
          subst h
          constructor
          · by_cases hd : cfg.dryRun = true <;>
              by_cases hnil : sortPatches st.patches = [] <;>
              simp [hd, hnil]
          · by_cases hd : cfg.dryRun = true <;>
              by_cases hce : st.changeEntries = [] <;>
              simp [hd, hce]
    · split at h
      · exact absurd h (by simp)
      · split at h
        · exact absurd h (by simp)
        · rename_i st heq
          split at h
          · exact absurd h (by simp)
          · rename_i hcond
            simp only [Except.ok.injEq] at h
            subst h
            constructor
            · by_cases hd : cfg.dryRun = true <;>
                by_cases hnil : sortPatches st.patches = [] <;>
                simp [hd, hnil]
            · by_cases hd : cfg.dryRun = true <;>
                by_cases hce : st.changeEntries = [] <;>
                simp [hd, hce]
  · intro cfg env existing r h
    simp only [runSyncModel] at h
    split at h
    · split at h
      · exact absurd h (by simp)
      · rename_i st heq
        split at h
        · exact absurd h (by simp)
        · rename_i hcond
          simp only [Except.ok.injEq] at h
          subst h
          rfl
    · split at h
      · exact absurd h (by simp)
      · split at h
        · exact absurd h (by simp)
        · rename_i st heq
          split at h
          · exact absurd h (by simp)
          · rename_i hcond
            simp only [Except.ok.injEq] at h
            subst h
            rfl

/-- Witness for C9: the concrete dry run over sheet 1.0 returns the
parsed patch but writes nothing, and a concrete wet run writes its
merged set exactly once. -/
theorem claim_C9_dry_run_frame_witness :
    ((⟨[⟨"1.0", "1.0", "", "", 0, [], "", []⟩], [], ["1.0"],
        [⟨"1.0", "added", []⟩], [⟨"1.0", "1.0", "", "", 0, [], "", []⟩],
        none, false⟩ : SyncRunResult).written = none ∧
     (⟨[⟨"1.0", "1.0", "", "", 0, [], "", []⟩], [], ["1.0"],
        [⟨"1.0", "added", []⟩], [⟨"1.0", "1.0", "", "", 0, [], "", []⟩],
        none, false⟩ : SyncRunResult).changeLogWritten = false) ∧
    (⟨[⟨"1.0", "1.0", "", "", 0, [], "", []⟩], [], ["1.0"],
        [⟨"1.0", "added", []⟩], [⟨"1.0", "1.0", "", "", 0, [], "", []⟩],
        some [⟨"1.0", "1.0", "", "", 0, [], "", []⟩], true⟩ : SyncRunResult).written =
      (if (⟨["1.0"], false, false⟩ : SyncCfg).dryRun = false ∧
          (⟨[⟨"1.0", "1.0", "", "", 0, [], "", []⟩], [], ["1.0"],
            [⟨"1.0", "added", []⟩], [⟨"1.0", "1.0", "", "", 0, [], "", []⟩],
            some [⟨"1.0", "1.0", "", "", 0, [], "", []⟩], true⟩ : SyncRunResult).patches ≠ []
        then some (⟨[⟨"1.0", "1.0", "", "", 0, [], "", []⟩], [], ["1.0"],
            [⟨"1.0", "added", []⟩], [⟨"1.0", "1.0", "", "", 0, [], "", []⟩],
            some [⟨"1.0", "1.0", "", "", 0, [], "", []⟩], true⟩ : SyncRunResult).allPatches
        else none) ∧
    (⟨[⟨"1.0", "1.0", "", "", 0, [], "", []⟩], [], ["1.0"],
        [⟨"1.0", "added", []⟩], [⟨"1.0", "1.0", "", "", 0, [], "", []⟩],
        some [⟨"1.0", "1.0", "", "", 0, [], "", []⟩], true⟩ : SyncRunResult).allPatches =
      mergePatchesByID []
        (⟨[⟨"1.0", "1.0", "", "", 0, [], "", []⟩], [], ["1.0"],
          [⟨"1.0", "added", []⟩], [⟨"1.0", "1.0", "", "", 0, [], "", []⟩],
          some [⟨"1.0", "1.0", "", "", 0, [], "", []⟩], true⟩ : SyncRunResult).patches :=
  have hdry := claim_C9_dry_run_frame.1 ["1.0"] false
    ⟨[], fun s => if s = "1.0"
        then .ok ⟨"1.0", "1.0", "", "", 0, [], "", []⟩
        else .error "boom", [], fun a _ => a⟩ []
    ⟨[⟨"1.0", "1.0", "", "", 0, [], "", []⟩], [], ["1.0"],
      [⟨"1.0", "added", []⟩], [⟨"1.0", "1.0", "", "", 0, [], "", []⟩],
      none, false⟩ rfl
  ⟨⟨hdry.1, hdry.2.1⟩,
   (claim_C9_dry_run_frame.2.1 ⟨["1.0"], false, false⟩
      ⟨[], fun s => if s = "1.0"
          then .ok ⟨"1.0", "1.0", "", "", 0, [], "", []⟩
          else .error "boom", [], fun a _ => a⟩ []
      ⟨[⟨"1.0", "1.0", "", "", 0, [], "", []⟩], [], ["1.0"],
        [⟨"1.0", "added", []⟩], [⟨"1.0", "1.0", "", "", 0, [], "", []⟩],
        some [⟨"1.0", "1.0", "", "", 0, [], "", []⟩], true⟩ rfl).1,
   claim_C9_dry_run_frame.2.2 ⟨["1.0"], false, false⟩
      ⟨[], fun s => if s = "1.0"
          then .ok ⟨"1.0", "1.0", "", "", 0, [], "", []⟩
          else .error "boom", [], fun a _ => a⟩ []
      ⟨[⟨"1.0", "1.0", "", "", 0, [], "", []⟩], [], ["1.0"],
        [⟨"1.0", "added", []⟩], [⟨"1.0", "1.0", "", "", 0, [], "", []⟩],
        some [⟨"1.0", "1.0", "", "", 0, [], "", []⟩], true⟩ rfl⟩

/-! ### Claim C1 -/

theorem processSheet_skips {cfg : SyncCfg} {env : SyncEnv} (ex : Bool)
    {st : SyncLoopState} {s : String} {p prevP : Patch}
    (hsk : cfg.skipExisting = true)
    (hres : env.resolve s = .ok p)
    (hlook : st.existingByID.lookup (patchIDOrFallback p) = some prevP)
    (heqv : patchesEquivalent prevP (taggedPatch env (patchIDOrFallback p) p) = true)
    (hpid : patchIDOrFallback p ≠ "") :
    processSheet cfg env ex st s = .ok { st with
      validRows := st.validRows + 1
      skipped := st.skipped ++ [patchIDOrFallback p] } := by
  rw [processSheet, hres]
  dsimp only
  rw [hlook]
  dsimp only
  rw [hsk, heqv]
  rw [if_pos (show (true && true) = true from rfl), if_pos hpid]

theorem skip_loop {cfg : SyncCfg} {env : SyncEnv} (ex : Bool)
    (existing : List Patch) (hsk : cfg.skipExisting = true) :
    ∀ (names : List String) (st : SyncLoopState),
      st.existingByID = mkExistingByID existing →
      (∀ s ∈ names, ∃ p, env.resolve s = .ok p ∧
        ∃ prevP, (mkExistingByID existing).lookup (patchIDOrFallback p) = some prevP ∧
          patchesEquivalent prevP (taggedPatch env (patchIDOrFallback p) p) = true) →
      ∃ st2, processAllSheets cfg env ex st names = .ok st2 ∧
        st2.patches = st.patches ∧ st2.changeEntries = st.changeEntries ∧
        st2.parsedSheetNames = st.parsedSheetNames ∧
        st2.existingByID = st.existingByID ∧
        st2.validRows = st.validRows + names.length ∧
        st2.skipped.length = st.skipped.length + names.length
  | [], st => by
    intro _ _
    exact ⟨st, rfl, rfl, rfl, rfl, rfl, by simp, by simp⟩
  | n :: ns, st => by
    intro hEB hyp
    obtain ⟨p, hres, prevP, hlook, heqv⟩ := hyp n (by simp)
    have hpid : patchIDOrFallback p ≠ "" := by
      intro hpe
      rw [hpe, mkExistingByID_blank] at hlook
      cases hlook
    have hstep := processSheet_skips ex hsk hres
      (by rw [hEB]; exact hlook) heqv hpid
    rw [processAllSheets_cons, hstep]
    have hbind : ((Except.ok { st with
        validRows := st.validRows + 1
        skipped := st.skipped ++ [patchIDOrFallback p] } :
          Except String SyncLoopState) >>= fun st3 =>
        processAllSheets cfg env ex st3 ns) =
        processAllSheets cfg env ex { st with
          validRows := st.validRows + 1
          skipped := st.skipped ++ [patchIDOrFallback p] } ns := rfl
    rw [hbind]
    obtain ⟨st2, hrun, h1, h2, h3, h4, h5, h6⟩ := skip_loop ex existing hsk ns
      { st with
        validRows := st.validRows + 1
        skipped := st.skipped ++ [patchIDOrFallback p] }
      (by exact hEB) (fun s hs => hyp s (by simp [hs]))
    refine ⟨st2, hrun, h1, h2, h3, h4, ?_, ?_⟩
    · rw [h5]
      show st.validRows + 1 + ns.length = st.validRows + (n :: ns).length
      simp only [List.length_cons]
      omega
    · rw [h6]
      have hlen : ({ st with
          validRows := st.validRows + 1
          skipped := st.skipped ++ [patchIDOrFallback p] } :
            SyncLoopState).skipped.length = st.skipped.length + 1 := by
        show (st.skipped ++ [patchIDOrFallback p]).length = st.skipped.length + 1
        rw [List.length_append]
        rfl
      rw [hlen, List.length_cons]
      omega

theorem sortVersionStrings_ne_nil {l : List String} (h : l ≠ []) :
    sortVersionStrings l ≠ [] := by
  intro hnil
  have := (insSort_perm versionLess l).length_eq
  rw [sortVersionStrings] at hnil
  rw [hnil] at this
  exact h (List.length_eq_zero.mp this.symm)

theorem sortVersionStrings_length (l : List String) :
    (sortVersionStrings l).length = l.length :=
  (insSort_perm versionLess l).length_eq

/-- Claim C1 (amended): re-running sync with skip-existing enabled is
idempotent PROVIDED every processed sheet resolves to a patch whose
(non-blank) id maps in the prior generated output to a stored patch
equivalent to the freshly resolved, tag-merged one — in particular
after a run in which no two sheets collapsed to the same patch id and
whose output survived the write/read round trip.  Then the next run
accepts nothing: zero added/updated change entries, no accepted
patches, no rewrite of the output file, no change-log record, and a
non-empty skip list.  (Without the distinct-id proviso idempotence
fails: see claim_C1_sync_idempotence_counterexample.) -/
theorem claim_C1_sync_idempotence :
    ∀ (cfg : SyncCfg) (env : SyncEnv) (existing : List Patch),
      cfg.skipExisting = true →
      (if uniqueSheetNames cfg.sheetNames ≠ []
        then uniqueSheetNames cfg.sheetNames else env.discovered) ≠ [] →
      (∀ s ∈ sortVersionStrings (if uniqueSheetNames cfg.sheetNames ≠ []
          then uniqueSheetNames cfg.sheetNames else env.discovered),
        ∃ p, env.resolve s = .ok p ∧
          ∃ prevP, (mkExistingByID existing).lookup (patchIDOrFallback p) = some prevP ∧
            patchesEquivalent prevP (taggedPatch env (patchIDOrFallback p) p) = true) →
      ∃ r, runSyncModel cfg env existing = .ok r ∧
        r.changeEntries = [] ∧ r.patches = [] ∧ r.sheetNames = [] ∧
        r.written = none ∧ r.changeLogWritten = false ∧ r.skipped ≠ [] := by
  intro cfg env existing hsk hne hyp
  simp only [runSyncModel]
  by_cases hu : uniqueSheetNames cfg.sheetNames ≠ []
  · rw [if_pos hu] at hyp hne ⊢
    rw [if_neg hne]
    obtain ⟨st2, hrun, h1, h2, h3, h4, h5, h6⟩ :=
      skip_loop (decide (uniqueSheetNames cfg.sheetNames ≠ [])) existing hsk
        (sortVersionStrings (uniqueSheetNames cfg.sheetNames))
        ⟨[], [], [], [], 0, mkExistingByID existing⟩ rfl hyp
    rw [hrun]
    dsimp only
    have hlen : 1 ≤ (sortVersionStrings (uniqueSheetNames cfg.sheetNames)).length := by
      cases hc : sortVersionStrings (uniqueSheetNames cfg.sheetNames) with
      | nil => exact absurd hc (sortVersionStrings_ne_nil hne)
      | cons a l => simp
    rw [if_neg (by
      rintro ⟨hv, -, -⟩
      rw [h5] at hv
      dsimp only at hv
      omega)]
    obtain ⟨-, -, hskipNB⟩ := processAllSheets_inv _ _ _ _ _ _ hrun
      (mkExistingByID_blank existing)
    refine ⟨_, rfl, ?_, ?_, ?_, ?_, ?_, ?_⟩
    · exact h2
    · show sortPatches st2.patches = []
      rw [h1]
      rfl
    · exact h3
    · show (if _ ∧ sortPatches st2.patches ≠ [] then _ else none) = none
      rw [h1]
      rw [if_neg (by rintro ⟨-, hbad⟩; exact hbad rfl)]
    · show decide (¬cfg.dryRun = true ∧ st2.changeEntries ≠ []) = false
      rw [h2]
      simp
    · show uniqueStrings st2.skipped ≠ []
      have hlen2 : 1 ≤ st2.skipped.length := by
        rw [h6]
        dsimp only
        omega
      cases hc : st2.skipped with
      | nil => rw [hc] at hlen2; simp at hlen2
      | cons x rest =>
        refine uniqueStrings_cons_ne_nil ?_ rest
        rcases hskipNB x (by rw [hc]; simp) with hx | hx
        · simp at hx
        · exact hx
  · rw [if_neg hu] at hyp hne ⊢
    rw [if_neg hne]
    obtain ⟨st2, hrun, h1, h2, h3, h4, h5, h6⟩ :=
      skip_loop (decide (uniqueSheetNames cfg.sheetNames ≠ [])) existing hsk
        (sortVersionStrings env.discovered)
        ⟨[], [], [], [], 0, mkExistingByID existing⟩ rfl hyp
    rw [hrun]
    dsimp only
    have hlen : 1 ≤ (sortVersionStrings env.discovered).length := by
      cases hc : sortVersionStrings env.discovered with
      | nil => exact absurd hc (sortVersionStrings_ne_nil hne)
      | cons a l => simp
    rw [if_neg (by
      rintro ⟨hv, -, -⟩
      rw [h5] at hv
      dsimp only at hv
      omega)]
    obtain ⟨-, -, hskipNB⟩ := processAllSheets_inv _ _ _ _ _ _ hrun
      (mkExistingByID_blank existing)
    refine ⟨_, rfl, ?_, ?_, ?_, ?_, ?_, ?_⟩
    · exact h2
    · show sortPatches st2.patches = []
      rw [h1]
      rfl
    · exact h3
    · show (if _ ∧ sortPatches st2.patches ≠ [] then _ else none) = none
      rw [h1]
      rw [if_neg (by rintro ⟨-, hbad⟩; exact hbad rfl)]
    · show decide (¬cfg.dryRun = true ∧ st2.changeEntries ≠ []) = false
      rw [h2]
      simp
    · show uniqueStrings st2.skipped ≠ []
      have hlen2 : 1 ≤ st2.skipped.length := by
        rw [h6]
        dsimp only
        omega
      cases hc : st2.skipped with
      | nil => rw [hc] at hlen2; simp at hlen2
      | cons x rest =>
        refine uniqueStrings_cons_ne_nil ?_ rest
        rcases hskipNB x (by rw [hc]; simp) with hx | hx
        · simp at hx
        · exact hx

/-- Counterexample to claim C1 as stated: two distinct sheet names,
1.0-x with one internal space and with two, both normalize to the same
patch id but carry different reward data.  With skip-existing enabled
and upstream content, Data sheet and output file unchanged between the
runs, the second run still produces an updated change entry (one entry,
written flag true): the output of run one can only store one of the two
colliding patches, so the other sheet re-updates it forever. -/
theorem claim_C1_sync_idempotence_counterexample :
    ((runSyncModel ⟨["1.0 x", "1.0  x"], true, false⟩
        ⟨[], fun s => parseSheetToPatchWuwa s
            (if s = "1.0 x"
              then [["Version 1.0"], ["Version Length", "40"],
                    ["Version Events", "1600", "2", "1", "3"],
                    ["Permanent Content", "160", "0", "0", "0"],
                    ["Mailbox/Miscellaneous", "0", "0", "0", "0"],
                    ["Recurring Sources", "320", "0", "0", "0"]]
              else [["Version 1.0"], ["Version Length", "40"],
                    ["Version Events", "1700", "2", "1", "3"],
                    ["Permanent Content", "160", "0", "0", "0"],
                    ["Mailbox/Miscellaneous", "0", "0", "0", "0"],
                    ["Recurring Sources", "320", "0", "0", "0"]]),
          [], fun a _ => a⟩ []).toOption.bind (fun r1 =>
        (runSyncModel ⟨["1.0 x", "1.0  x"], true, false⟩
          ⟨[], fun s => parseSheetToPatchWuwa s
              (if s = "1.0 x"
                then [["Version 1.0"], ["Version Length", "40"],
                      ["Version Events", "1600", "2", "1", "3"],
                      ["Permanent Content", "160", "0", "0", "0"],
                      ["Mailbox/Miscellaneous", "0", "0", "0", "0"],
                      ["Recurring Sources", "320", "0", "0", "0"]]
                else [["Version 1.0"], ["Version Length", "40"],
                      ["Version Events", "1700", "2", "1", "3"],
                      ["Permanent Content", "160", "0", "0", "0"],
                      ["Mailbox/Miscellaneous", "0", "0", "0", "0"],
                      ["Recurring Sources", "320", "0", "0", "0"]]),
            [], fun a _ => a⟩ r1.allPatches).toOption.map
          (fun r2 => (r2.changeEntries.length, r2.written.isSome)))) =
      some (1, true) := by
  decide

/-- Witness for the amended C1: a single sheet 1.0 whose stored patch
equals the freshly resolved one is fully skipped, with nothing written.
-/
theorem claim_C1_sync_idempotence_witness :
    ∃ r, runSyncModel ⟨["1.0"], true, false⟩
        ⟨[], fun s => if s = "1.0"
            then .ok ⟨"1.0", "1.0", "", "", 0, [], "", []⟩
            else .error "boom", [], fun a _ => a⟩
        [⟨"1.0", "1.0", "", "", 0, [], "", []⟩] = .ok r ∧
      r.changeEntries = [] ∧ r.patches = [] ∧ r.sheetNames = [] ∧
      r.written = none ∧ r.changeLogWritten = false ∧ r.skipped ≠ [] :=
  claim_C1_sync_idempotence ⟨["1.0"], true, false⟩
    ⟨[], fun s => if s = "1.0"
        then .ok ⟨"1.0", "1.0", "", "", 0, [], "", []⟩
        else .error "boom", [], fun a _ => a⟩
    [⟨"1.0", "1.0", "", "", 0, [], "", []⟩]
    rfl (by decide)
    (by
      intro s hs
      have hls : sortVersionStrings (if uniqueSheetNames
            (⟨["1.0"], true, false⟩ : SyncCfg).sheetNames ≠ []
          then uniqueSheetNames (⟨["1.0"], true, false⟩ : SyncCfg).sheetNames
          else (⟨[], fun s => if s = "1.0"
              then .ok ⟨"1.0", "1.0", "", "", 0, [], "", []⟩
              else .error "boom", [], fun a _ => a⟩ : SyncEnv).discovered) =
          ["1.0"] := rfl
      rw [hls] at hs
      simp only [List.mem_singleton] at hs
      subst hs
      exact ⟨⟨"1.0", "1.0", "", "", 0, [], "", []⟩, rfl,
        ⟨"1.0", "1.0", "", "", 0, [], "", []⟩, by decide, by decide⟩)
